import Mathlib

/-!
# imperfectgo/common, package `log`: configuration parsing and the global logger

A shallow embedding of `src/log/lumberjack.go`, `src/log/config.go` and
`src/log/globals.go`, with the properties of the specification proved or
refuted over it.

Conventions of the embedding.

* A Go `string` is a `GoString`, a list of code points. Every delimiter the
  package looks for (`,` `;` `=`) is ASCII, so cutting at a code point is
  cutting at the same byte of valid UTF-8 text.
* A Go `map[string]T` is a `GoMap T`: the list of its entries, keys unique.
  `for k, v := range m` visits the entries in an order Go leaves unspecified;
  every function that ranges over a map takes that order as a `RangeOrder`
  argument, and a property of the program is one that holds for every
  `RangeOrder` that is a permutation.
* Go's `int` is the 64-bit `int` of the usual targets, carried by `Int` with
  the range check of `strconv` explicit.
* A Go slice is `Option (List α)`, `none` being the `nil` slice.
* `(T, error)` results are `Except GoError T`.
-/

namespace GoLog

/-! ## Strings, `strings` and `strconv` -/

/-- A Go string, as the sequence of its code points. -/
abbrev GoString := List Char

/-- The two causes a `strconv` conversion reports. -/
inductive NumErrKind where
  | ErrSyntax
  | ErrRange
deriving DecidableEq, Repr

/-- The type `strconv.NumError`: failing function, offending input, cause. -/
structure NumError where
  Func : GoString
  Num : GoString
  Err : NumErrKind
deriving DecidableEq, Repr

/-- The error values the package returns. `withMessage` is
`errors.WithMessage(cause, msg)`; the others are the `fmt.Errorf` calls of
`config.go`, kept with their argument; `unrecognizedLevel` is the error of the
level parser of the logging library; `indexOutOfRange` is the run-time panic
of `vs[0]` on an empty slice. -/
inductive GoError where
  | numError (e : NumError)
  | external (text : GoString)
  | withMessage (cause : GoError) (msg : GoString)
  | invalidScheme (scheme : GoString)
  | unsupportedLogger (name : GoString)
  | unknownFraming (v : GoString)
  | unknownEncoderType (t : Int)
  | unrecognizedLevel (text : GoString)
  | emptyMessage
  | indexOutOfRange
deriving DecidableEq, Repr

deriving instance DecidableEq for Except

/-- The function `unicode.ToLower` on one rune. The ASCII range is the code of
the library; `u` stands for its case tables on the other runes. -/
def toLowerRune (u : Char → Char) (c : Char) : Char :=
  if c.toNat < 128 then
    if 65 ≤ c.toNat ∧ c.toNat ≤ 90 then Char.ofNat (c.toNat + 32) else c
  else u c

/-- The function `strings.ToLower`: every rune mapped by `unicode.ToLower`. -/
def ToLower (u : Char → Char) (s : GoString) : GoString :=
  s.map (toLowerRune u)

/-- Value of a decimal digit, `none` for any other rune. -/
def digitVal (c : Char) : Option Nat :=
  if 48 ≤ c.toNat ∧ c.toNat ≤ 57 then some (c.toNat - 48) else none

/-- The bound `maxUint64`. -/
def maxUint64 : Nat := 2 ^ 64 - 1

/-- The loop of `strconv.ParseUint(s, 10, 64)`: left to right, a rune that is
not a digit is a syntax error, an accumulator leaving 64 bits a range error. -/
def parseUintLoop : Nat → GoString → Except NumErrKind Nat
  | n, [] => .ok n
  | n, c :: s =>
    match digitVal c with
    | none => .error .ErrSyntax
    | some d =>
      if maxUint64 / 10 + 1 ≤ n then .error .ErrRange
      else if maxUint64 < n * 10 + d then .error .ErrRange
      else parseUintLoop (n * 10 + d) s

/-- The function `strconv.Atoi` for a 64-bit `int`: an optional sign, then at
least one decimal digit, the value within `[-2^63, 2^63 - 1]`. -/
def Atoi (s : GoString) : Except NumError Int :=
  match s with
  | [] => .error ⟨"Atoi".data, s, .ErrSyntax⟩
  | c :: rest =>
    let body := if c = '+' ∨ c = '-' then rest else s
    match body with
    | [] => .error ⟨"Atoi".data, s, .ErrSyntax⟩
    | _ :: _ =>
      match parseUintLoop 0 body with
      | .error k => .error ⟨"Atoi".data, s, k⟩
      | .ok un =>
        if c = '-' then
          if 2 ^ 63 < un then .error ⟨"Atoi".data, s, .ErrRange⟩ else .ok (-(un : Int))
        else
          if 2 ^ 63 ≤ un then .error ⟨"Atoi".data, s, .ErrRange⟩ else .ok (un : Int)

/-- The function `strconv.ParseBool`. -/
def ParseBool (s : GoString) : Except NumError Bool :=
  if s = "1".data ∨ s = "t".data ∨ s = "T".data ∨ s = "TRUE".data ∨ s = "true".data
      ∨ s = "True".data then .ok true
  else if s = "0".data ∨ s = "f".data ∨ s = "F".data ∨ s = "FALSE".data ∨ s = "false".data
      ∨ s = "False".data then .ok false
  else .error ⟨"ParseBool".data, s, .ErrSyntax⟩

/-- The pieces of `s` between the runes of `seps`, empty pieces included:
`strings.Split(s, ",")` is `splitAny [','] s`. -/
def splitAny (seps : List Char) : GoString → List GoString
  | [] => [[]]
  | c :: s =>
    if c ∈ seps then [] :: splitAny seps s
    else
      match splitAny seps s with
      | [] => [[c]]
      | h :: t => (c :: h) :: t

/-- The function `strings.Split(s, ",")`. -/
def Split (s : GoString) : List GoString := splitAny [','] s

/-- The cut `key[:i], key[i+1:]` at the first `=` of a pair (`strings.Index`),
the value being empty when there is none. -/
def cutEq (kv : GoString) : GoString × GoString :=
  (kv.takeWhile (fun c => c != '='), (kv.dropWhile (fun c => c != '=')).drop 1)

/-! ## Maps -/

/-- A Go map with string keys, as the list of its entries. -/
abbrev GoMap (β : Type) := List (GoString × β)

/-- The assignment `m[k] = v`. -/
def GoMap.set {β : Type} : GoMap β → GoString → β → GoMap β
  | [], k, v => [(k, v)]
  | (k', v') :: m, k, v => if k' = k then (k, v) :: m else (k', v') :: GoMap.set m k v

/-- The lookup `m[k]` with its presence flag. -/
def GoMap.get {β : Type} : GoMap β → GoString → Option β
  | [], _ => none
  | (k', v') :: m, k => if k' = k then some v' else GoMap.get m k

/-- The order in which one `range` statement visits the entries of a map. -/
abbrev RangeOrder (β : Type) := GoMap β → GoMap β

/-- A range visits every entry exactly once. -/
def RangeOrder.Valid {β : Type} (ρ : RangeOrder β) : Prop := ∀ m, (ρ m).Perm m

/-! ## `lumberjack.go` -/

/-- The constant `DefaultLumberjackMaxSize`. -/
def DefaultLumberjackMaxSize : Int := 100

/-- The constant `DefaultLumberjackMaxBackups`. -/
def DefaultLumberjackMaxBackups : Int := 50

/-- The struct `LumberjackConfig`. -/
structure LumberjackConfig where
  Filename : GoString
  MaxSize : Int
  MaxAge : Int
  MaxBackups : Int
  LocalTime : Bool
  Compress : Bool
deriving DecidableEq, Repr

/-- The value `c` that `parseLumberjack` starts from. -/
def lumberjackInit : LumberjackConfig :=
  { Filename := [], MaxSize := DefaultLumberjackMaxSize, MaxAge := 0,
    MaxBackups := DefaultLumberjackMaxBackups, LocalTime := false, Compress := false }

/-- The assignments `m[key] = value` of the scanning loop of `parseLumberjack`,
in the order it makes them: the non-empty pieces of `s` between `,` and `;`,
each cut at its first `=`. -/
def scanPairs (s : GoString) : List (GoString × GoString) :=
  ((splitAny [',', ';'] s).filter (fun seg => seg != [])).map cutEq

/-- The map `m` that the scanning loop of `parseLumberjack` leaves. -/
def scanKV (s : GoString) : GoMap GoString :=
  (scanPairs s).foldl (fun m p => m.set p.1 p.2) []

/-- The `case "filename"` label. -/
def kFilename : GoString := "filename".data

/-- The `case "maxsize"` label. -/
def kMaxSize : GoString := "maxsize".data

/-- The `case "maxage"` label. -/
def kMaxAge : GoString := "maxage".data

/-- The `case "maxbackups"` label. -/
def kMaxBackups : GoString := "maxbackups".data

/-- The `case "localtime"` label. -/
def kLocalTime : GoString := "localtime".data

/-- The `case "compress"` label. -/
def kCompress : GoString := "compress".data

/-- The text `fmt.Sprintf("lumberjack: error parsing %s", key)`. -/
def errMessage (key : GoString) : GoString := "lumberjack: error parsing ".data ++ key

/-- One pass of the body of the second loop of `parseLumberjack`: the `switch`
on the lower-cased key. -/
def applyEntry (u : Char → Char) (c : LumberjackConfig) (key value : GoString) :
    Except GoError LumberjackConfig :=
  let k := ToLower u key
  if k = kFilename then .ok { c with Filename := value }
  else if k = kMaxSize then
    match Atoi value with
    | .error e => .error (.withMessage (.numError e) (errMessage key))
    | .ok v => .ok { c with MaxSize := v }
  else if k = kMaxAge then
    match Atoi value with
    | .error e => .error (.withMessage (.numError e) (errMessage key))
    | .ok v => .ok { c with MaxAge := v }
  else if k = kMaxBackups then
    match Atoi value with
    | .error e => .error (.withMessage (.numError e) (errMessage key))
    | .ok v => .ok { c with MaxBackups := v }
  else if k = kLocalTime then
    match ParseBool value with
    | .error e => .error (.withMessage (.numError e) (errMessage key))
    | .ok v => .ok { c with LocalTime := v }
  else if k = kCompress then
    match ParseBool value with
    | .error e => .error (.withMessage (.numError e) (errMessage key))
    | .ok v => .ok { c with Compress := v }
  else .ok c

/-- The second loop of `parseLumberjack` over the entries in the order given:
the first entry that fails to parse ends it with that error. -/
def applyEntries (u : Char → Char) :
    LumberjackConfig → List (GoString × GoString) → Except GoError LumberjackConfig
  | c, [] => .ok c
  | c, (k, v) :: es =>
    match applyEntry u c k v with
    | .error e => .error e
    | .ok c' => applyEntries u c' es

/-- The function `parseLumberjack`; `ρ` is the order of its `range m`. -/
def parseLumberjack (u : Char → Char) (ρ : RangeOrder GoString) (s : GoString) :
    Except GoError LumberjackConfig :=
  applyEntries u lumberjackInit (ρ (scanKV s))

/-- The loop of `ParseLumberjacks` from index `i` on. -/
def parseLumberjacksFrom (u : Char → Char) (ρ : Nat → RangeOrder GoString) :
    Nat → List GoString → Except GoError (List LumberjackConfig)
  | _, [] => .ok []
  | i, v :: vs =>
    match parseLumberjack u (ρ i) v with
    | .error e => .error e
    | .ok l =>
      match parseLumberjacksFrom u ρ (i + 1) vs with
      | .error e => .error e
      | .ok ls => .ok (l :: ls)

/-- The function `ParseLumberjacks`; `ρ i` is the order in which the map of the
`i`-th spec is ranged over. -/
def ParseLumberjacks (u : Char → Char) (ρ : Nat → RangeOrder GoString) (vs : List GoString) :
    Except GoError (List LumberjackConfig) :=
  parseLumberjacksFrom u ρ 0 vs


/-! ## `defaults.go` and the types of `config.go` -/

/-- A Go slice: `none` is `nil`. -/
abbrev Slice (α : Type) := Option (List α)

/-- The elements of a slice, `nil` having none. -/
def Slice.elems {α : Type} : Slice α → List α
  | none => []
  | some l => l

/-- The built-in `append(s, xs...)`: `nil` stays `nil` when nothing is added. -/
def goAppend {α : Type} : Slice α → List α → Slice α
  | none, [] => none
  | none, x :: xs => some (x :: xs)
  | some l, xs => some (l ++ xs)

/-- The type `EncoderType`, an `int`. -/
abbrev EncoderType := Int

/-- The constant `JSONEncoder`. -/
def JSONEncoder : EncoderType := 0

/-- The constant `ConsoleEncoder`. -/
def ConsoleEncoder : EncoderType := 1

/-- The constant `SyslogEncoder`. -/
def SyslogEncoder : EncoderType := 2

/-- The type `zap.AtomicLevel`: a handle on a shared level cell, two handles
being the same threshold when they name the same cell. -/
structure AtomicLevel where
  cell : Nat
deriving DecidableEq, Repr

/-- The variable `baseLoggerLevel`, the one cell `zap.NewAtomicLevel()` made
for the package. -/
def baseLoggerLevel : AtomicLevel := ⟨0⟩

/-- The type `zapsyslog.Framing`, an `int`. -/
abbrev Framing := Int

/-- The constant `zapsyslog.NonTransparentFraming`. -/
def NonTransparentFraming : Framing := 0

/-- The constant `zapsyslog.OctetCountingFraming`. -/
def OctetCountingFraming : Framing := 1

/-- The constant `zapsyslog.DefaultFraming`. -/
def DefaultFraming : Framing := NonTransparentFraming

/-- The type `syslog.Priority`, an `int`. -/
abbrev Priority := Int

/-- The constant `syslog.LOG_LOCAL0`. -/
def LOG_LOCAL0 : Priority := 128

/-- The struct `Config`. -/
structure Config where
  EncoderType : GoLog.EncoderType
  Level : AtomicLevel
  Development : Bool
  DisableCaller : Bool
  DisableStacktrace : Bool
  OutputPaths : Slice GoString
  ErrorOutputPaths : Slice GoString
  Lumberjacks : Slice LumberjackConfig
  ErrorLumberjacks : Slice LumberjackConfig
  OutputAddresses : Slice GoString
  Framing : GoLog.Framing
  Facility : Priority
  Hostname : GoString
  PID : Int
  App : GoString
  defaultOutputPaths : Slice GoString
  defaultErrorOutputPaths : Slice GoString
deriving DecidableEq, Repr

/-- The variable `defaultConfig`; the fields it does not name hold their zero
value. -/
def defaultConfig : Config :=
  { EncoderType := 0
    Level := baseLoggerLevel
    Development := false
    DisableCaller := true
    DisableStacktrace := false
    OutputPaths := none
    ErrorOutputPaths := none
    Lumberjacks := none
    ErrorLumberjacks := none
    OutputAddresses := none
    Framing := 0
    Facility := 0
    Hostname := []
    PID := 0
    App := []
    defaultOutputPaths := some ["stderr".data]
    defaultErrorOutputPaths := some ["stderr".data] }

/-- The keys of a `zapcore.EncoderConfig`; its encoder functions are values of
the logging library and are left out. -/
structure EncoderConfig where
  TimeKey : GoString
  LevelKey : GoString
  NameKey : GoString
  CallerKey : GoString
  MessageKey : GoString
  StacktraceKey : GoString
deriving DecidableEq, Repr

/-- The variable `defaultConsoleEncoderConfig`. -/
def defaultConsoleEncoderConfig : EncoderConfig :=
  { TimeKey := "T".data, LevelKey := "L".data, NameKey := "N".data, CallerKey := "C".data,
    MessageKey := "M".data, StacktraceKey := "S".data }

/-- The variable `defaultJSONEncoderConfig`. -/
def defaultJSONEncoderConfig : EncoderConfig :=
  { TimeKey := "ts".data, LevelKey := "level".data, NameKey := "logger".data,
    CallerKey := "caller".data, MessageKey := "msg".data, StacktraceKey := "stacktrace".data }

/-- The struct `zapsyslog.SyslogEncoderConfig`. -/
structure SyslogEncoderConfig where
  EncoderConfig : GoLog.EncoderConfig
  Framing : GoLog.Framing
  Facility : Priority
  Hostname : GoString
  PID : Int
  App : GoString
deriving DecidableEq, Repr

/-- The variable `defaultSyslogEncoderConfig`. -/
def defaultSyslogEncoderConfig : SyslogEncoderConfig :=
  { EncoderConfig := defaultJSONEncoderConfig
    Framing := DefaultFraming
    Facility := LOG_LOCAL0
    Hostname := []
    PID := 0
    App := [] }

/-- An encoder, as the constructor that made it and the configuration it was
handed. -/
inductive Encoder where
  | json (cfg : EncoderConfig)
  | console (cfg : EncoderConfig)
  | syslog (cfg : SyslogEncoderConfig)
deriving DecidableEq, Repr

/-! ## `config.go`: the encoder of `Build` -/

/-- The local `encoderCfg` of the `SyslogEncoder` case of `Build`, after its
five assignments. -/
def Config.syslogEncoderCfg (cfg : Config) : SyslogEncoderConfig :=
  { defaultSyslogEncoderConfig with
    Framing := cfg.Framing
    Facility := cfg.Facility
    Hostname := cfg.Hostname
    PID := cfg.PID
    App := cfg.App }

/-- The first `switch` of `Build`: the encoder `enc`. The `SyslogEncoder` case
fills `encoderCfg` and then calls
`zapsyslog.NewSyslogEncoder(defaultSyslogEncoderConfig)`. -/
def Config.buildEncoder (cfg : Config) : Except GoError Encoder :=
  if cfg.EncoderType = JSONEncoder then .ok (.json defaultJSONEncoderConfig)
  else if cfg.EncoderType = ConsoleEncoder then .ok (.console defaultConsoleEncoderConfig)
  else if cfg.EncoderType = SyslogEncoder then
    let _encoderCfg := cfg.syslogEncoderCfg
    .ok (.syslog defaultSyslogEncoderConfig)
  else .error (.unknownEncoderType cfg.EncoderType)

/-! ## `config.go`: parsing a configuration URI -/

/-- The fields of a `url.URL` the package reads. `QueryPairs` stands for
`RawQuery`: the decoded `key=value` pairs in the order of the query, as
`url.ParseQuery` meets them. -/
structure URL where
  Scheme : GoString
  Opaque : GoString
  QueryPairs : List (GoString × GoString)
deriving DecidableEq, Repr

/-- The method `u.Query()`: a `url.Values`, each key mapped to its values in
query order (`m[key] = append(m[key], value)`). -/
def URL.Query (url : URL) : GoMap (List GoString) :=
  url.QueryPairs.foldl (fun m p => m.set p.1 ((m.get p.1).getD [] ++ [p.2])) []

/-- A `for k, v := range` loop whose body may return an error: `step` is the
body, the list the entries in the order visited. -/
def rangeM {β σ : Type} (step : σ → GoString → β → Except GoError σ) :
    σ → GoMap β → Except GoError σ
  | st, [] => .ok st
  | st, (k, v) :: es =>
    match step st k v with
    | .error e => .error e
    | .ok st' => rangeM step st' es

/-- The function `appendStringsFromStrings`. -/
def appendStringsFromStrings (output : Slice GoString) (vs : List GoString) : Slice GoString :=
  goAppend output vs

/-- The function `appendStringsFromCommaSeparatedStrings`. -/
def appendStringsFromCommaSeparatedStrings (output : Slice GoString) (vs : List GoString) :
    Slice GoString :=
  vs.foldl (fun out s => goAppend out (Split s)) output

/-- A boolean parameter read from `vs[0]`: the panic of an empty `vs`, the
error of `strconv.ParseBool` wrapped in `msg`, or the value. -/
def parseBoolParam (vs : List GoString) (msg : GoString) : Except GoError Bool :=
  match vs with
  | [] => .error .indexOutOfRange
  | v0 :: _ =>
    match ParseBool v0 with
    | .error e => .error (.withMessage (.numError e) msg)
    | .ok b => .ok b

/-- The body of the loop of `populateCommonFromQS`. -/
def commonStep (cfg : Config) (k : GoString) (vs : List GoString) : Except GoError Config :=
  if k = "development".data then
    match parseBoolParam vs "config: error parsing development".data with
    | .error e => .error e
    | .ok b => .ok { cfg with Development := b }
  else if k = "disableCaller".data then
    match parseBoolParam vs "config: error parsing disableCaller".data with
    | .error e => .error e
    | .ok b => .ok { cfg with DisableCaller := b }
  else if k = "disableStacktrace".data then
    match parseBoolParam vs "config: error parsing disableStacktrace".data with
    | .error e => .error e
    | .ok b => .ok { cfg with DisableStacktrace := b }
  else .ok cfg

/-- The method `populateCommonFromQS`; `ρ` is the order of its range. -/
def Config.populateCommonFromQS (ρ : RangeOrder (List GoString)) (cfg : Config)
    (values : GoMap (List GoString)) : Except GoError Config :=
  rangeM commonStep cfg (ρ values)

/-- The variables the loop of `populateStandardEncoderFromQS` updates. -/
structure StandardState where
  cfg : Config
  outputPaths : Slice GoString
  errorOutputPaths : Slice GoString

/-- The body of the loop of `populateStandardEncoderFromQS`. -/
def standardStep (u : Char → Char) (ρl ρe : Nat → RangeOrder GoString) (st : StandardState)
    (k : GoString) (vs : List GoString) : Except GoError StandardState :=
  if vs.length = 0 then .ok st
  else if k = "outputPath".data then
    .ok { st with outputPaths := appendStringsFromStrings st.outputPaths vs }
  else if k = "outputPaths".data then
    .ok { st with outputPaths := appendStringsFromCommaSeparatedStrings st.outputPaths vs }
  else if k = "errorOutputPath".data then
    .ok { st with errorOutputPaths := appendStringsFromStrings st.errorOutputPaths vs }
  else if k = "errorOutputPaths".data then
    .ok { st with
      errorOutputPaths := appendStringsFromCommaSeparatedStrings st.errorOutputPaths vs }
  else if k = "lumberjack".data then
    match ParseLumberjacks u ρl vs with
    | .error e => .error e
    | .ok ls => .ok { st with cfg := { st.cfg with Lumberjacks := some ls } }
  else if k = "errorLumberjack".data then
    match ParseLumberjacks u ρe vs with
    | .error e => .error e
    | .ok ls => .ok { st with cfg := { st.cfg with ErrorLumberjacks := some ls } }
  else .ok st

/-- The method `populateStandardEncoderFromQS`; `ρ` is the order of its range,
`ρl` and `ρe` the orders inside its two calls of `ParseLumberjacks`. -/
def Config.populateStandardEncoderFromQS (u : Char → Char) (ρ : RangeOrder (List GoString))
    (ρl ρe : Nat → RangeOrder GoString) (cfg : Config) (values : GoMap (List GoString)) :
    Except GoError Config :=
  match rangeM (standardStep u ρl ρe) ⟨cfg, none, none⟩ (ρ values) with
  | .error e => .error e
  | .ok st =>
    .ok { st.cfg with OutputPaths := st.outputPaths, ErrorOutputPaths := st.errorOutputPaths }

/-- The variables the loop of `populateSyslogEncoderFromQS` updates. -/
structure SyslogState where
  cfg : Config
  outputAddresses : Slice GoString

/-- The body of the loop of `populateSyslogEncoderFromQS`; `fp` is
`syslog.FacilityPriority`, a function of the syslog library. -/
def syslogStep (u : Char → Char) (fp : GoString → Except GoError Priority) (st : SyslogState)
    (k : GoString) (vs : List GoString) : Except GoError SyslogState :=
  match vs with
  | [] => .ok st
  | v0 :: _ =>
    if k = "outputAddress".data then
      .ok { st with outputAddresses := appendStringsFromStrings st.outputAddresses vs }
    else if k = "outputAddresses".data then
      .ok { st with
        outputAddresses := appendStringsFromCommaSeparatedStrings st.outputAddresses vs }
    else if k = "framing".data then
      let v := ToLower u v0
      if v = [] ∨ v = "0".data ∨ v = "non-transparent".data
          ∨ v = "non-transparent-framing".data then
        .ok { st with cfg := { st.cfg with Framing := NonTransparentFraming } }
      else if v = "1".data ∨ v = "octet-counting".data ∨ v = "octet-counting-framing".data then
        .ok { st with cfg := { st.cfg with Framing := OctetCountingFraming } }
      else .error (.unknownFraming v)
    else if k = "facility".data then
      match fp v0 with
      | .error e => .error (.withMessage e "config: error parsing facility".data)
      | .ok facility => .ok { st with cfg := { st.cfg with Facility := facility } }
    else if k = "hostname".data then
      .ok { st with cfg := { st.cfg with Hostname := v0 } }
    else if k = "pid".data then
      match Atoi v0 with
      | .error e => .error (.withMessage (.numError e) "config: error parsing pid".data)
      | .ok pid => .ok { st with cfg := { st.cfg with PID := pid } }
    else if k = "app".data then
      .ok { st with cfg := { st.cfg with App := v0 } }
    else .ok st

/-- The method `populateSyslogEncoderFromQS`; `ρ` is the order of its range. -/
def Config.populateSyslogEncoderFromQS (u : Char → Char)
    (fp : GoString → Except GoError Priority) (ρ : RangeOrder (List GoString)) (cfg : Config)
    (values : GoMap (List GoString)) : Except GoError Config :=
  match rangeM (syslogStep u fp) ⟨cfg, none⟩ (ρ values) with
  | .error e => .error e
  | .ok st => .ok { st.cfg with OutputAddresses := st.outputAddresses }

/-- The orders of the ranges one call of `ParseConfigFromURI` runs: over the
query values in `populateCommonFromQS`, over them again in the populator of the
encoder, and over the map of each spec in the two calls of `ParseLumberjacks`. -/
structure Orders where
  common : RangeOrder (List GoString)
  encoder : RangeOrder (List GoString)
  lumberjack : Nat → RangeOrder GoString
  errorLumberjack : Nat → RangeOrder GoString

/-- Every range of the call visits every entry exactly once. -/
def Orders.Valid (o : Orders) : Prop :=
  o.common.Valid ∧ o.encoder.Valid ∧ (∀ i, (o.lumberjack i).Valid) ∧
    (∀ i, (o.errorLumberjack i).Valid)

/-- The orders that visit every map in the order of its entries. -/
def Orders.inOrder : Orders := ⟨id, id, fun _ => id, fun _ => id⟩

/-- The function `ParseConfigFromURI`. -/
def ParseConfigFromURI (u : Char → Char) (fp : GoString → Except GoError Priority)
    (o : Orders) (url : URL) : Except GoError Config :=
  if url.Scheme ≠ "logger".data then .error (.invalidScheme url.Scheme)
  else
    let values := url.Query
    match defaultConfig.populateCommonFromQS o.common values with
    | .error e => .error e
    | .ok config =>
      if url.Opaque = "console".data then
        ({ config with EncoderType := ConsoleEncoder }).populateStandardEncoderFromQS u
          o.encoder o.lumberjack o.errorLumberjack values
      else if url.Opaque = "json".data then
        ({ config with EncoderType := JSONEncoder }).populateStandardEncoderFromQS u
          o.encoder o.lumberjack o.errorLumberjack values
      else if url.Opaque = "syslog".data then
        ({ config with EncoderType := SyslogEncoder }).populateSyslogEncoderFromQS u fp
          o.encoder values
      else .error (.unsupportedLogger url.Opaque)

/-- The function `ParseConfigFromURIString`; `parse` is `url.Parse`. -/
def ParseConfigFromURIString (parse : GoString → Except GoError URL) (u : Char → Char)
    (fp : GoString → Except GoError Priority) (o : Orders) (uri : GoString) :
    Except GoError Config :=
  match parse uri with
  | .error e => .error e
  | .ok url => ParseConfigFromURI u fp o url

/-! ## `globals.go` -/

/-- A `zap.Logger`: `core` stands for everything the logger is made of but its
caller skip, which is the one thing `WithOptions(zap.AddCallerSkip(n))` and
`Sugar()` change. -/
structure Logger where
  core : Nat
  callerSkip : Nat
deriving DecidableEq, Repr

/-- A `zap.SugaredLogger`, a wrapper of the logger `Sugar()` derived. -/
structure SugaredLogger where
  base : Logger
deriving DecidableEq, Repr

/-- The constant `quickLDepth`. -/
def quickLDepth : Nat := 1

/-- The call `logger.WithOptions(zap.AddCallerSkip(n))` of the logging library:
a copy with `n` more frames skipped. -/
def Logger.WithAddCallerSkip (l : Logger) (n : Nat) : Logger :=
  { l with callerSkip := l.callerSkip + n }

/-- The call `logger.Sugar()` of the logging library: a wrapper of a copy that
skips two more frames. -/
def Logger.Sugar (l : Logger) : SugaredLogger :=
  ⟨{ l with callerSkip := l.callerSkip + 2 }⟩

/-- The package variables `globalL`, `globalQuickL` and `globalS`, and the two
globals of the logging library that `zap.ReplaceGlobals` sets. A pointer is an
`Option`, `none` being `nil`. -/
structure Globals where
  globalL : Option Logger
  globalQuickL : Option Logger
  globalS : Option SugaredLogger
  zapL : Option Logger
  zapS : Option SugaredLogger
deriving DecidableEq, Repr

/-- The function `L`. -/
def L (g : Globals) : Option Logger := g.globalL

/-- The function `S`. -/
def S (g : Globals) : Option SugaredLogger := g.globalS

/-- The function `zap.ReplaceGlobals` of the logging library: the new state and
the logger its restore closure will put back. A `nil` logger panics in
`Sugar()`, which is `none`. -/
def zapReplaceGlobals (g : Globals) (logger : Option Logger) :
    Option (Globals × Option Logger) :=
  match logger with
  | none => none
  | some l => some ({ g with zapL := some l, zapS := some l.Sugar }, g.zapL)

/-- The closure `ReplaceGlobals` returns, as what it captured: `prev`, and the
previous logger held by `restoreZapLogger`. -/
structure RevertFunc where
  prev : Option Logger
  zapPrev : Option Logger
deriving DecidableEq, Repr

/-- The function `ReplaceGlobals`: the new state and the closure returned. A
`nil` logger panics in `WithOptions`, which is `none`. -/
def ReplaceGlobals (g : Globals) (logger : Option Logger) : Option (Globals × RevertFunc) :=
  match logger with
  | none => none
  | some l =>
    let prev := g.globalL
    let g₁ : Globals :=
      { g with
        globalL := some l
        globalQuickL := some (l.WithAddCallerSkip quickLDepth)
        globalS := some l.Sugar }
    match zapReplaceGlobals g₁ logger with
    | none => none
    | some (g₂, zapPrev) => some (g₂, ⟨prev, zapPrev⟩)

/-- A call of the closure `ReplaceGlobals` returned: `restoreZapLogger()`, then
`ReplaceGlobals(prev)`, whose own closure is dropped. -/
def RevertFunc.call (r : RevertFunc) (g : Globals) : Option Globals :=
  match zapReplaceGlobals g r.zapPrev with
  | none => none
  | some (g₁, _) =>
    match ReplaceGlobals g₁ r.prev with
    | none => none
    | some (g₂, _) => some g₂

/-- A sequence of `ReplaceGlobals` calls, one per logger of the list: the final
state and, for each call in order, the value of `L()` immediately before it
and the closure it returned. -/
def replaceAll : Globals → List Logger → Option (Globals × List (Option Logger × RevertFunc))
  | g, [] => some (g, [])
  | g, l :: ls =>
    match ReplaceGlobals g (some l) with
    | none => none
    | some (g₁, r) =>
      match replaceAll g₁ ls with
      | none => none
      | some (g₂, rs) => some (g₂, (L g, r) :: rs)

/-- The closures of a list invoked one after the other: the state after each
call. -/
def revertAll : Globals → List RevertFunc → Option (List Globals)
  | _, [] => some []
  | g, r :: rs =>
    match r.call g with
    | none => none
    | some g₁ =>
      match revertAll g₁ rs with
      | none => none
      | some gs => some (g₁ :: gs)

/-- The skip-one-frame logger and the sugared logger of a state are the
variants derived from the logger `l`. -/
def Globals.DerivedFrom (g : Globals) (l : Logger) : Prop :=
  g.globalQuickL = some (l.WithAddCallerSkip quickLDepth) ∧ g.globalS = some l.Sugar

/-! ## `config.go`: sinks, options and `Build` -/

/-- The severities of the logging library (`zapcore.Level`). -/
inductive Level where
  | DebugLevel
  | InfoLevel
  | WarnLevel
  | ErrorLevel
  | DPanicLevel
  | PanicLevel
  | FatalLevel
deriving DecidableEq, Repr

/-- The struct `lumberjack.Logger`, by the fields `openLumberjack` sets. -/
structure LumberjackLogger where
  Filename : GoString
  MaxSize : Int
  MaxAge : Int
  MaxBackups : Int
  LocalTime : Bool
  Compress : Bool
deriving DecidableEq, Repr

/-- A `zapcore.WriteSyncer`, by the call that made it: `zap.Open(paths...)`,
`openLumberjack(configs...)` (the multi-writer of one rotating logger per
config), the multi-writer of the connections `zapsyslog.NewConnSyncer` made,
`zapcore.NewMultiWriteSyncer(a, b)`, or the `nil` interface. -/
inductive WriteSyncer where
  | opened (paths : List GoString)
  | rotating (loggers : List LumberjackLogger)
  | conns (targets : List (GoString × GoString))
  | multi (a b : WriteSyncer)
  | nilSyncer
deriving DecidableEq, Repr

/-- A `zap.Option`, by the call that made it; `custom` is an option of the
caller. -/
inductive ZapOption where
  | ErrorOutput (w : WriteSyncer)
  | Development
  | AddCaller
  | AddStacktrace (lvl : Level)
  | custom (id : Nat)
deriving DecidableEq, Repr

/-- The arguments of the call
`zap.New(zapcore.NewCore(enc, sink, cfg.Level), zapOpts...)`. -/
structure NewArgs where
  enc : Encoder
  sink : WriteSyncer
  level : AtomicLevel
  opts : List ZapOption
deriving DecidableEq, Repr

/-- What the sink builder does to the outside: a call of `zap.Open`, a call of
the close function `zap.Open` returned for these paths, a call of
`zapsyslog.NewConnSyncer`. -/
inductive Event where
  | open (paths : List GoString)
  | close (paths : List GoString)
  | dial (network address : GoString)
deriving DecidableEq, Repr

/-- The outside of the package. `Open i paths` is the error of the `i`-th call
of `zap.Open` in a `Build`, `none` when it succeeds; `NewConnSyncer i network
address` the error of the `i`-th call of `zapsyslog.NewConnSyncer`; `New` is
`zap.New`, which always returns a logger. -/
structure Env where
  Open : Nat → List GoString → Option GoError
  NewConnSyncer : Nat → GoString → GoString → Option GoError
  New : NewArgs → Logger

/-- The function `openLumberjack`. -/
def openLumberjack (configs : List LumberjackConfig) : WriteSyncer :=
  .rotating (configs.map (fun config =>
    { Filename := config.Filename, MaxSize := config.MaxSize, MaxAge := config.MaxAge,
      MaxBackups := config.MaxBackups, LocalTime := config.LocalTime,
      Compress := config.Compress }))

/-- The method `openStandardSinks`: what it does to the outside, and its
result. -/
def Config.openStandardSinks (w : Env) (cfg : Config) :
    List Event × Except GoError (WriteSyncer × WriteSyncer) :=
  let outputPaths :=
    match cfg.OutputPaths with
    | none => cfg.defaultOutputPaths
    | some l => some l
  let errorOutputPaths :=
    match cfg.ErrorOutputPaths with
    | none => cfg.defaultErrorOutputPaths
    | some l => some l
  match w.Open 0 outputPaths.elems with
  | some err => ([.open outputPaths.elems], .error err)
  | none =>
    match w.Open 1 errorOutputPaths.elems with
    | some err =>
      ([.open outputPaths.elems, .open errorOutputPaths.elems, .close outputPaths.elems],
        .error err)
    | none =>
      ([.open outputPaths.elems, .open errorOutputPaths.elems],
        .ok (.opened outputPaths.elems, .opened errorOutputPaths.elems))

/-- The method `openLumberjackSinks`. -/
def Config.openLumberjackSinks (cfg : Config) : WriteSyncer × WriteSyncer :=
  (openLumberjack cfg.Lumberjacks.elems, openLumberjack cfg.ErrorLumberjacks.elems)

/-- The network and the address `openSyslogSinks` takes from one token:
`strings.SplitN(addr, ":", 2)` gives one piece when the token has no `:`, and
then the network is `tcp`; otherwise its two pieces are the network and the
address. -/
def dialTarget (addr : GoString) : GoString × GoString :=
  if ':' ∈ addr then
    (addr.takeWhile (fun c => c != ':'), (addr.dropWhile (fun c => c != ':')).drop 1)
  else ("tcp".data, addr)

/-- The loop of `openSyslogSinks` from its `i`-th address on: the calls of
`zapsyslog.NewConnSyncer` made, and the connections or the first error. -/
def dialAll (w : Env) : Nat → List GoString → List Event × Except GoError (List (GoString × GoString))
  | _, [] => ([], .ok [])
  | i, addr :: addrs =>
    let t := dialTarget addr
    match w.NewConnSyncer i t.1 t.2 with
    | some err => ([.dial t.1 t.2], .error err)
    | none =>
      match dialAll w (i + 1) addrs with
      | (tr, .error err) => (.dial t.1 t.2 :: tr, .error err)
      | (tr, .ok ts) => (.dial t.1 t.2 :: tr, .ok (t :: ts))

/-- The method `openSyslogSinks`: what it does to the outside, and its
result. -/
def Config.openSyslogSinks (w : Env) (cfg : Config) :
    List Event × Except GoError (WriteSyncer × WriteSyncer) :=
  if cfg.OutputAddresses.elems.length = 0 then ([], .error .emptyMessage)
  else
    match w.Open 0 ["stderr".data] with
    | some err => ([.open ["stderr".data]], .error err)
    | none =>
      match dialAll w 0 cfg.OutputAddresses.elems with
      | (tr, .error err) =>
        (.open ["stderr".data] :: tr ++ [.close ["stderr".data]], .error err)
      | (tr, .ok ts) =>
        (.open ["stderr".data] :: tr, .ok (.conns ts, .opened ["stderr".data]))

/-- The method `buildOptions`. -/
def Config.buildOptions (cfg : Config) (errSink : WriteSyncer) : List ZapOption :=
  let opts := [ZapOption.ErrorOutput errSink]
  let opts := if cfg.Development = true then opts ++ [.Development] else opts
  let opts := if ¬ cfg.DisableCaller = true then opts ++ [.AddCaller] else opts
  let stackLevel := if cfg.Development = true then Level.WarnLevel else Level.ErrorLevel
  let opts := if ¬ cfg.DisableStacktrace = true then opts ++ [.AddStacktrace stackLevel] else opts
  opts

/-- The second `switch` of `Build`: the two sinks of the encoder kind. An
`EncoderType` that is none of the three leaves both `nil`. -/
def Config.openSinks (w : Env) (cfg : Config) :
    List Event × Except GoError (WriteSyncer × WriteSyncer) :=
  if cfg.EncoderType = JSONEncoder ∨ cfg.EncoderType = ConsoleEncoder then
    match cfg.openStandardSinks w with
    | (tr, .error err) => (tr, .error err)
    | (tr, .ok (sink, errSink)) =>
      (tr, .ok (.multi sink cfg.openLumberjackSinks.1, .multi errSink cfg.openLumberjackSinks.2))
  else if cfg.EncoderType = SyslogEncoder then cfg.openSyslogSinks w
  else ([], .ok (.nilSyncer, .nilSyncer))

/-- The method `Build` up to its call of `zap.New`: what it does to the
outside, and the arguments of the call or the error returned. -/
def Config.buildArgs (w : Env) (cfg : Config) (opts : List ZapOption) :
    List Event × Except GoError NewArgs :=
  match cfg.buildEncoder with
  | .error err => ([], .error err)
  | .ok enc =>
    match cfg.openSinks w with
    | (tr, .error err) => (tr, .error err)
    | (tr, .ok (sink, errSink)) =>
      let cfgOpts := cfg.buildOptions errSink
      (tr, .ok ⟨enc, sink, cfg.Level, cfgOpts ++ opts⟩)

/-- The method `Build`: what it does to the outside, and the logger or the
error returned. -/
def Config.Build (w : Env) (cfg : Config) (opts : List ZapOption) :
    List Event × Except GoError Logger :=
  match cfg.buildArgs w opts with
  | (tr, .error err) => (tr, .error err)
  | (tr, .ok args) => (tr, .ok (w.New args))

/-! ## `flags.go` and `kingpin_flags.go` -/

/-- The method `String` of a `zapcore.Level`. -/
def Level.String : Level → GoString
  | .DebugLevel => "debug".data
  | .InfoLevel => "info".data
  | .WarnLevel => "warn".data
  | .ErrorLevel => "error".data
  | .DPanicLevel => "dpanic".data
  | .PanicLevel => "panic".data
  | .FatalLevel => "fatal".data

/-- The `switch` of the level parser of the logging library: the lower-case and
the upper-case names, the empty text being `info`. -/
def Level.unmarshalText (text : GoString) : Option Level :=
  if text = "debug".data ∨ text = "DEBUG".data then some .DebugLevel
  else if text = "info".data ∨ text = "INFO".data ∨ text = [] then some .InfoLevel
  else if text = "warn".data ∨ text = "WARN".data then some .WarnLevel
  else if text = "error".data ∨ text = "ERROR".data then some .ErrorLevel
  else if text = "dpanic".data ∨ text = "DPANIC".data then some .DPanicLevel
  else if text = "panic".data ∨ text = "PANIC".data then some .PanicLevel
  else if text = "fatal".data ∨ text = "FATAL".data then some .FatalLevel
  else none

/-- The method `UnmarshalText` of a `zapcore.Level`: the text as it is, then
lower-cased. -/
def Level.UnmarshalText (u : Char → Char) (text : GoString) : Except GoError Level :=
  match Level.unmarshalText text with
  | some l => .ok l
  | none =>
    match Level.unmarshalText (ToLower u text) with
    | some l => .ok l
    | none => .error (.unrecognizedLevel text)

/-- The call `baseLoggerLevel.UnmarshalText(text)`: `cur` is the level the
shared cell holds, the result the level it holds afterwards and the error
returned, `none` being `nil`. -/
def baseLoggerLevelUnmarshalText (u : Char → Char) (cur : Level) (text : GoString) :
    Level × Option GoError :=
  match Level.UnmarshalText u text with
  | .error err => (cur, some err)
  | .ok l => (l, none)

/-- The type `levelFlag`, a string. -/
abbrev levelFlag := GoString

/-- The method `String` of a `levelFlag`. -/
def levelFlag.String (f : levelFlag) : GoString := f

/-- The method `Set` of a `levelFlag`: the level of the shared cell afterwards
and the error returned. The receiver is a value and is not assigned. -/
def levelFlag.Set (u : Char → Char) (_f : levelFlag) (cur : Level) (level : GoString) :
    Level × Option GoError :=
  baseLoggerLevelUnmarshalText u cur level

/-- The struct `loggerSettings`. -/
structure loggerSettings where
  level : GoString
  format : URL

/-- The package state `apply` works on: the global loggers and the level of
the shared cell `baseLoggerLevel`. -/
structure PackageState where
  globals : Globals
  baseLevel : Level
deriving DecidableEq, Repr

/-- The method `apply` of `loggerSettings`: the state afterwards and the error
returned, `none` being `nil`. The deferred function calls `restore` when the
named result `err` is not `nil`. A panic is `none`. -/
def loggerSettings.apply (u : Char → Char) (fp : GoString → Except GoError Priority)
    (o : Orders) (w : Env) (s : loggerSettings) (st : PackageState) :
    Option (PackageState × Option GoError) :=
  match ParseConfigFromURI u fp o s.format with
  | .error err => some (st, some err)
  | .ok c =>
    match (c.Build w []).2 with
    | .error err => some (st, some err)
    | .ok l =>
      match ReplaceGlobals st.globals (some l) with
      | none => none
      | some (g₁, restore) =>
        match baseLoggerLevelUnmarshalText u st.baseLevel s.level with
        | (lvl, some err) =>
          match restore.call g₁ with
          | none => none
          | some g₂ => some (⟨g₂, lvl⟩, some err)
        | (lvl, none) => some (⟨g₁, lvl⟩, none)

/-! ## The rotation-target spec, as the specification words it -/

/-- The six keys a rotation-target spec recognises, in lower case. -/
def recognizedKeys : List GoString :=
  [kFilename, kMaxSize, kMaxAge, kMaxBackups, kLocalTime, kCompress]

/-- A value is valid for a (lower-cased) key: an integer for `maxsize`, `maxage`
and `maxbackups`, a boolean for `localtime` and `compress`, anything for the
others. -/
def validFor (k v : GoString) : Bool :=
  if k = kMaxSize ∨ k = kMaxAge ∨ k = kMaxBackups then (Atoi v).toBool
  else if k = kLocalTime ∨ k = kCompress then (ParseBool v).toBool
  else true

/-- Every pair of a list holds a value valid for its key. -/
def entriesValid (u : Char → Char) (ps : List (GoString × GoString)) : Bool :=
  ps.all (fun p => validFor (ToLower u p.1) p.2)

/-- The keys of a list of pairs, lower-cased. -/
def lowerKeys (u : Char → Char) (ps : List (GoString × GoString)) : List GoString :=
  ps.map (fun p => ToLower u p.1)

/-- The value a list of pairs gives to the key `k`, compared without case. -/
def specValue (u : Char → Char) (ps : List (GoString × GoString)) (k : GoString) :
    Option GoString :=
  (ps.find? (fun p => ToLower u p.1 = k)).map Prod.snd

/-- An integer field: the parsed value of its key, `d` when the key is omitted. -/
def intField (d : Int) : Option GoString → Int
  | none => d
  | some v =>
    match Atoi v with
    | .ok n => n
    | .error _ => d

/-- A boolean field: the parsed value of its key, `d` when the key is omitted. -/
def boolField (d : Bool) : Option GoString → Bool
  | none => d
  | some v =>
    match ParseBool v with
    | .ok b => b
    | .error _ => d

/-- The config a list of pairs describes over the starting values `c`: each
field holds the parsed value of its key, or the value of `c` when the key is
omitted. -/
def configOf (u : Char → Char) (c : LumberjackConfig) (ps : List (GoString × GoString)) :
    LumberjackConfig :=
  { Filename := (specValue u ps kFilename).getD c.Filename
    MaxSize := intField c.MaxSize (specValue u ps kMaxSize)
    MaxAge := intField c.MaxAge (specValue u ps kMaxAge)
    MaxBackups := intField c.MaxBackups (specValue u ps kMaxBackups)
    LocalTime := boolField c.LocalTime (specValue u ps kLocalTime)
    Compress := boolField c.Compress (specValue u ps kCompress) }

/-- The config the specification assigns to one spec string: the parsed value
of every key present, and for a key omitted the default, namely Filename "",
MaxSize 100, MaxAge 0, MaxBackups 50, LocalTime false, Compress false. -/
def specConfig (u : Char → Char) (s : GoString) : LumberjackConfig :=
  configOf u ⟨[], 100, 0, 50, false, false⟩ (scanPairs s)

/-- A spec in which each pair has a recognised key occurring at most once and a
value valid for that key. -/
def WellFormedSpec (u : Char → Char) (s : GoString) : Prop :=
  (∀ p ∈ scanPairs s, ToLower u p.1 ∈ recognizedKeys) ∧
  (lowerKeys u (scanPairs s)).Nodup ∧
  entriesValid u (scanPairs s) = true

/-- The value of the last pair of a list whose key is spelled `k`. -/
def lastValue : List (GoString × GoString) → GoString → Option GoString
  | [], _ => none
  | p :: ps, k =>
    match lastValue ps k with
    | some v => some v
    | none => if p.1 = k then some p.2 else none

/-- The keys whose value is parsed as an integer. -/
def intKeys : List GoString := [kMaxSize, kMaxAge, kMaxBackups]

/-- The keys whose value is parsed as a boolean. -/
def boolKeys : List GoString := [kLocalTime, kCompress]

/-- The text of the two causes of `strconv`. -/
def NumErrKind.text : NumErrKind → GoString
  | .ErrSyntax => "invalid syntax".data
  | .ErrRange => "value out of range".data

/-- The method `Error()` of a `strconv.NumError`; `q` is `strconv.Quote`. -/
def NumError.Error (q : GoString → GoString) (e : NumError) : GoString :=
  "strconv.".data ++ e.Func ++ ": parsing ".data ++ q e.Num ++ ": ".data ++ e.Err.text

/-- The method `Error()` of the errors of the package: the message of
`errors.WithMessage` is `msg + ": " + cause.Error()`; `q` is `strconv.Quote`,
which is also the verb `%q`. -/
def GoError.Error (q : GoString → GoString) : GoError → GoString
  | .numError e => e.Error q
  | .external text => text
  | .withMessage cause msg => msg ++ ": ".data ++ GoError.Error q cause
  | .invalidScheme scheme => "invalid scheme ".data ++ scheme
  | .unsupportedLogger name => "unsupported logger ".data ++ q name
  | .unknownFraming v => "config: unknown framing: ".data ++ v
  | .unknownEncoderType t => "unknown encoder type: ".data ++ (toString t).data
  | .unrecognizedLevel text => "unrecognized level: ".data ++ q text
  | .emptyMessage => []
  | .indexOutOfRange => "runtime error: index out of range [0] with length 0".data

/-- The sequence of optional values, when all are present. -/
def allPresent {α : Type} : List (Option α) → Option (List α)
  | [] => some []
  | none :: _ => none
  | some a :: l =>
    match allPresent l with
    | none => none
    | some as => some (a :: as)

/-- What the specification makes of one spec whose keys do not repeat: the
config of its pairs when every value is valid for its key, nothing otherwise. -/
def specOutcome (u : Char → Char) (s : GoString) : Option LumberjackConfig :=
  if entriesValid u (scanPairs s) = true then some (configOf u lumberjackInit (scanPairs s))
  else none

/-- The text `t` is the text `s` with the letter case of its keys changed and
nothing else: separators and values are copied, a rune of a key is replaced by
a rune with the same lower case. The flag says whether the texts start inside a
key (`true`) or inside a value. -/
def keyRecase (u : Char → Char) : Bool → GoString → GoString → Bool
  | _, [], [] => true
  | b, c :: s, d :: t =>
    if c = ',' ∨ c = ';' then decide (d = c) && keyRecase u true s t
    else if b = true then
      if c = '=' then decide (d = '=') && keyRecase u false s t
      else decide (d ≠ ',') && decide (d ≠ ';') && decide (d ≠ '=')
        && decide (toLowerRune u c = toLowerRune u d) && keyRecase u true s t
    else decide (d = c) && keyRecase u false s t
  | _, _, _ => false

/-- An entry of the scanned map whose key is one of the six recognised. -/
def recognizedEntry (u : Char → Char) (e : GoString × GoString) : Bool :=
  decide (ToLower u e.1 ∈ recognizedKeys)

/-- The results `parseLumberjack` can return for a spec, over the orders of its
range. -/
def parseLumberjackPossible (u : Char → Char) (s : GoString)
    (r : Except GoError LumberjackConfig) : Prop :=
  ∃ ρ : RangeOrder GoString, ρ.Valid ∧ parseLumberjack u ρ s = r

/-- The results `ParseLumberjacks` can return for a list of specs, over the
orders of its ranges. -/
def ParseLumberjacksPossible (u : Char → Char) (vs : List GoString)
    (r : Except GoError (List LumberjackConfig)) : Prop :=
  ∃ ρ : Nat → RangeOrder GoString, (∀ i, (ρ i).Valid) ∧ ParseLumberjacks u ρ vs = r

/-- Two pieces of a spec that agree but for the letter case of the key: both
empty or neither, the same key without case, the same value. -/
def SegRel (u : Char → Char) (a b : GoString) : Prop :=
  (a = [] ↔ b = []) ∧ ToLower u (cutEq a).1 = ToLower u (cutEq b).1 ∧
    (cutEq a).2 = (cutEq b).2

/-- Two pairs that agree but for the letter case of the key. -/
def PairRel (u : Char → Char) (p q : GoString × GoString) : Prop :=
  ToLower u p.1 = ToLower u q.1 ∧ p.2 = q.2

/-! ## The query of a configuration URI, as the specification words it -/

/-- The values of every occurrence of the parameter `k`, in query order. -/
def paramValues (ps : List (GoString × GoString)) (k : GoString) : List GoString :=
  (ps.filter (fun p => p.1 = k)).map Prod.snd

/-- The query carries the parameter `k`. -/
def hasParam (ps : List (GoString × GoString)) (k : GoString) : Prop :=
  k ∈ ps.map Prod.fst

instance hasParam.decidable (ps : List (GoString × GoString)) (k : GoString) :
    Decidable (hasParam ps k) :=
  inferInstanceAs (Decidable (k ∈ ps.map Prod.fst))

/-- The comma-split tokens of a list of values, concatenated in order. -/
def commaTokens (vs : List GoString) : List GoString :=
  (vs.map Split).flatten

/-- The boolean parameter `k` is absent, or its first value is a boolean that
`strconv.ParseBool` accepts. -/
def boolParamOk (ps : List (GoString × GoString)) (k : GoString) : Bool :=
  match paramValues ps k with
  | [] => true
  | v :: _ => (ParseBool v).toBool

/-- Each of `development`, `disableCaller` and `disableStacktrace` that the
query carries holds a valid boolean. -/
def commonParamsValid (ps : List (GoString × GoString)) : Bool :=
  boolParamOk ps "development".data && boolParamOk ps "disableCaller".data
    && boolParamOk ps "disableStacktrace".data

/-- The effect of one pass of the loop of `populateStandardEncoderFromQS` on
`outputPaths`. -/
def outputPathsStep (k : GoString) (vs : List GoString) (x : Slice GoString) : Slice GoString :=
  if k = "outputPath".data then appendStringsFromStrings x vs
  else if k = "outputPaths".data then appendStringsFromCommaSeparatedStrings x vs
  else x

/-- The effect of one pass of the loop of `populateStandardEncoderFromQS` on
`errorOutputPaths`. -/
def errorOutputPathsStep (k : GoString) (vs : List GoString) (x : Slice GoString) :
    Slice GoString :=
  if k = "errorOutputPath".data then appendStringsFromStrings x vs
  else if k = "errorOutputPaths".data then appendStringsFromCommaSeparatedStrings x vs
  else x

/-- The fields of a `Config` that no query parameter of a console or json URI
names: the level, the syslog fields and the two default path lists. -/
def Config.frame (c : Config) :
    AtomicLevel × Slice GoString × GoLog.Framing × Priority × GoString × Int × GoString
      × Slice GoString × Slice GoString :=
  (c.Level, c.OutputAddresses, c.Framing, c.Facility, c.Hostname, c.PID, c.App,
    c.defaultOutputPaths, c.defaultErrorOutputPaths)

/-- A `Config` with the three fields of `populateCommonFromQS` blanked. -/
def Config.eraseCommon (c : Config) : Config :=
  { c with Development := false, DisableCaller := false, DisableStacktrace := false }

/-- A `Config` with the two rotation lists blanked. -/
def Config.eraseLumberjacks (c : Config) : Config :=
  { c with Lumberjacks := none, ErrorLumberjacks := none }

/-! ## Helpers for the statements on `Build` and on the levels -/

/-- An integer a 64-bit `int` holds. -/
def inIntRange (n : Int) : Prop := -(2 ^ 63 : Int) ≤ n ∧ n < (2 ^ 63 : Int)

/-- The three integer fields of a config are integers a 64-bit `int` holds. -/
def LumberjackConfig.IntsInRange (c : LumberjackConfig) : Prop :=
  inIntRange c.MaxSize ∧ inIntRange c.MaxAge ∧ inIntRange c.MaxBackups

/-- A numeric field `n` read under the label `key` from the spec `s` is not
negative, or the scanned map of `s` holds, under a spelling of `key`, a value
written with a leading `-` that `strconv.Atoi` reads as `n`. -/
def nonNegUnlessSigned (u : Char → Char) (s key : GoString) (n : Int) : Prop :=
  0 ≤ n ∨ ∃ k rest, (k, '-' :: rest) ∈ scanKV s ∧ ToLower u k = key ∧
    Atoi ('-' :: rest) = .ok n

/-- The three integer fields of a config returned for the spec `s`: each is an
integer a 64-bit `int` holds, negative only where the spec writes it with a
leading `-`. -/
def LumberjackConfig.SignedAsWritten (u : Char → Char) (s : GoString)
    (c : LumberjackConfig) : Prop :=
  nonNegUnlessSigned u s kMaxSize c.MaxSize ∧ nonNegUnlessSigned u s kMaxAge c.MaxAge ∧
    nonNegUnlessSigned u s kMaxBackups c.MaxBackups ∧ c.IntsInRange

/-- The seven severity names. -/
def severityNames : List GoString :=
  ["debug".data, "info".data, "warn".data, "error".data, "dpanic".data, "panic".data,
    "fatal".data]

/-- The texts the framing parameter maps to non-transparent framing. -/
def nonTransparentNames : List GoString :=
  [[], "0".data, "non-transparent".data, "non-transparent-framing".data]

/-- The texts the framing parameter maps to octet-counting framing. -/
def octetCountingNames : List GoString :=
  ["1".data, "octet-counting".data, "octet-counting-framing".data]

/-- The call of `zapsyslog.NewConnSyncer` for one address token. -/
def dialEvent (addr : GoString) : Event :=
  .dial (dialTarget addr).1 (dialTarget addr).2

/-- The options a Configuration asks for, as the specification lists them: the
error output, then the development option iff `Development`, then the caller
option iff not `DisableCaller`, then the stack option iff not
`DisableStacktrace`, at `WarnLevel` in development and `ErrorLevel` otherwise. -/
def specOptions (cfg : Config) (errSink : WriteSyncer) : List ZapOption :=
  [ZapOption.ErrorOutput errSink]
    ++ (if cfg.Development = true then [ZapOption.Development] else [])
    ++ (if cfg.DisableCaller = false then [ZapOption.AddCaller] else [])
    ++ (if cfg.DisableStacktrace = false then
          [ZapOption.AddStacktrace
            (if cfg.Development = true then Level.WarnLevel else Level.ErrorLevel)]
        else [])

/-- An outside in which every `zap.Open` and every connection succeeds, and
`zap.New` numbers its loggers by the number of options. -/
def Env.allOk : Env :=
  { Open := fun _ _ => none
    NewConnSyncer := fun _ _ _ => none
    New := fun args => ⟨args.opts.length, 0⟩ }

/-! ## Helpers for the statements on the sinks, the orders and the settings -/

/-- The local `outputPaths` of `openStandardSinks` after its first `if`. -/
def Config.outputPathsOrDefault (cfg : Config) : Slice GoString :=
  match cfg.OutputPaths with
  | none => cfg.defaultOutputPaths
  | some l => some l

/-- The local `errorOutputPaths` of `openStandardSinks` after its second `if`. -/
def Config.errorOutputPathsOrDefault (cfg : Config) : Slice GoString :=
  match cfg.ErrorOutputPaths with
  | none => cfg.defaultErrorOutputPaths
  | some l => some l

/-- The Go literal `Config{Level: baseLoggerLevel, DisableCaller: true}`: the
two default lists are `nil`, as in every literal written outside `defaultConfig`. -/
def literalConfig : Config :=
  { defaultConfig with defaultOutputPaths := none, defaultErrorOutputPaths := none }

/-- An outside in which the second `zap.Open` fails and everything else
succeeds. -/
def Env.secondOpenFails : Env :=
  { Open := fun i _ => if i = 1 then some (.external "open /var/log/err: denied".data) else none
    NewConnSyncer := fun _ _ _ => none
    New := fun args => ⟨args.opts.length, 0⟩ }

/-- The orders in which the encoder's range visits the query map backwards. -/
def Orders.encoderReversed : Orders := ⟨id, List.reverse, fun _ => id, fun _ => id⟩

/-- The seven severity names in upper case, the other spellings of the
`switch` of the level parser. -/
def severityNamesUpper : List GoString :=
  ["DEBUG".data, "INFO".data, "WARN".data, "ERROR".data, "DPANIC".data, "PANIC".data,
    "FATAL".data]

/-- A rune that is an ASCII capital letter. -/
def isCapital (c : Char) : Bool := decide (65 ≤ c.toNat ∧ c.toNat ≤ 90)

/-- A text that starts with an ASCII capital letter. -/
def startsWithCapital : GoString → Bool
  | [] => false
  | c :: _ => isCapital c

/-! ## Maps and ranges -/

theorem GoMap.set_of_not_mem {β : Type} (m : GoMap β) (k : GoString) (v : β)
    (h : k ∉ m.map Prod.fst) : m.set k v = m ++ [(k, v)] := by
  induction m with
  | nil => rfl
  | cons e m ih =>
    obtain ⟨k', v'⟩ := e
    simp only [List.map_cons, List.mem_cons, not_or] at h
    have hne : ¬ k' = k := fun hk => h.1 hk.symm
    simp [GoMap.set, hne, ih h.2]

theorem foldl_set_of_nodup (ps acc : List (GoString × GoString))
    (h : ((acc ++ ps).map Prod.fst).Nodup) :
    ps.foldl (fun m p => GoMap.set m p.1 p.2) acc = acc ++ ps := by
  induction ps generalizing acc with
  | nil => simp
  | cons p ps ih =>
    have hk : p.1 ∉ acc.map Prod.fst := by
      intro hmem
      rw [List.map_append, List.map_cons, List.nodup_append] at h
      exact h.2.2 hmem (List.mem_cons_self _ _)
    rw [List.foldl_cons, GoMap.set_of_not_mem _ _ _ hk]
    have h' : (((acc ++ [(p.1, p.2)]) ++ ps).map Prod.fst).Nodup := by
      simpa [List.append_assoc] using h
    rw [ih _ h']
    simp [List.append_assoc]

theorem lowerKeys_nodup_keys (u : Char → Char) (ps : List (GoString × GoString))
    (h : (lowerKeys u ps).Nodup) : (ps.map Prod.fst).Nodup := by
  have : lowerKeys u ps = (ps.map Prod.fst).map (ToLower u) := by
    simp [lowerKeys, List.map_map, Function.comp_def]
  rw [this] at h
  exact h.of_map _

theorem scanKV_of_nodup (u : Char → Char) (s : GoString)
    (h : (lowerKeys u (scanPairs s)).Nodup) : scanKV s = scanPairs s := by
  unfold scanKV
  rw [foldl_set_of_nodup _ [] (by simpa using lowerKeys_nodup_keys u _ h)]
  simp

/-! ## The second loop of `parseLumberjack` on pairs whose keys do not repeat -/

theorem specValue_cons (u : Char → Char) (k v : GoString) (ps : List (GoString × GoString))
    (key : GoString) :
    specValue u ((k, v) :: ps) key
      = if ToLower u k = key then some v else specValue u ps key := by
  unfold specValue
  by_cases h : ToLower u k = key <;> simp [List.find?_cons, h]

theorem specValue_of_not_mem (u : Char → Char) (ps : List (GoString × GoString))
    (key : GoString) (h : key ∉ lowerKeys u ps) : specValue u ps key = none := by
  induction ps with
  | nil => rfl
  | cons p ps ih =>
    obtain ⟨k, v⟩ := p
    simp only [lowerKeys, List.map_cons, List.mem_cons, not_or] at h
    rw [specValue_cons, if_neg (fun hk => h.1 hk.symm)]
    exact ih h.2

theorem applyEntries_of_valid (u : Char → Char) (c : LumberjackConfig)
    (ps : List (GoString × GoString)) (hn : (lowerKeys u ps).Nodup)
    (hv : entriesValid u ps = true) :
    applyEntries u c ps = .ok (configOf u c ps) := by
  induction ps generalizing c with
  | nil => rfl
  | cons p ps ih =>
    obtain ⟨k, v⟩ := p
    simp only [lowerKeys, List.map_cons, List.nodup_cons] at hn
    simp only [entriesValid, List.all_cons, Bool.and_eq_true] at hv
    have hv1 := hv.1
    have ih' := fun c => ih c hn.2 hv.2
    have hnone := specValue_of_not_mem u ps (ToLower u k) hn.1
    simp only [applyEntries]
    by_cases h1 : ToLower u k = kFilename
    · rw [h1] at hnone
      simp +decide [applyEntry, h1, ih', configOf, specValue_cons, hnone]
    by_cases h2 : ToLower u k = kMaxSize
    · rw [h2] at hnone
      simp +decide only [validFor, h2, true_or, if_true] at hv1
      cases ha : Atoi v with
      | error e => simp [ha, Except.toBool] at hv1
      | ok n => simp +decide [applyEntry, h2, ha, ih', configOf, specValue_cons, hnone, intField]
    by_cases h3 : ToLower u k = kMaxAge
    · rw [h3] at hnone
      simp +decide only [validFor, h3, true_or, or_true, if_true] at hv1
      cases ha : Atoi v with
      | error e => simp [ha, Except.toBool] at hv1
      | ok n => simp +decide [applyEntry, h3, ha, ih', configOf, specValue_cons, hnone, intField]
    by_cases h4 : ToLower u k = kMaxBackups
    · rw [h4] at hnone
      simp +decide only [validFor, h4, true_or, or_true, if_true] at hv1
      cases ha : Atoi v with
      | error e => simp [ha, Except.toBool] at hv1
      | ok n => simp +decide [applyEntry, h4, ha, ih', configOf, specValue_cons, hnone, intField]
    by_cases h5 : ToLower u k = kLocalTime
    · rw [h5] at hnone
      simp +decide only [validFor, h5, true_or, or_true, if_true, if_false, or_self] at hv1
      cases ha : ParseBool v with
      | error e => simp [ha, Except.toBool] at hv1
      | ok n => simp +decide [applyEntry, h5, ha, ih', configOf, specValue_cons, hnone, boolField]
    by_cases h6 : ToLower u k = kCompress
    · rw [h6] at hnone
      simp +decide only [validFor, h6, true_or, or_true, if_true, if_false, or_self] at hv1
      cases ha : ParseBool v with
      | error e => simp [ha, Except.toBool] at hv1
      | ok n => simp +decide [applyEntry, h6, ha, ih', configOf, specValue_cons, hnone, boolField]
    · simp [applyEntry, h1, h2, h3, h4, h5, h6, ih', configOf, specValue_cons]

/-! ## The order of the range does not matter when no key repeats -/

theorem lowerKeys_perm (u : Char → Char) {ps qs : List (GoString × GoString)}
    (h : ps.Perm qs) : (lowerKeys u ps).Perm (lowerKeys u qs) :=
  h.map _

theorem entriesValid_perm (u : Char → Char) {ps qs : List (GoString × GoString)}
    (h : ps.Perm qs) : entriesValid u ps = entriesValid u qs := by
  unfold entriesValid
  rw [Bool.eq_iff_iff]
  simp only [List.all_eq_true]
  exact ⟨fun H p hp => H p (h.mem_iff.2 hp), fun H p hp => H p (h.mem_iff.1 hp)⟩

theorem specValue_perm (u : Char → Char) (key : GoString)
    {ps qs : List (GoString × GoString)} (h : ps.Perm qs)
    (hn : (lowerKeys u ps).Nodup) : specValue u ps key = specValue u qs key := by
  induction h with
  | nil => rfl
  | cons x _ ih =>
    obtain ⟨k, v⟩ := x
    simp only [lowerKeys, List.map_cons, List.nodup_cons] at hn
    rw [specValue_cons, specValue_cons, ih hn.2]
  | swap x y l =>
    obtain ⟨k, v⟩ := x
    obtain ⟨k', v'⟩ := y
    simp only [lowerKeys, List.map_cons, List.nodup_cons, List.mem_cons, not_or] at hn
    simp only [specValue_cons]
    by_cases h1 : ToLower u k = key
    · have h2 : ¬ ToLower u k' = key := fun h2 => hn.1.1 (h2.trans h1.symm)
      simp [h1, h2]
    · simp [h1]
  | trans h1 _ ih1 ih2 =>
    rw [ih1 hn, ih2 ((lowerKeys_perm u h1).nodup_iff.1 hn)]

theorem configOf_perm (u : Char → Char) (c : LumberjackConfig)
    {ps qs : List (GoString × GoString)} (h : ps.Perm qs)
    (hn : (lowerKeys u ps).Nodup) : configOf u c ps = configOf u c qs := by
  simp only [configOf, specValue_perm u _ h hn]

theorem parseLumberjack_of_wellFormed (u : Char → Char) (ρ : RangeOrder GoString)
    (hρ : ρ.Valid) (s : GoString) (hn : (lowerKeys u (scanPairs s)).Nodup)
    (hv : entriesValid u (scanPairs s) = true) :
    parseLumberjack u ρ s = .ok (configOf u lumberjackInit (scanPairs s)) := by
  have hperm : (ρ (scanKV s)).Perm (scanPairs s) := by
    have h := hρ (scanKV s)
    rw [scanKV_of_nodup u s hn] at h ⊢
    exact h
  unfold parseLumberjack
  rw [applyEntries_of_valid u _ _ ((lowerKeys_perm u hperm).nodup_iff.2 hn)
    ((entriesValid_perm u hperm).trans hv)]
  rw [configOf_perm u _ hperm ((lowerKeys_perm u hperm).nodup_iff.2 hn)]

theorem parseLumberjacksFrom_of_forall (u : Char → Char) (ρ : Nat → RangeOrder GoString)
    (f : GoString → LumberjackConfig) (vs : List GoString) (i : Nat)
    (h : ∀ s ∈ vs, ∀ j, parseLumberjack u (ρ j) s = .ok (f s)) :
    parseLumberjacksFrom u ρ i vs = .ok (vs.map f) := by
  induction vs generalizing i with
  | nil => rfl
  | cons v vs ih =>
    simp only [parseLumberjacksFrom, h v (List.mem_cons_self _ _) i,
      ih (i + 1) (fun s hs => h s (List.mem_cons_of_mem _ hs)), List.map_cons]

/-! ## C1 -/

/-- C1. For every list of spec strings in which each pair has a recognised key
occurring at most once and a value valid for that key, and for every order in
which the maps are ranged over, `ParseLumberjacks` returns without error the
list that holds, for each spec in input order, the config of that spec alone:
each field is the parsed value of its key, and a field whose key is omitted
holds its default (Filename "", MaxSize 100, MaxAge 0, MaxBackups 50,
LocalTime false, Compress false). -/
theorem ParseLumberjacks_wellFormed (u : Char → Char) (ρ : Nat → RangeOrder GoString)
    (vs : List GoString) (hρ : ∀ i, (ρ i).Valid) (hwf : ∀ s ∈ vs, WellFormedSpec u s) :
    ParseLumberjacks u ρ vs = .ok (vs.map (specConfig u)) ∧
    (∀ l, ParseLumberjacks u ρ vs = .ok l → l.length = vs.length) := by
  have h : ParseLumberjacks u ρ vs = .ok (vs.map (specConfig u)) :=
    parseLumberjacksFrom_of_forall u ρ (specConfig u) vs 0 (fun s hs j =>
      parseLumberjack_of_wellFormed u (ρ j) (hρ j) s (hwf s hs).2.1 (hwf s hs).2.2)
  refine ⟨h, fun l hl => ?_⟩
  rw [h] at hl
  cases hl
  simp

/-- C1, at the two specs of `TestParseLumberjacks`. -/
theorem ParseLumberjacks_wellFormed_witness :
    ParseLumberjacks id (fun _ => id)
        ["filename=abc.log,compress=true;maxsize=500".data,
         "filename=stdout.log,MaxAge=3200,localtime=true".data]
      = .ok [⟨"abc.log".data, 500, 0, 50, false, true⟩,
             ⟨"stdout.log".data, 100, 3200, 50, true, false⟩] := by
  have h := (ParseLumberjacks_wellFormed id (fun _ => id)
    ["filename=abc.log,compress=true;maxsize=500".data,
     "filename=stdout.log,MaxAge=3200,localtime=true".data]
    (fun _ m => List.Perm.refl m)
    (by
      intro s hs
      simp only [List.mem_cons, List.mem_singleton, List.not_mem_nil, or_false] at hs
      rcases hs with rfl | rfl
      · exact ⟨by decide, by decide, by decide⟩
      · exact ⟨by decide, by decide, by decide⟩)).1
  rw [h]
  decide

/-! ## One entry of the scanned map -/

theorem applyEntry_ok_of_valid (u : Char → Char) (c : LumberjackConfig) (k v : GoString)
    (h : validFor (ToLower u k) v = true) : ∃ c', applyEntry u c k v = .ok c' := by
  unfold applyEntry
  unfold validFor at h
  dsimp only
  by_cases h1 : ToLower u k = kFilename
  · rw [if_pos h1]; exact ⟨_, rfl⟩
  rw [if_neg h1]
  by_cases h2 : ToLower u k = kMaxSize
  · rw [if_pos h2]
    rw [if_pos (Or.inl h2)] at h
    cases ha : Atoi v with
    | error e => simp [ha, Except.toBool] at h
    | ok n => exact ⟨_, rfl⟩
  rw [if_neg h2]
  by_cases h3 : ToLower u k = kMaxAge
  · rw [if_pos h3]
    rw [if_pos (Or.inr (Or.inl h3))] at h
    cases ha : Atoi v with
    | error e => simp [ha, Except.toBool] at h
    | ok n => exact ⟨_, rfl⟩
  rw [if_neg h3]
  by_cases h4 : ToLower u k = kMaxBackups
  · rw [if_pos h4]
    rw [if_pos (Or.inr (Or.inr h4))] at h
    cases ha : Atoi v with
    | error e => simp [ha, Except.toBool] at h
    | ok n => exact ⟨_, rfl⟩
  rw [if_neg h4]
  have hint : ¬ (ToLower u k = kMaxSize ∨ ToLower u k = kMaxAge ∨ ToLower u k = kMaxBackups) :=
    fun hh => hh.elim h2 (fun hh => hh.elim h3 h4)
  rw [if_neg hint] at h
  by_cases h5 : ToLower u k = kLocalTime
  · rw [if_pos h5]
    rw [if_pos (Or.inl h5)] at h
    cases ha : ParseBool v with
    | error e => simp [ha, Except.toBool] at h
    | ok n => exact ⟨_, rfl⟩
  rw [if_neg h5]
  by_cases h6 : ToLower u k = kCompress
  · rw [if_pos h6]
    rw [if_pos (Or.inr h6)] at h
    cases ha : ParseBool v with
    | error e => simp [ha, Except.toBool] at h
    | ok n => exact ⟨_, rfl⟩
  rw [if_neg h6]
  exact ⟨_, rfl⟩

theorem Atoi_error_num (s : GoString) (ne : NumError) (h : Atoi s = .error ne) :
    ne.Num = s := by
  unfold Atoi at h
  repeat' (first | split at h | (dsimp only at h; split at h))
  all_goals (cases h <;> rfl)

theorem ParseBool_error_num (s : GoString) (ne : NumError) (h : ParseBool s = .error ne) :
    ne.Num = s := by
  unfold ParseBool at h
  repeat' split at h
  all_goals (cases h <;> rfl)

/-- An entry that fails does so whatever the config so far, and its error names
the key as spelled and carries the value. -/
theorem applyEntry_error (u : Char → Char) (c : LumberjackConfig) (k v : GoString)
    (e : GoError) (h : applyEntry u c k v = .error e) :
    validFor (ToLower u k) v = false ∧
    ∃ ne : NumError, e = .withMessage (.numError ne) (errMessage k) ∧ ne.Num = v ∧
      ((ToLower u k ∈ intKeys ∧ Atoi v = .error ne) ∨
       (ToLower u k ∈ boolKeys ∧ ParseBool v = .error ne)) := by
  have hAtoiNum : ∀ ne, Atoi v = .error ne → ne.Num = v := Atoi_error_num v
  have hBoolNum : ∀ ne, ParseBool v = .error ne → ne.Num = v := ParseBool_error_num v
  unfold applyEntry at h
  unfold validFor
  dsimp only at h
  by_cases h1 : ToLower u k = kFilename
  · rw [if_pos h1] at h; cases h
  rw [if_neg h1] at h
  by_cases h2 : ToLower u k = kMaxSize
  · rw [if_pos h2] at h
    rw [if_pos (Or.inl h2)]
    cases ha : Atoi v with
    | ok n => simp only [ha] at h; cases h
    | error ne =>
      simp only [ha] at h
      cases h
      exact ⟨rfl, ne, rfl, hAtoiNum ne ha, Or.inl ⟨by rw [h2]; decide, rfl⟩⟩
  rw [if_neg h2] at h
  by_cases h3 : ToLower u k = kMaxAge
  · rw [if_pos h3] at h
    rw [if_pos (Or.inr (Or.inl h3))]
    cases ha : Atoi v with
    | ok n => simp only [ha] at h; cases h
    | error ne =>
      simp only [ha] at h
      cases h
      exact ⟨rfl, ne, rfl, hAtoiNum ne ha, Or.inl ⟨by rw [h3]; decide, rfl⟩⟩
  rw [if_neg h3] at h
  by_cases h4 : ToLower u k = kMaxBackups
  · rw [if_pos h4] at h
    rw [if_pos (Or.inr (Or.inr h4))]
    cases ha : Atoi v with
    | ok n => simp only [ha] at h; cases h
    | error ne =>
      simp only [ha] at h
      cases h
      exact ⟨rfl, ne, rfl, hAtoiNum ne ha, Or.inl ⟨by rw [h4]; decide, rfl⟩⟩
  rw [if_neg h4] at h
  have hint : ¬ (ToLower u k = kMaxSize ∨ ToLower u k = kMaxAge ∨ ToLower u k = kMaxBackups) :=
    fun hh => hh.elim h2 (fun hh => hh.elim h3 h4)
  rw [if_neg hint]
  by_cases h5 : ToLower u k = kLocalTime
  · rw [if_pos h5] at h
    rw [if_pos (Or.inl h5)]
    cases ha : ParseBool v with
    | ok n => simp only [ha] at h; cases h
    | error ne =>
      simp only [ha] at h
      cases h
      exact ⟨rfl, ne, rfl, hBoolNum ne ha, Or.inr ⟨by rw [h5]; decide, rfl⟩⟩
  rw [if_neg h5] at h
  by_cases h6 : ToLower u k = kCompress
  · rw [if_pos h6] at h
    rw [if_pos (Or.inr h6)]
    cases ha : ParseBool v with
    | ok n => simp only [ha] at h; cases h
    | error ne =>
      simp only [ha] at h
      cases h
      exact ⟨rfl, ne, rfl, hBoolNum ne ha, Or.inr ⟨by rw [h6]; decide, rfl⟩⟩
  rw [if_neg h6] at h
  cases h

theorem applyEntry_error_of_invalid (u : Char → Char) (c : LumberjackConfig) (k v : GoString)
    (h : validFor (ToLower u k) v = false) : ∃ e, applyEntry u c k v = .error e := by
  cases hr : applyEntry u c k v with
  | error e => exact ⟨e, rfl⟩
  | ok c' =>
    exfalso
    unfold applyEntry at hr
    unfold validFor at h
    dsimp only at hr
    by_cases h2 : ToLower u k = kMaxSize
    · rw [if_neg (by rw [h2]; decide), if_pos h2] at hr
      rw [if_pos (Or.inl h2)] at h
      cases ha : Atoi v with
      | error e => simp only [ha] at hr; cases hr
      | ok n => simp [ha, Except.toBool] at h
    by_cases h3 : ToLower u k = kMaxAge
    · rw [if_pos (Or.inr (Or.inl h3))] at h
      cases ha : Atoi v with
      | error e =>
        rw [if_neg (by rw [h3]; decide), if_neg h2, if_pos h3] at hr
        simp only [ha] at hr; cases hr
      | ok n => simp [ha, Except.toBool] at h
    by_cases h4 : ToLower u k = kMaxBackups
    · rw [if_pos (Or.inr (Or.inr h4))] at h
      cases ha : Atoi v with
      | error e =>
        rw [if_neg (by rw [h4]; decide), if_neg h2, if_neg h3, if_pos h4] at hr
        simp only [ha] at hr; cases hr
      | ok n => simp [ha, Except.toBool] at h
    have hint : ¬ (ToLower u k = kMaxSize ∨ ToLower u k = kMaxAge ∨ ToLower u k = kMaxBackups) :=
      fun hh => hh.elim h2 (fun hh => hh.elim h3 h4)
    rw [if_neg hint] at h
    by_cases h5 : ToLower u k = kLocalTime
    · rw [if_pos (Or.inl h5)] at h
      cases ha : ParseBool v with
      | error e =>
        rw [if_neg (by rw [h5]; decide), if_neg h2, if_neg h3, if_neg h4, if_pos h5] at hr
        simp only [ha] at hr; cases hr
      | ok n => simp [ha, Except.toBool] at h
    by_cases h6 : ToLower u k = kCompress
    · rw [if_pos (Or.inr h6)] at h
      cases ha : ParseBool v with
      | error e =>
        rw [if_neg (by rw [h6]; decide), if_neg h2, if_neg h3, if_neg h4, if_neg h5,
          if_pos h6] at hr
        simp only [ha] at hr; cases hr
      | ok n => simp [ha, Except.toBool] at h
    · have hb : ¬ (ToLower u k = kLocalTime ∨ ToLower u k = kCompress) :=
        fun hh => hh.elim h5 h6
      rw [if_neg hb] at h
      cases h

/-! ## Lookups in a map and in its ranges -/

theorem GoMap.get_set {β : Type} (m : GoMap β) (k k' : GoString) (v : β) :
    (m.set k v).get k' = if k = k' then some v else m.get k' := by
  induction m with
  | nil => simp [GoMap.set, GoMap.get]
  | cons e m ih =>
    obtain ⟨k₀, v₀⟩ := e
    by_cases h0 : k₀ = k
    · subst h0
      by_cases h1 : k₀ = k' <;> simp [GoMap.set, GoMap.get, h1]
    · by_cases h1 : k₀ = k'
      · subst h1
        simp [GoMap.set, GoMap.get, h0, Ne.symm h0]
      · simp [GoMap.set, GoMap.get, h0, h1, ih]

theorem GoMap.keys_set {β : Type} (m : GoMap β) (k : GoString) (v : β) :
    (m.set k v).map Prod.fst
      = if k ∈ m.map Prod.fst then m.map Prod.fst else m.map Prod.fst ++ [k] := by
  induction m with
  | nil => simp [GoMap.set]
  | cons e m ih =>
    obtain ⟨k₀, v₀⟩ := e
    by_cases h0 : k₀ = k
    · subst h0
      simp only [GoMap.set, if_true, List.map_cons, List.mem_cons, true_or]
    · have h0' : ¬ k = k₀ := fun h => h0 h.symm
      by_cases hm : k ∈ m.map Prod.fst
      · simp only [GoMap.set, h0, if_false, List.map_cons, ih, hm, if_true, List.mem_cons,
          or_true]
      · simp only [GoMap.set, h0, if_false, List.map_cons, ih, hm, List.mem_cons, h0',
          or_self, List.cons_append]

theorem GoMap.nodup_keys_set {β : Type} (m : GoMap β) (k : GoString) (v : β)
    (h : (m.map Prod.fst).Nodup) : ((m.set k v).map Prod.fst).Nodup := by
  rw [GoMap.keys_set]
  by_cases hm : k ∈ m.map Prod.fst
  · simpa [hm] using h
  · simp only [hm, if_false]
    rw [List.nodup_append]
    exact ⟨h, List.nodup_singleton k, by
      intro a ha hb
      rw [List.mem_singleton] at hb
      exact hm (hb ▸ ha)⟩

theorem GoMap.get_eq_some_iff {β : Type} (m : GoMap β) (h : (m.map Prod.fst).Nodup)
    (k : GoString) (v : β) : m.get k = some v ↔ (k, v) ∈ m := by
  induction m with
  | nil => simp [GoMap.get]
  | cons e m ih =>
    obtain ⟨k₀, v₀⟩ := e
    simp only [List.map_cons, List.nodup_cons] at h
    by_cases h0 : k₀ = k
    · subst h0
      simp only [GoMap.get, if_true, Option.some.injEq, List.mem_cons, Prod.mk.injEq, true_and]
      constructor
      · intro hv
        exact Or.inl hv.symm
      · rintro (hv | hmem)
        · exact hv.symm
        · exact absurd (List.mem_map_of_mem Prod.fst hmem) h.1
    · have h0' : ¬ k = k₀ := fun h => h0 h.symm
      simp [GoMap.get, h0, h0', ih h.2]

theorem GoMap.get_eq_none_iff {β : Type} (m : GoMap β) (k : GoString) :
    m.get k = none ↔ k ∉ m.map Prod.fst := by
  induction m with
  | nil => simp [GoMap.get]
  | cons e m ih =>
    obtain ⟨k₀, v₀⟩ := e
    by_cases h0 : k₀ = k
    · subst h0
      simp only [GoMap.get, if_true, List.map_cons, List.mem_cons, true_or, not_true_eq_false,
        reduceCtorEq]
    · have h0' : ¬ k = k₀ := fun h => h0 h.symm
      simp only [GoMap.get, h0, if_false, ih, List.map_cons, List.mem_cons, h0', false_or]

theorem GoMap.get_perm {β : Type} {m m' : GoMap β} (hp : m.Perm m')
    (h : (m.map Prod.fst).Nodup) (k : GoString) : m.get k = m'.get k := by
  have h' : (m'.map Prod.fst).Nodup := (hp.map _).nodup_iff.1 h
  cases hg : m'.get k with
  | none =>
    rw [GoMap.get_eq_none_iff] at hg ⊢
    exact fun hm => hg ((hp.map _).mem_iff.1 hm)
  | some v =>
    rw [GoMap.get_eq_some_iff _ h'] at hg
    rw [GoMap.get_eq_some_iff _ h]
    exact hp.mem_iff.2 hg

/-! ## Loops over a range -/

theorem rangeM_proj {β σ τ : Type} (step : σ → GoString → β → Except GoError σ)
    (π : σ → τ) (g : GoString → β → τ → τ)
    (hstep : ∀ st k v st₁, step st k v = .ok st₁ → π st₁ = g k v (π st))
    (es : GoMap β) (st st' : σ) (h : rangeM step st es = .ok st') :
    π st' = es.foldl (fun x e => g e.1 e.2 x) (π st) := by
  induction es generalizing st with
  | nil =>
    simp only [rangeM, Except.ok.injEq] at h
    simp [h]
  | cons e es ih =>
    obtain ⟨k, v⟩ := e
    simp only [rangeM] at h
    cases hs : step st k v with
    | error e => simp [hs] at h
    | ok st₁ =>
      simp only [hs] at h
      rw [List.foldl_cons, ← hstep st k v st₁ hs]
      exact ih st₁ h

theorem foldl_key_absent {β τ : Type} (g : GoString → β → τ → τ) (es : GoMap β) (x : τ)
    (h : ∀ e ∈ es, ∀ y, g e.1 e.2 y = y) :
    es.foldl (fun x e => g e.1 e.2 x) x = x := by
  induction es generalizing x with
  | nil => rfl
  | cons e es ih =>
    rw [List.foldl_cons, h e (List.mem_cons_self _ _)]
    exact ih x (fun e' he' => h e' (List.mem_cons_of_mem _ he'))

theorem foldl_congr_mem {β τ : Type} (g g' : GoString → β → τ → τ) (es : GoMap β) (x : τ)
    (h : ∀ e ∈ es, ∀ y, g e.1 e.2 y = g' e.1 e.2 y) :
    es.foldl (fun x e => g e.1 e.2 x) x = es.foldl (fun x e => g' e.1 e.2 x) x := by
  induction es generalizing x with
  | nil => rfl
  | cons e es ih =>
    rw [List.foldl_cons, List.foldl_cons, h e (List.mem_cons_self _ _)]
    exact ih _ (fun e' he' => h e' (List.mem_cons_of_mem _ he'))

theorem foldl_single_key {β τ : Type} (k₀ : GoString) (f : β → τ → τ) (es : GoMap β) (x : τ)
    (hn : (es.map Prod.fst).Nodup) :
    es.foldl (fun x e => if e.1 = k₀ then f e.2 x else x) x
      = match es.get k₀ with
        | none => x
        | some v => f v x := by
  induction es generalizing x with
  | nil => rfl
  | cons e es ih =>
    obtain ⟨k, v⟩ := e
    simp only [List.map_cons, List.nodup_cons] at hn
    rw [List.foldl_cons]
    by_cases hk : k = k₀
    · subst hk
      simp only [if_true, GoMap.get]
      exact foldl_key_absent (fun k' v' y => if k' = k then f v' y else y) es _
        (fun e he y => by
          have : e.1 ≠ k := fun hek => hn.1 (hek ▸ List.mem_map_of_mem Prod.fst he)
          simp only [this, if_false])
    · simp only [hk, if_false, GoMap.get]
      exact ih x hn.2

/-! ## The second loop of `parseLumberjack`, in general -/

theorem applyEntries_error_of_invalid (u : Char → Char) (c : LumberjackConfig)
    (es : List (GoString × GoString)) (h : entriesValid u es = false) :
    ∃ e, applyEntries u c es = .error e := by
  induction es generalizing c with
  | nil => simp [entriesValid] at h
  | cons p es ih =>
    obtain ⟨k, v⟩ := p
    simp only [entriesValid, List.all_cons, Bool.and_eq_false_iff] at h
    cases hr : applyEntry u c k v with
    | error e => exact ⟨e, by simp only [applyEntries, hr]⟩
    | ok c' =>
      rcases h with h | h
      · obtain ⟨e, he⟩ := applyEntry_error_of_invalid u c k v h
        rw [he] at hr
        cases hr
      · obtain ⟨e, he⟩ := ih c' h
        exact ⟨e, by simp only [applyEntries, hr, he]⟩

theorem applyEntries_error_mem (u : Char → Char) (c : LumberjackConfig)
    (es : List (GoString × GoString)) (e : GoError) (h : applyEntries u c es = .error e) :
    ∃ p ∈ es, ∃ c', applyEntry u c' p.1 p.2 = .error e := by
  induction es generalizing c with
  | nil => simp [applyEntries] at h
  | cons p es ih =>
    obtain ⟨k, v⟩ := p
    simp only [applyEntries] at h
    cases hr : applyEntry u c k v with
    | error e' =>
      simp only [hr, Except.error.injEq] at h
      subst h
      exact ⟨(k, v), List.mem_cons_self _ _, c, hr⟩
    | ok c' =>
      simp only [hr] at h
      obtain ⟨p, hp, c'', hc⟩ := ih c' h
      exact ⟨p, List.mem_cons_of_mem _ hp, c'', hc⟩

theorem applyEntries_toOption (u : Char → Char) (c : LumberjackConfig)
    (es : List (GoString × GoString)) (hn : (lowerKeys u es).Nodup) :
    (applyEntries u c es).toOption
      = if entriesValid u es = true then some (configOf u c es) else none := by
  by_cases hv : entriesValid u es = true
  · rw [if_pos hv, applyEntries_of_valid u c es hn hv]
    rfl
  · rw [if_neg hv]
    obtain ⟨e, he⟩ := applyEntries_error_of_invalid u c es (by simpa using hv)
    rw [he]
    rfl

/-! ## The scanned map and the last value of a key -/

theorem scan_fold_get (ps : List (GoString × GoString)) (m : GoMap GoString) (k : GoString) :
    (ps.foldl (fun m p => GoMap.set m p.1 p.2) m).get k
      = match lastValue ps k with
        | some v => some v
        | none => m.get k := by
  induction ps generalizing m with
  | nil => rfl
  | cons p ps ih =>
    rw [List.foldl_cons, ih]
    simp only [lastValue]
    cases hl : lastValue ps k with
    | some v => rfl
    | none =>
      simp only [GoMap.get_set]
      by_cases hk : p.1 = k
      · simp only [hk, if_true]
      · simp only [hk, if_false]

theorem scan_fold_nodup (ps : List (GoString × GoString)) (m : GoMap GoString)
    (h : (m.map Prod.fst).Nodup) :
    ((ps.foldl (fun m p => GoMap.set m p.1 p.2) m).map Prod.fst).Nodup := by
  induction ps generalizing m with
  | nil => exact h
  | cons p ps ih =>
    rw [List.foldl_cons]
    exact ih _ (GoMap.nodup_keys_set m _ _ h)

theorem scanKV_nodup (s : GoString) : ((scanKV s).map Prod.fst).Nodup :=
  scan_fold_nodup _ [] List.nodup_nil

theorem scanKV_get (s : GoString) (k : GoString) :
    (scanKV s).get k = lastValue (scanPairs s) k := by
  unfold scanKV
  rw [scan_fold_get]
  cases lastValue (scanPairs s) k <;> rfl

theorem mem_scanKV_iff (s : GoString) (k v : GoString) :
    (k, v) ∈ scanKV s ↔ lastValue (scanPairs s) k = some v := by
  rw [← scanKV_get, GoMap.get_eq_some_iff _ (scanKV_nodup s)]

/-! ## The loop of `ParseLumberjacks` -/

theorem parseLumberjacksFrom_error_of_mem (u : Char → Char) (ρ : Nat → RangeOrder GoString)
    (vs : List GoString) (i : Nat)
    (h : ∃ s ∈ vs, ∀ j, ∃ e, parseLumberjack u (ρ j) s = .error e) :
    ∃ e, parseLumberjacksFrom u ρ i vs = .error e := by
  induction vs generalizing i with
  | nil =>
    obtain ⟨s, hs, _⟩ := h
    exact absurd hs (List.not_mem_nil _)
  | cons v vs ih =>
    obtain ⟨s, hs, hbad⟩ := h
    cases hr : parseLumberjack u (ρ i) v with
    | error e => exact ⟨e, by simp only [parseLumberjacksFrom, hr]⟩
    | ok l =>
      rcases List.mem_cons.1 hs with hsv | hsv
      · subst hsv
        obtain ⟨e, he⟩ := hbad i
        rw [he] at hr
        cases hr
      · obtain ⟨e, he⟩ := ih (i + 1) ⟨s, hsv, hbad⟩
        exact ⟨e, by simp only [parseLumberjacksFrom, hr, he]⟩

theorem parseLumberjacksFrom_error_inv (u : Char → Char) (ρ : Nat → RangeOrder GoString)
    (vs : List GoString) (i : Nat) (e : GoError)
    (h : parseLumberjacksFrom u ρ i vs = .error e) :
    ∃ s ∈ vs, ∃ j, parseLumberjack u (ρ j) s = .error e := by
  induction vs generalizing i with
  | nil => simp [parseLumberjacksFrom] at h
  | cons v vs ih =>
    simp only [parseLumberjacksFrom] at h
    cases hr : parseLumberjack u (ρ i) v with
    | error e' =>
      simp only [hr, Except.error.injEq] at h
      subst h
      exact ⟨v, List.mem_cons_self _ _, i, hr⟩
    | ok l =>
      simp only [hr] at h
      cases hr' : parseLumberjacksFrom u ρ (i + 1) vs with
      | error e' =>
        simp only [hr', Except.error.injEq] at h
        subst h
        obtain ⟨s, hs, j, hj⟩ := ih (i + 1) hr'
        exact ⟨s, List.mem_cons_of_mem _ hs, j, hj⟩
      | ok ls =>
        simp only [hr'] at h
        cases h

/-- A spec whose scanned map holds an entry with a value invalid for its key
fails under every order of the range. -/
theorem parseLumberjack_error_of_invalid_entry (u : Char → Char) (ρ : RangeOrder GoString)
    (hρ : ρ.Valid) (s k v : GoString) (hlast : lastValue (scanPairs s) k = some v)
    (hbad : validFor (ToLower u k) v = false) :
    ∃ e, parseLumberjack u ρ s = .error e := by
  unfold parseLumberjack
  apply applyEntries_error_of_invalid
  have hmem : (k, v) ∈ ρ (scanKV s) :=
    (hρ (scanKV s)).mem_iff.2 ((mem_scanKV_iff s k v).2 hlast)
  unfold entriesValid
  rw [Bool.eq_false_iff]
  intro hall
  rw [List.all_eq_true] at hall
  have := hall (k, v) hmem
  rw [hbad] at this
  cases this

/-- The error of a spec names an entry of its scanned map whose value is
invalid for its key. -/
theorem parseLumberjack_error_inv (u : Char → Char) (ρ : RangeOrder GoString)
    (hρ : ρ.Valid) (s : GoString) (e : GoError) (h : parseLumberjack u ρ s = .error e) :
    ∃ key value ne, lastValue (scanPairs s) key = some value ∧
      validFor (ToLower u key) value = false ∧ ne.Num = value ∧
      e = .withMessage (.numError ne) (errMessage key) := by
  unfold parseLumberjack at h
  obtain ⟨p, hp, c', hc⟩ := applyEntries_error_mem u _ _ e h
  obtain ⟨hinv, ne, he, hnum, _⟩ := applyEntry_error u c' p.1 p.2 e hc
  have hmem : (p.1, p.2) ∈ scanKV s := (hρ (scanKV s)).mem_iff.1 hp
  exact ⟨p.1, p.2, ne, (mem_scanKV_iff s p.1 p.2).1 hmem, hinv, hnum, he⟩

/-! ## The values of a query -/

theorem paramValues_cons (p : GoString × GoString) (ps : List (GoString × GoString))
    (k : GoString) :
    paramValues (p :: ps) k = if p.1 = k then p.2 :: paramValues ps k else paramValues ps k := by
  unfold paramValues
  by_cases h : p.1 = k <;> simp [List.filter_cons, h]

theorem paramValues_eq_nil_iff (ps : List (GoString × GoString)) (k : GoString) :
    paramValues ps k = [] ↔ k ∉ ps.map Prod.fst := by
  induction ps with
  | nil => simp [paramValues]
  | cons p ps ih =>
    rw [paramValues_cons]
    by_cases h : p.1 = k
    · simp only [h, if_true, List.map_cons, List.mem_cons, true_or, not_true_eq_false,
        reduceCtorEq]
    · have h' : ¬ k = p.1 := fun e => h e.symm
      simp only [h, if_false, ih, List.map_cons, List.mem_cons, h', false_or]

theorem query_fold_get (ps : List (GoString × GoString)) (m : GoMap (List GoString))
    (k : GoString) :
    (ps.foldl (fun m p => m.set p.1 ((m.get p.1).getD [] ++ [p.2])) m).get k
      = if paramValues ps k = [] then m.get k
        else some ((m.get k).getD [] ++ paramValues ps k) := by
  induction ps generalizing m with
  | nil => simp [paramValues]
  | cons p ps ih =>
    rw [List.foldl_cons, ih, GoMap.get_set, paramValues_cons]
    by_cases h : p.1 = k
    · subst h
      by_cases hv : paramValues ps p.1 = []
      · simp [hv]
      · simp [hv]
    · simp [h]

theorem query_fold_nodup (ps : List (GoString × GoString)) (m : GoMap (List GoString))
    (h : (m.map Prod.fst).Nodup) :
    ((ps.foldl (fun m p => m.set p.1 ((m.get p.1).getD [] ++ [p.2])) m).map Prod.fst).Nodup := by
  induction ps generalizing m with
  | nil => exact h
  | cons p ps ih =>
    rw [List.foldl_cons]
    exact ih _ (GoMap.nodup_keys_set m _ _ h)

theorem URL.Query_nodup (url : URL) : (url.Query.map Prod.fst).Nodup :=
  query_fold_nodup url.QueryPairs [] List.nodup_nil

theorem URL.Query_get (url : URL) (k : GoString) :
    url.Query.get k
      = if paramValues url.QueryPairs k = [] then none
        else some (paramValues url.QueryPairs k) := by
  unfold URL.Query
  rw [query_fold_get]
  simp [GoMap.get]

theorem URL.Query_mem (url : URL) (k : GoString) (vs : List GoString)
    (h : (k, vs) ∈ url.Query) : vs = paramValues url.QueryPairs k ∧ vs ≠ [] := by
  rw [← GoMap.get_eq_some_iff _ url.Query_nodup, URL.Query_get] at h
  by_cases hv : paramValues url.QueryPairs k = []
  · simp [hv] at h
  · simp only [hv, if_false, Option.some.injEq] at h
    exact ⟨h.symm, h ▸ hv⟩

theorem URL.Query_mem_key (url : URL) (k : GoString) (vs : List GoString)
    (h : (k, vs) ∈ url.Query) : k ∈ url.QueryPairs.map Prod.fst := by
  have h' := (URL.Query_mem url k vs h)
  by_contra hk
  exact h'.2 (h'.1.trans ((paramValues_eq_nil_iff _ _).2 hk))

/-! ## Slices -/

theorem elems_goAppend {α : Type} (out : Slice α) (xs : List α) :
    (goAppend out xs).elems = out.elems ++ xs := by
  cases out with
  | none => cases xs <;> rfl
  | some l => rfl

theorem goAppend_nil {α : Type} (out : Slice α) : goAppend out [] = out := by
  cases out with
  | none => rfl
  | some l => simp [goAppend]

theorem elems_appendComma (out : Slice GoString) (vs : List GoString) :
    (appendStringsFromCommaSeparatedStrings out vs).elems = out.elems ++ commaTokens vs := by
  unfold appendStringsFromCommaSeparatedStrings commaTokens
  induction vs generalizing out with
  | nil => simp
  | cons v vs ih =>
    rw [List.foldl_cons, ih, elems_goAppend]
    simp [List.append_assoc]

/-! ## Unfolding `ParseConfigFromURI` -/

theorem ParseConfigFromURI_ok_inv (u : Char → Char) (fp : GoString → Except GoError Priority)
    (o : Orders) (url : URL) (cfg : Config) (h : ParseConfigFromURI u fp o url = .ok cfg) :
    url.Scheme = "logger".data ∧
    ∃ config, defaultConfig.populateCommonFromQS o.common url.Query = .ok config ∧
      ((url.Opaque = "console".data ∧
          ({ config with EncoderType := ConsoleEncoder }).populateStandardEncoderFromQS u
            o.encoder o.lumberjack o.errorLumberjack url.Query = .ok cfg) ∨
       (url.Opaque = "json".data ∧
          ({ config with EncoderType := JSONEncoder }).populateStandardEncoderFromQS u
            o.encoder o.lumberjack o.errorLumberjack url.Query = .ok cfg) ∨
       (url.Opaque = "syslog".data ∧
          ({ config with EncoderType := SyslogEncoder }).populateSyslogEncoderFromQS u fp
            o.encoder url.Query = .ok cfg)) := by
  unfold ParseConfigFromURI at h
  by_cases hs : url.Scheme = "logger".data
  · refine ⟨hs, ?_⟩
    rw [if_neg (not_not.2 hs)] at h
    cases hc : defaultConfig.populateCommonFromQS o.common url.Query with
    | error e =>
      simp only [hc] at h
      cases h
    | ok config =>
      simp only [hc] at h
      refine ⟨config, rfl, ?_⟩
      by_cases h1 : url.Opaque = "console".data
      · rw [if_pos h1] at h
        exact Or.inl ⟨h1, h⟩
      rw [if_neg h1] at h
      by_cases h2 : url.Opaque = "json".data
      · rw [if_pos h2] at h
        exact Or.inr (Or.inl ⟨h2, h⟩)
      rw [if_neg h2] at h
      by_cases h3 : url.Opaque = "syslog".data
      · rw [if_pos h3] at h
        exact Or.inr (Or.inr ⟨h3, h⟩)
      · rw [if_neg h3] at h
        cases h
  · rw [if_pos hs] at h
    cases h

theorem populateStandard_ok_inv (u : Char → Char) (ρ : RangeOrder (List GoString))
    (ρl ρe : Nat → RangeOrder GoString) (c cfg : Config) (values : GoMap (List GoString))
    (h : c.populateStandardEncoderFromQS u ρ ρl ρe values = .ok cfg) :
    ∃ st, rangeM (standardStep u ρl ρe) ⟨c, none, none⟩ (ρ values) = .ok st ∧
      cfg = { st.cfg with OutputPaths := st.outputPaths,
                          ErrorOutputPaths := st.errorOutputPaths } := by
  unfold Config.populateStandardEncoderFromQS at h
  cases hr : rangeM (standardStep u ρl ρe) ⟨c, none, none⟩ (ρ values) with
  | error e => simp [hr] at h
  | ok st =>
    simp only [hr, Except.ok.injEq] at h
    exact ⟨st, rfl, h.symm⟩

theorem standardStep_cases (u : Char → Char) (ρl ρe : Nat → RangeOrder GoString)
    (st st₁ : StandardState) (k : GoString) (vs : List GoString)
    (h : standardStep u ρl ρe st k vs = .ok st₁) :
    st₁.outputPaths = outputPathsStep k vs st.outputPaths ∧
    st₁.errorOutputPaths = errorOutputPathsStep k vs st.errorOutputPaths ∧
    st₁.cfg = { st.cfg with Lumberjacks := st₁.cfg.Lumberjacks,
                            ErrorLumberjacks := st₁.cfg.ErrorLumberjacks } ∧
    (k ≠ "lumberjack".data → st₁.cfg.Lumberjacks = st.cfg.Lumberjacks) ∧
    (k ≠ "errorLumberjack".data → st₁.cfg.ErrorLumberjacks = st.cfg.ErrorLumberjacks) := by
  unfold standardStep at h
  unfold outputPathsStep errorOutputPathsStep
  by_cases h0 : vs.length = 0
  · have hv : vs = [] := List.length_eq_zero.1 h0
    rw [if_pos h0] at h
    cases h
    subst hv
    simp [appendStringsFromStrings, appendStringsFromCommaSeparatedStrings, goAppend_nil]
  rw [if_neg h0] at h
  by_cases h1 : k = "outputPath".data
  · rw [if_pos h1] at h
    cases h
    subst h1
    refine ⟨by rw [if_pos rfl], ?_, rfl, fun _ => rfl, fun _ => rfl⟩
    rw [if_neg (by decide), if_neg (by decide)]
  rw [if_neg h1] at h
  by_cases h2 : k = "outputPaths".data
  · rw [if_pos h2] at h
    cases h
    subst h2
    refine ⟨by rw [if_neg (by decide), if_pos rfl], ?_, rfl, fun _ => rfl, fun _ => rfl⟩
    rw [if_neg (by decide), if_neg (by decide)]
  rw [if_neg h2] at h
  by_cases h3 : k = "errorOutputPath".data
  · rw [if_pos h3] at h
    cases h
    refine ⟨by rw [if_neg h1, if_neg h2], by rw [if_pos h3], rfl, fun _ => rfl, fun _ => rfl⟩
  rw [if_neg h3] at h
  by_cases h4 : k = "errorOutputPaths".data
  · rw [if_pos h4] at h
    cases h
    refine ⟨by rw [if_neg h1, if_neg h2], by rw [if_neg h3, if_pos h4], rfl, fun _ => rfl,
      fun _ => rfl⟩
  rw [if_neg h4] at h
  by_cases h5 : k = "lumberjack".data
  · rw [if_pos h5] at h
    cases hp : ParseLumberjacks u ρl vs with
    | error e =>
      simp only [hp] at h
      cases h
    | ok ls =>
      simp only [hp] at h
      cases h
      refine ⟨by rw [if_neg h1, if_neg h2], by rw [if_neg h3, if_neg h4], rfl,
        fun hne => absurd h5 hne, fun _ => rfl⟩
  rw [if_neg h5] at h
  by_cases h6 : k = "errorLumberjack".data
  · rw [if_pos h6] at h
    cases hp : ParseLumberjacks u ρe vs with
    | error e =>
      simp only [hp] at h
      cases h
    | ok ls =>
      simp only [hp] at h
      cases h
      refine ⟨by rw [if_neg h1, if_neg h2], by rw [if_neg h3, if_neg h4], rfl,
        fun _ => rfl, fun hne => absurd h6 hne⟩
  · rw [if_neg h6] at h
    cases h
    exact ⟨by rw [if_neg h1, if_neg h2], by rw [if_neg h3, if_neg h4], rfl, fun _ => rfl,
      fun _ => rfl⟩

/-! ## C2: the destination lists of a console or json URI -/

theorem standard_paths_fold (u : Char → Char) (ρ : RangeOrder (List GoString))
    (ρl ρe : Nat → RangeOrder GoString) (c cfg : Config) (values : GoMap (List GoString))
    (h : c.populateStandardEncoderFromQS u ρ ρl ρe values = .ok cfg) :
    cfg.OutputPaths
        = (ρ values).foldl (fun x e => outputPathsStep e.1 e.2 x) none ∧
    cfg.ErrorOutputPaths
        = (ρ values).foldl (fun x e => errorOutputPathsStep e.1 e.2 x) none := by
  obtain ⟨st, hr, hcfg⟩ := populateStandard_ok_inv u ρ ρl ρe c cfg values h
  subst hcfg
  exact ⟨rangeM_proj (standardStep u ρl ρe) (fun st => st.outputPaths) outputPathsStep
      (fun st k v st₁ hs => (standardStep_cases u ρl ρe st st₁ k v hs).1) _ _ _ hr,
    rangeM_proj (standardStep u ρl ρe) (fun st => st.errorOutputPaths) errorOutputPathsStep
      (fun st k v st₁ hs => (standardStep_cases u ρl ρe st st₁ k v hs).2.1) _ _ _ hr⟩

/-- A loop that appends under two keys, ranged over a map that lacks the first
key: only the values of the second key are appended. -/
theorem foldl_two_keys_first_absent {τ : Type} (k₁ k₂ : GoString)
    (f₁ f₂ : List GoString → τ → τ) (url : URL) (ρ : RangeOrder (List GoString))
    (hρ : ρ.Valid) (x : τ) (hf : ∀ y, f₂ [] y = y)
    (habs : k₁ ∉ url.QueryPairs.map Prod.fst) :
    (ρ url.Query).foldl
        (fun x e => if e.1 = k₁ then f₁ e.2 x else if e.1 = k₂ then f₂ e.2 x else x) x
      = f₂ (paramValues url.QueryPairs k₂) x := by
  have hperm := hρ url.Query
  have hnd : ((ρ url.Query).map Prod.fst).Nodup :=
    (hperm.map _).nodup_iff.2 url.Query_nodup
  rw [foldl_congr_mem
    (fun k v y => if k = k₁ then f₁ v y else if k = k₂ then f₂ v y else y)
    (fun k v y => if k = k₂ then f₂ v y else y) (ρ url.Query) x
    (fun e he y => by
      have hk : e.1 ≠ k₁ := fun hk =>
        habs (hk ▸ URL.Query_mem_key url e.1 e.2 (hperm.mem_iff.1 he))
      simp only [hk, if_false])]
  rw [foldl_single_key k₂ f₂ _ x hnd, GoMap.get_perm hperm hnd, URL.Query_get]
  by_cases hv : paramValues url.QueryPairs k₂ = []
  · simp only [hv, if_true, hf]
  · simp only [hv, if_false]

/-- The same loop ranged over a map that lacks the second key. -/
theorem foldl_two_keys_second_absent {τ : Type} (k₁ k₂ : GoString)
    (f₁ f₂ : List GoString → τ → τ) (url : URL) (ρ : RangeOrder (List GoString))
    (hρ : ρ.Valid) (x : τ) (hf : ∀ y, f₁ [] y = y)
    (habs : k₂ ∉ url.QueryPairs.map Prod.fst) :
    (ρ url.Query).foldl
        (fun x e => if e.1 = k₁ then f₁ e.2 x else if e.1 = k₂ then f₂ e.2 x else x) x
      = f₁ (paramValues url.QueryPairs k₁) x := by
  have hperm := hρ url.Query
  have hnd : ((ρ url.Query).map Prod.fst).Nodup :=
    (hperm.map _).nodup_iff.2 url.Query_nodup
  rw [foldl_congr_mem
    (fun k v y => if k = k₁ then f₁ v y else if k = k₂ then f₂ v y else y)
    (fun k v y => if k = k₁ then f₁ v y else y) (ρ url.Query) x
    (fun e he y => by
      have hk : e.1 ≠ k₂ := fun hk =>
        habs (hk ▸ URL.Query_mem_key url e.1 e.2 (hperm.mem_iff.1 he))
      simp only [hk, if_false])]
  rw [foldl_single_key k₁ f₁ _ x hnd, GoMap.get_perm hperm hnd, URL.Query_get]
  by_cases hv : paramValues url.QueryPairs k₁ = []
  · simp only [hv, if_true, hf]
  · simp only [hv, if_false]

theorem appendComma_nil (x : Slice GoString) :
    appendStringsFromCommaSeparatedStrings x [] = x := rfl

theorem appendStrings_nil (x : Slice GoString) : appendStringsFromStrings x [] = x :=
  goAppend_nil x

theorem ParseConfigFromURI_standard (u : Char → Char)
    (fp : GoString → Except GoError Priority) (o : Orders) (url : URL) (cfg : Config)
    (henc : url.Opaque = "console".data ∨ url.Opaque = "json".data)
    (h : ParseConfigFromURI u fp o url = .ok cfg) :
    url.Scheme = "logger".data ∧
    ∃ config, defaultConfig.populateCommonFromQS o.common url.Query = .ok config ∧
      ∃ t, (t = ConsoleEncoder ∧ url.Opaque = "console".data ∨
            t = JSONEncoder ∧ url.Opaque = "json".data) ∧
        ({ config with EncoderType := t }).populateStandardEncoderFromQS u
          o.encoder o.lumberjack o.errorLumberjack url.Query = .ok cfg := by
  obtain ⟨hs, config, hc, hcase⟩ := ParseConfigFromURI_ok_inv u fp o url cfg h
  refine ⟨hs, config, hc, ?_⟩
  rcases hcase with ⟨h1, hp⟩ | ⟨h2, hp⟩ | ⟨h3, _⟩
  · exact ⟨ConsoleEncoder, Or.inl ⟨rfl, h1⟩, hp⟩
  · exact ⟨JSONEncoder, Or.inr ⟨rfl, h2⟩, hp⟩
  · rcases henc with hc' | hj
    · rw [h3] at hc'
      exact absurd hc' (by decide)
    · rw [h3] at hj
      exact absurd hj (by decide)

/-- C2. For every console or json URI that `ParseConfigFromURI` accepts, whatever
the orders of its ranges: when the query does not use the singular key
`outputPath`, `OutputPaths` holds the comma-split tokens of every occurrence of
`outputPaths`, concatenated in query order; when it does not use the plural key
`outputPaths`, `OutputPaths` holds the raw values of every occurrence of
`outputPath` in query order. The same holds for `errorOutputPath`,
`errorOutputPaths` and `ErrorOutputPaths`. -/
theorem ParseConfigFromURI_outputPaths (u : Char → Char)
    (fp : GoString → Except GoError Priority) (o : Orders) (url : URL) (cfg : Config)
    (ho : o.Valid) (henc : url.Opaque = "console".data ∨ url.Opaque = "json".data)
    (h : ParseConfigFromURI u fp o url = .ok cfg) :
    (¬ hasParam url.QueryPairs "outputPath".data →
      cfg.OutputPaths.elems = commaTokens (paramValues url.QueryPairs "outputPaths".data)) ∧
    (¬ hasParam url.QueryPairs "outputPaths".data →
      cfg.OutputPaths.elems = paramValues url.QueryPairs "outputPath".data) ∧
    (¬ hasParam url.QueryPairs "errorOutputPath".data →
      cfg.ErrorOutputPaths.elems
        = commaTokens (paramValues url.QueryPairs "errorOutputPaths".data)) ∧
    (¬ hasParam url.QueryPairs "errorOutputPaths".data →
      cfg.ErrorOutputPaths.elems = paramValues url.QueryPairs "errorOutputPath".data) := by
  obtain ⟨_, config, _, t, _, hp⟩ := ParseConfigFromURI_standard u fp o url cfg henc h
  obtain ⟨hout, herr⟩ := standard_paths_fold u _ _ _ _ cfg _ hp
  refine ⟨fun habs => ?_, fun habs => ?_, fun habs => ?_, fun habs => ?_⟩
  · rw [hout]
    have key : (o.encoder url.Query).foldl (fun x e => outputPathsStep e.1 e.2 x) none
        = appendStringsFromCommaSeparatedStrings none (paramValues url.QueryPairs "outputPaths".data) :=
      foldl_two_keys_first_absent "outputPath".data "outputPaths".data
        (fun vs x => appendStringsFromStrings x vs)
        (fun vs x => appendStringsFromCommaSeparatedStrings x vs) url o.encoder ho.2.1 none
        (fun _ => rfl) habs
    rw [key]
    rw [elems_appendComma]
    rfl
  · rw [hout]
    have key : (o.encoder url.Query).foldl (fun x e => outputPathsStep e.1 e.2 x) none
        = appendStringsFromStrings none (paramValues url.QueryPairs "outputPath".data) :=
      foldl_two_keys_second_absent "outputPath".data "outputPaths".data
        (fun vs x => appendStringsFromStrings x vs)
        (fun vs x => appendStringsFromCommaSeparatedStrings x vs) url o.encoder ho.2.1 none
        appendStrings_nil habs
    rw [key]
    unfold appendStringsFromStrings
    rw [elems_goAppend]
    rfl
  · rw [herr]
    have key : (o.encoder url.Query).foldl (fun x e => errorOutputPathsStep e.1 e.2 x) none
        = appendStringsFromCommaSeparatedStrings none (paramValues url.QueryPairs "errorOutputPaths".data) :=
      foldl_two_keys_first_absent "errorOutputPath".data "errorOutputPaths".data
        (fun vs x => appendStringsFromStrings x vs)
        (fun vs x => appendStringsFromCommaSeparatedStrings x vs) url o.encoder ho.2.1 none
        (fun _ => rfl) habs
    rw [key]
    rw [elems_appendComma]
    rfl
  · rw [herr]
    have key : (o.encoder url.Query).foldl (fun x e => errorOutputPathsStep e.1 e.2 x) none
        = appendStringsFromStrings none (paramValues url.QueryPairs "errorOutputPath".data) :=
      foldl_two_keys_second_absent "errorOutputPath".data "errorOutputPaths".data
        (fun vs x => appendStringsFromStrings x vs)
        (fun vs x => appendStringsFromCommaSeparatedStrings x vs) url o.encoder ho.2.1 none
        appendStrings_nil habs
    rw [key]
    unfold appendStringsFromStrings
    rw [elems_goAppend]
    rfl

theorem Orders.inOrder_valid : Orders.inOrder.Valid :=
  ⟨fun m => List.Perm.refl m, fun m => List.Perm.refl m, fun _ m => List.Perm.refl m,
    fun _ m => List.Perm.refl m⟩

/-- C2, at `logger:json?outputPaths=stdout,stderr`: the plural key yields the
two tokens. -/
theorem ParseConfigFromURI_outputPaths_witness :
    (ParseConfigFromURI id (fun _ => .ok 0) Orders.inOrder
        ⟨"logger".data, "json".data, [("outputPaths".data, "stdout,stderr".data)]⟩).toOption.map
          (fun c => c.OutputPaths.elems) = some ["stdout".data, "stderr".data] ∧
    commaTokens (paramValues [("outputPaths".data, "stdout,stderr".data)] "outputPaths".data)
      = ["stdout".data, "stderr".data] := by
  have h := (ParseConfigFromURI_outputPaths id (fun _ => .ok 0) Orders.inOrder
    ⟨"logger".data, "json".data, [("outputPaths".data, "stdout,stderr".data)]⟩
    { defaultConfig with EncoderType := JSONEncoder,
                         OutputPaths := some ["stdout".data, "stderr".data] }
    Orders.inOrder_valid (Or.inr rfl) (by decide)).1 (by decide)
  exact ⟨by decide, h.symm.trans rfl⟩

/-- The URI `logger:console?outputPath=stdout&outputPath=stderr`: two occurrences
of the singular key yield the two-element list of the plural key. -/
theorem ParseConfigFromURI_outputPath_twice :
    ParseConfigFromURI id (fun _ => .ok 0) Orders.inOrder
        ⟨"logger".data, "console".data,
          [("outputPath".data, "stdout".data), ("outputPath".data, "stderr".data)]⟩
      = .ok { defaultConfig with EncoderType := ConsoleEncoder,
                                 OutputPaths := some ["stdout".data, "stderr".data] } := by
  decide

/-! ## C3: the encoder kind of a configuration URI -/

theorem rangeM_total {β σ : Type} (step : σ → GoString → β → Except GoError σ)
    (es : GoMap β) (h : ∀ e ∈ es, ∀ st, ∃ st', step st e.1 e.2 = .ok st') (st : σ) :
    ∃ st', rangeM step st es = .ok st' := by
  induction es generalizing st with
  | nil => exact ⟨st, rfl⟩
  | cons e es ih =>
    obtain ⟨k, v⟩ := e
    obtain ⟨st₁, hs⟩ := h (k, v) (List.mem_cons_self _ _) st
    obtain ⟨st', hr⟩ := ih (fun e he => h e (List.mem_cons_of_mem _ he)) st₁
    exact ⟨st', by simp only [rangeM, hs, hr]⟩

theorem rangeM_const {β σ τ : Type} (step : σ → GoString → β → Except GoError σ)
    (π : σ → τ) (hstep : ∀ st k v st₁, step st k v = .ok st₁ → π st₁ = π st)
    (es : GoMap β) (st st' : σ) (h : rangeM step st es = .ok st') : π st' = π st := by
  rw [rangeM_proj step π (fun _ _ x => x) hstep es st st' h]
  exact foldl_key_absent (fun _ _ x => x) es _ (fun _ _ _ => rfl)

theorem parseBoolParam_ok (v : GoString) (vs : List GoString) (msg : GoString)
    (h : (ParseBool v).toBool = true) : ∃ b, parseBoolParam (v :: vs) msg = .ok b := by
  cases hp : ParseBool v with
  | error e => simp [hp, Except.toBool] at h
  | ok b => exact ⟨b, by simp only [parseBoolParam, hp]⟩

theorem commonStep_total (cfg : Config) (k v : GoString) (vs : List GoString)
    (h : k = "development".data ∨ k = "disableCaller".data ∨ k = "disableStacktrace".data →
      (ParseBool v).toBool = true) :
    ∃ cfg', commonStep cfg k (v :: vs) = .ok cfg' := by
  unfold commonStep
  by_cases h1 : k = "development".data
  · obtain ⟨b, hb⟩ := parseBoolParam_ok v vs "config: error parsing development".data
      (h (Or.inl h1))
    rw [if_pos h1, hb]
    exact ⟨_, rfl⟩
  rw [if_neg h1]
  by_cases h2 : k = "disableCaller".data
  · obtain ⟨b, hb⟩ := parseBoolParam_ok v vs "config: error parsing disableCaller".data
      (h (Or.inr (Or.inl h2)))
    rw [if_pos h2, hb]
    exact ⟨_, rfl⟩
  rw [if_neg h2]
  by_cases h3 : k = "disableStacktrace".data
  · obtain ⟨b, hb⟩ := parseBoolParam_ok v vs "config: error parsing disableStacktrace".data
      (h (Or.inr (Or.inr h3)))
    rw [if_pos h3, hb]
    exact ⟨_, rfl⟩
  rw [if_neg h3]
  exact ⟨_, rfl⟩

theorem boolParamOk_of_mem (url : URL) (k : GoString) (vs : List GoString)
    (hmem : (k, vs) ∈ url.Query) (hok : boolParamOk url.QueryPairs k = true) :
    ∃ v rest, vs = v :: rest ∧ (ParseBool v).toBool = true := by
  obtain ⟨hvs, hne⟩ := URL.Query_mem url k vs hmem
  unfold boolParamOk at hok
  rw [← hvs] at hok
  cases vs with
  | nil => exact absurd rfl hne
  | cons v rest => exact ⟨v, rest, rfl, hok⟩

theorem populateCommon_total (ρ : RangeOrder (List GoString)) (hρ : ρ.Valid) (url : URL)
    (cfg : Config) (hv : commonParamsValid url.QueryPairs = true) :
    ∃ cfg', cfg.populateCommonFromQS ρ url.Query = .ok cfg' := by
  unfold Config.populateCommonFromQS
  apply rangeM_total
  intro e he st
  obtain ⟨k, vs⟩ := e
  have hmem : (k, vs) ∈ url.Query := (hρ url.Query).mem_iff.1 he
  obtain ⟨_, hne⟩ := URL.Query_mem url k vs hmem
  unfold commonParamsValid at hv
  rw [Bool.and_eq_true, Bool.and_eq_true] at hv
  cases vs with
  | nil => exact absurd rfl hne
  | cons v rest =>
    apply commonStep_total
    intro hk
    have hok : boolParamOk url.QueryPairs k = true := by
      change k = _ ∨ k = _ ∨ k = _ at hk
      rcases hk with hk | hk | hk
      · rw [hk]; exact hv.1.1
      · rw [hk]; exact hv.1.2
      · rw [hk]; exact hv.2
    obtain ⟨v', rest', hcons, hpb⟩ := boolParamOk_of_mem url k (v :: rest) hmem hok
    cases hcons
    exact hpb

theorem syslogStep_encoderType (u : Char → Char) (fp : GoString → Except GoError Priority)
    (st st₁ : SyslogState) (k : GoString) (vs : List GoString)
    (h : syslogStep u fp st k vs = .ok st₁) : st₁.cfg.EncoderType = st.cfg.EncoderType := by
  unfold syslogStep at h
  dsimp only at h
  repeat' split at h
  all_goals (cases h <;> rfl)

theorem populateStandard_encoderType (u : Char → Char) (ρ : RangeOrder (List GoString))
    (ρl ρe : Nat → RangeOrder GoString) (c cfg : Config) (values : GoMap (List GoString))
    (h : c.populateStandardEncoderFromQS u ρ ρl ρe values = .ok cfg) :
    cfg.EncoderType = c.EncoderType := by
  obtain ⟨st, hr, hcfg⟩ := populateStandard_ok_inv u ρ ρl ρe c cfg values h
  subst hcfg
  exact rangeM_const (standardStep u ρl ρe) (fun st => st.cfg.EncoderType)
    (fun st k v st₁ hs => by
      have h3 := (standardStep_cases u ρl ρe st st₁ k v hs).2.2.1
      show st₁.cfg.EncoderType = st.cfg.EncoderType
      rw [h3]) _ _ _ hr

theorem populateSyslog_encoderType (u : Char → Char)
    (fp : GoString → Except GoError Priority) (ρ : RangeOrder (List GoString))
    (c cfg : Config) (values : GoMap (List GoString))
    (h : c.populateSyslogEncoderFromQS u fp ρ values = .ok cfg) :
    cfg.EncoderType = c.EncoderType := by
  unfold Config.populateSyslogEncoderFromQS at h
  cases hr : rangeM (syslogStep u fp) ⟨c, none⟩ (ρ values) with
  | error e =>
    simp only [hr] at h
    cases h
  | ok st =>
    simp only [hr] at h
    cases h
    exact rangeM_const (syslogStep u fp) (fun st => st.cfg.EncoderType)
      (fun st k v st₁ hs => syslogStep_encoderType u fp st st₁ k v hs) _ _ _ hr

/-- C3, as stated, fails: a URI whose opaque segment is none of the three
encoder names does not always get the unsupported-encoder error. With the
scheme `logger` and `development=maybe` the error is the boolean's, and with
another scheme it is the scheme's. -/
theorem ParseConfigFromURI_unsupported_counterexample :
    ParseConfigFromURI id (fun _ => .ok 0) Orders.inOrder
        ⟨"logger".data, "xml".data, [("development".data, "maybe".data)]⟩
      = .error (.withMessage (.numError ⟨"ParseBool".data, "maybe".data, .ErrSyntax⟩)
          "config: error parsing development".data) ∧
    ParseConfigFromURI id (fun _ => .ok 0) Orders.inOrder
        ⟨"logger".data, "xml".data, [("development".data, "maybe".data)]⟩
      ≠ .error (.unsupportedLogger "xml".data) ∧
    ParseConfigFromURI id (fun _ => .ok 0) Orders.inOrder ⟨"http".data, "xml".data, []⟩
      = .error (.invalidScheme "http".data) := by
  decide

/-- C3, amended. `ParseConfigFromURI` returns a Configuration only when the
scheme is exactly `logger` and the opaque segment is exactly `console`, `json`
or `syslog`, and then `EncoderType` is `ConsoleEncoder`, `JSONEncoder` or
`SyslogEncoder` respectively. For every URI whose opaque segment is anything
else it returns an error and no Configuration, and that error is the
unsupported-encoder error when the scheme is `logger` and each of
`development`, `disableCaller`, `disableStacktrace` present holds a valid
boolean. -/
theorem ParseConfigFromURI_encoderKind (u : Char → Char)
    (fp : GoString → Except GoError Priority) (o : Orders) (url : URL) (ho : o.Valid) :
    (∀ cfg, ParseConfigFromURI u fp o url = .ok cfg →
      url.Scheme = "logger".data ∧
      ((url.Opaque = "console".data ∧ cfg.EncoderType = ConsoleEncoder) ∨
       (url.Opaque = "json".data ∧ cfg.EncoderType = JSONEncoder) ∨
       (url.Opaque = "syslog".data ∧ cfg.EncoderType = SyslogEncoder))) ∧
    (url.Opaque ≠ "console".data → url.Opaque ≠ "json".data → url.Opaque ≠ "syslog".data →
      (∃ e, ParseConfigFromURI u fp o url = .error e) ∧
      (url.Scheme = "logger".data → commonParamsValid url.QueryPairs = true →
        ParseConfigFromURI u fp o url = .error (.unsupportedLogger url.Opaque))) := by
  have part1 : ∀ cfg, ParseConfigFromURI u fp o url = .ok cfg →
      url.Scheme = "logger".data ∧
      ((url.Opaque = "console".data ∧ cfg.EncoderType = ConsoleEncoder) ∨
       (url.Opaque = "json".data ∧ cfg.EncoderType = JSONEncoder) ∨
       (url.Opaque = "syslog".data ∧ cfg.EncoderType = SyslogEncoder)) := by
    intro cfg h
    obtain ⟨hs, config, _, hcase⟩ := ParseConfigFromURI_ok_inv u fp o url cfg h
    refine ⟨hs, ?_⟩
    rcases hcase with ⟨h1, hp⟩ | ⟨h2, hp⟩ | ⟨h3, hp⟩
    · exact Or.inl ⟨h1, populateStandard_encoderType u _ _ _ _ cfg _ hp⟩
    · exact Or.inr (Or.inl ⟨h2, populateStandard_encoderType u _ _ _ _ cfg _ hp⟩)
    · exact Or.inr (Or.inr ⟨h3, populateSyslog_encoderType u fp _ _ cfg _ hp⟩)
  refine ⟨part1, fun h1 h2 h3 => ⟨?_, fun hs hv => ?_⟩⟩
  · cases hr : ParseConfigFromURI u fp o url with
    | error e => exact ⟨e, rfl⟩
    | ok cfg =>
      rcases (part1 cfg hr).2 with ⟨h, _⟩ | ⟨h, _⟩ | ⟨h, _⟩
      · exact absurd h h1
      · exact absurd h h2
      · exact absurd h h3
  · obtain ⟨config, hc⟩ := populateCommon_total o.common ho.1 url defaultConfig hv
    unfold ParseConfigFromURI
    rw [if_neg (not_not.2 hs)]
    simp only [hc]
    rw [if_neg h1, if_neg h2, if_neg h3]

/-- C3, amended, at `logger:xml?outputPaths=stdout`: the unsupported-encoder
error. -/
theorem ParseConfigFromURI_encoderKind_witness :
    ParseConfigFromURI id (fun _ => .ok 0) Orders.inOrder
        ⟨"logger".data, "xml".data, [("outputPaths".data, "stdout".data)]⟩
      = .error (.unsupportedLogger "xml".data) :=
  ((ParseConfigFromURI_encoderKind id (fun _ => .ok 0) Orders.inOrder
    ⟨"logger".data, "xml".data, [("outputPaths".data, "stdout".data)]⟩
    Orders.inOrder_valid).2 (by decide) (by decide) (by decide)).2 rfl (by decide)

/-! ## C4: what a console or json URI leaves of `defaultConfig` -/

theorem rangeM_const_mem {β σ τ : Type} (step : σ → GoString → β → Except GoError σ)
    (π : σ → τ) (es : GoMap β)
    (hstep : ∀ e ∈ es, ∀ st st₁, step st e.1 e.2 = .ok st₁ → π st₁ = π st)
    (st st' : σ) (h : rangeM step st es = .ok st') : π st' = π st := by
  induction es generalizing st with
  | nil =>
    simp only [rangeM, Except.ok.injEq] at h
    rw [h]
  | cons e es ih =>
    obtain ⟨k, v⟩ := e
    simp only [rangeM] at h
    cases hs : step st k v with
    | error e =>
      simp only [hs] at h
      cases h
    | ok st₁ =>
      simp only [hs] at h
      rw [ih (fun e he => hstep e (List.mem_cons_of_mem _ he)) st₁ h]
      exact hstep (k, v) (List.mem_cons_self _ _) st st₁ hs

theorem commonStep_cases (cfg cfg₁ : Config) (k : GoString) (vs : List GoString)
    (h : commonStep cfg k vs = .ok cfg₁) :
    cfg₁.eraseCommon = cfg.eraseCommon ∧
    (k ≠ "development".data → cfg₁.Development = cfg.Development) ∧
    (k ≠ "disableCaller".data → cfg₁.DisableCaller = cfg.DisableCaller) ∧
    (k ≠ "disableStacktrace".data → cfg₁.DisableStacktrace = cfg.DisableStacktrace) := by
  unfold commonStep at h
  by_cases h1 : k = "development".data
  · rw [if_pos h1] at h
    cases hb : parseBoolParam vs "config: error parsing development".data with
    | error e =>
      simp only [hb] at h
      cases h
    | ok b =>
      simp only [hb] at h
      cases h
      exact ⟨rfl, fun hne => absurd h1 hne, fun _ => rfl, fun _ => rfl⟩
  rw [if_neg h1] at h
  by_cases h2 : k = "disableCaller".data
  · rw [if_pos h2] at h
    cases hb : parseBoolParam vs "config: error parsing disableCaller".data with
    | error e =>
      simp only [hb] at h
      cases h
    | ok b =>
      simp only [hb] at h
      cases h
      exact ⟨rfl, fun _ => rfl, fun hne => absurd h2 hne, fun _ => rfl⟩
  rw [if_neg h2] at h
  by_cases h3 : k = "disableStacktrace".data
  · rw [if_pos h3] at h
    cases hb : parseBoolParam vs "config: error parsing disableStacktrace".data with
    | error e =>
      simp only [hb] at h
      cases h
    | ok b =>
      simp only [hb] at h
      cases h
      exact ⟨rfl, fun _ => rfl, fun _ => rfl, fun hne => absurd h3 hne⟩
  rw [if_neg h3] at h
  cases h
  exact ⟨rfl, fun _ => rfl, fun _ => rfl, fun _ => rfl⟩

theorem range_key_ne (url : URL) (ρ : RangeOrder (List GoString)) (hρ : ρ.Valid)
    (k : GoString) (habs : ¬ hasParam url.QueryPairs k) (e : GoString × List GoString)
    (he : e ∈ ρ url.Query) : e.1 ≠ k := fun hk =>
  habs (hk ▸ URL.Query_mem_key url e.1 e.2 ((hρ url.Query).mem_iff.1 he))

theorem populateCommon_frame (ρ : RangeOrder (List GoString)) (hρ : ρ.Valid) (url : URL)
    (c config : Config) (h : c.populateCommonFromQS ρ url.Query = .ok config) :
    config.eraseCommon = c.eraseCommon ∧
    (¬ hasParam url.QueryPairs "development".data → config.Development = c.Development) ∧
    (¬ hasParam url.QueryPairs "disableCaller".data →
      config.DisableCaller = c.DisableCaller) ∧
    (¬ hasParam url.QueryPairs "disableStacktrace".data →
      config.DisableStacktrace = c.DisableStacktrace) := by
  unfold Config.populateCommonFromQS at h
  refine ⟨rangeM_const commonStep Config.eraseCommon
      (fun st k v st₁ hs => (commonStep_cases st st₁ k v hs).1) _ _ _ h, ?_, ?_, ?_⟩
  · intro habs
    exact rangeM_const_mem commonStep (fun c => c.Development) _
      (fun e he st st₁ hs =>
        (commonStep_cases st st₁ e.1 e.2 hs).2.1 (range_key_ne url ρ hρ _ habs e he)) _ _ h
  · intro habs
    exact rangeM_const_mem commonStep (fun c => c.DisableCaller) _
      (fun e he st st₁ hs =>
        (commonStep_cases st st₁ e.1 e.2 hs).2.2.1 (range_key_ne url ρ hρ _ habs e he)) _ _ h
  · intro habs
    exact rangeM_const_mem commonStep (fun c => c.DisableStacktrace) _
      (fun e he st st₁ hs =>
        (commonStep_cases st st₁ e.1 e.2 hs).2.2.2 (range_key_ne url ρ hρ _ habs e he)) _ _ h

theorem populateStandard_frame (u : Char → Char) (ρ : RangeOrder (List GoString))
    (hρ : ρ.Valid) (ρl ρe : Nat → RangeOrder GoString) (url : URL) (c cfg : Config)
    (h : c.populateStandardEncoderFromQS u ρ ρl ρe url.Query = .ok cfg) :
    cfg.eraseLumberjacks
      = { c.eraseLumberjacks with OutputPaths := cfg.OutputPaths,
                                  ErrorOutputPaths := cfg.ErrorOutputPaths } ∧
    (¬ hasParam url.QueryPairs "lumberjack".data → cfg.Lumberjacks = c.Lumberjacks) ∧
    (¬ hasParam url.QueryPairs "errorLumberjack".data →
      cfg.ErrorLumberjacks = c.ErrorLumberjacks) ∧
    (¬ hasParam url.QueryPairs "outputPath".data →
      ¬ hasParam url.QueryPairs "outputPaths".data → cfg.OutputPaths = none) ∧
    (¬ hasParam url.QueryPairs "errorOutputPath".data →
      ¬ hasParam url.QueryPairs "errorOutputPaths".data → cfg.ErrorOutputPaths = none) := by
  obtain ⟨hout, herr⟩ := standard_paths_fold u ρ ρl ρe c cfg url.Query h
  obtain ⟨st, hr, hcfg⟩ := populateStandard_ok_inv u ρ ρl ρe c cfg url.Query h
  have herase : st.cfg.eraseLumberjacks = c.eraseLumberjacks :=
    rangeM_const (standardStep u ρl ρe) (fun st => st.cfg.eraseLumberjacks)
      (fun st k v st₁ hs =>
        (congrArg Config.eraseLumberjacks (standardStep_cases u ρl ρe st st₁ k v hs).2.2.1).trans
          rfl) _ _ _ hr
  refine ⟨?_, ?_, ?_, ?_, ?_⟩
  · rw [← herase, hcfg]
    rfl
  · intro habs
    rw [hcfg]
    exact rangeM_const_mem (standardStep u ρl ρe) (fun st => st.cfg.Lumberjacks) _
      (fun e he st st₁ hs => (standardStep_cases u ρl ρe st st₁ e.1 e.2 hs).2.2.2.1
        (range_key_ne url ρ hρ _ habs e he)) _ _ hr
  · intro habs
    rw [hcfg]
    exact rangeM_const_mem (standardStep u ρl ρe) (fun st => st.cfg.ErrorLumberjacks) _
      (fun e he st st₁ hs => (standardStep_cases u ρl ρe st st₁ e.1 e.2 hs).2.2.2.2
        (range_key_ne url ρ hρ _ habs e he)) _ _ hr
  · intro h1 h2
    rw [hout]
    exact foldl_key_absent outputPathsStep _ _ (fun e he y => by
      unfold outputPathsStep
      rw [if_neg (range_key_ne url ρ hρ _ h1 e he), if_neg (range_key_ne url ρ hρ _ h2 e he)])
  · intro h1 h2
    rw [herr]
    exact foldl_key_absent errorOutputPathsStep _ _ (fun e he y => by
      unfold errorOutputPathsStep
      rw [if_neg (range_key_ne url ρ hρ _ h1 e he), if_neg (range_key_ne url ρ hρ _ h2 e he)])

/-- C4. For every console or json URI that `ParseConfigFromURIString` accepts,
whatever `url.Parse` makes of the text and whatever the orders of the ranges,
the result is `defaultConfig` changed at most in `EncoderType`, the three
booleans, the two path lists and the two rotation lists; each of these but
`EncoderType` keeps its default when no query parameter names it; `Level` is
the shared base threshold, the two default path lists are `["stderr"]`, and the
syslog-only fields keep their defaults. -/
theorem ParseConfigFromURIString_frame (parse : GoString → Except GoError URL)
    (u : Char → Char) (fp : GoString → Except GoError Priority) (o : Orders)
    (uri : GoString) (url : URL) (cfg : Config) (ho : o.Valid)
    (hparse : parse uri = .ok url)
    (henc : url.Opaque = "console".data ∨ url.Opaque = "json".data)
    (h : ParseConfigFromURIString parse u fp o uri = .ok cfg) :
    cfg = { defaultConfig with
              EncoderType := cfg.EncoderType
              Development := cfg.Development
              DisableCaller := cfg.DisableCaller
              DisableStacktrace := cfg.DisableStacktrace
              OutputPaths := cfg.OutputPaths
              ErrorOutputPaths := cfg.ErrorOutputPaths
              Lumberjacks := cfg.Lumberjacks
              ErrorLumberjacks := cfg.ErrorLumberjacks } ∧
    (cfg.EncoderType = ConsoleEncoder ∨ cfg.EncoderType = JSONEncoder) ∧
    (¬ hasParam url.QueryPairs "development".data → cfg.Development = false) ∧
    (¬ hasParam url.QueryPairs "disableCaller".data → cfg.DisableCaller = true) ∧
    (¬ hasParam url.QueryPairs "disableStacktrace".data → cfg.DisableStacktrace = false) ∧
    (¬ hasParam url.QueryPairs "outputPath".data →
      ¬ hasParam url.QueryPairs "outputPaths".data → cfg.OutputPaths = none) ∧
    (¬ hasParam url.QueryPairs "errorOutputPath".data →
      ¬ hasParam url.QueryPairs "errorOutputPaths".data → cfg.ErrorOutputPaths = none) ∧
    (¬ hasParam url.QueryPairs "lumberjack".data → cfg.Lumberjacks = none) ∧
    (¬ hasParam url.QueryPairs "errorLumberjack".data → cfg.ErrorLumberjacks = none) ∧
    cfg.Level = baseLoggerLevel ∧
    cfg.defaultOutputPaths = some ["stderr".data] ∧
    cfg.defaultErrorOutputPaths = some ["stderr".data] ∧
    cfg.OutputAddresses = none ∧ cfg.Framing = 0 ∧ cfg.Facility = 0 ∧ cfg.Hostname = [] ∧
    cfg.PID = 0 ∧ cfg.App = [] := by
  unfold ParseConfigFromURIString at h
  simp only [hparse] at h
  obtain ⟨_, config, hc, t, ht, hp⟩ := ParseConfigFromURI_standard u fp o url cfg henc h
  obtain ⟨hc0, hcdev, hccal, hcst⟩ := populateCommon_frame o.common ho.1 url _ config hc
  obtain ⟨hs0, hslj, hselj, hsop, hseop⟩ :=
    populateStandard_frame u o.encoder ho.2.1 o.lumberjack o.errorLumberjack url _ cfg hp
  have hET : cfg.EncoderType = t := populateStandard_encoderType u _ _ _ _ cfg _ hp
  have hframe : cfg.frame = defaultConfig.frame := by
    have h1 : cfg.frame = config.frame := (congrArg Config.frame hs0).trans rfl
    have h2 : config.frame = defaultConfig.frame := (congrArg Config.frame hc0).trans rfl
    exact h1.trans h2
  have hdev : cfg.Development = config.Development := by
    have h' := congrArg Config.Development hs0
    exact h'
  have hcal : cfg.DisableCaller = config.DisableCaller := by
    have h' := congrArg Config.DisableCaller hs0
    exact h'
  have hst : cfg.DisableStacktrace = config.DisableStacktrace := by
    have h' := congrArg Config.DisableStacktrace hs0
    exact h'
  have hlj : config.Lumberjacks = none := by
    have h' := congrArg Config.Lumberjacks hc0
    exact h'
  have helj : config.ErrorLumberjacks = none := by
    have h' := congrArg Config.ErrorLumberjacks hc0
    exact h'
  simp only [Config.frame, defaultConfig, Prod.mk.injEq] at hframe
  obtain ⟨f1, f2, f3, f4, f5, f6, f7, f8, f9⟩ := hframe
  refine ⟨?_, ?_, ?_, ?_, ?_, hsop, hseop, ?_, ?_, f1, f8, f9, f2, f3, f4, f5, f6, f7⟩
  · rcases cfg with ⟨a1, a2, a3, a4, a5, a6, a7, a8, a9, a10, a11, a12, a13, a14, a15, a16, a17⟩
    simp only at f1 f2 f3 f4 f5 f6 f7 f8 f9
    subst f1 f2 f3 f4 f5 f6 f7 f8 f9
    rfl
  · rw [hET]
    rcases ht with ⟨ht, _⟩ | ⟨ht, _⟩
    · exact Or.inl ht
    · exact Or.inr ht
  · intro habs
    rw [hdev, hcdev habs]
    rfl
  · intro habs
    rw [hcal, hccal habs]
    rfl
  · intro habs
    rw [hst, hcst habs]
    rfl
  · intro habs
    rw [hslj habs]
    exact hlj
  · intro habs
    rw [hselj habs]
    exact helj

/-- C4, at the first URI of `TestParseConfigFromURI`,
`logger:console?outputPaths=stdout&development=true`, with the syslog
parameter `hostname=h` added: the syslog fields and the rest of `defaultConfig`
stay. -/
theorem ParseConfigFromURIString_frame_witness :
    ParseConfigFromURIString
        (fun _ => .ok ⟨"logger".data, "console".data,
          [("outputPaths".data, "stdout".data), ("development".data, "true".data),
           ("hostname".data, "h".data)]⟩)
        id (fun _ => .ok 0) Orders.inOrder
        "logger:console?outputPaths=stdout&development=true&hostname=h".data
      = .ok { defaultConfig with EncoderType := ConsoleEncoder, Development := true,
                                 OutputPaths := some ["stdout".data] } ∧
    ({ defaultConfig with EncoderType := ConsoleEncoder, Development := true,
                          OutputPaths := some ["stdout".data] } : Config).Hostname = [] := by
  have h : ParseConfigFromURIString
        (fun _ => .ok ⟨"logger".data, "console".data,
          [("outputPaths".data, "stdout".data), ("development".data, "true".data),
           ("hostname".data, "h".data)]⟩)
        id (fun _ => .ok 0) Orders.inOrder
        "logger:console?outputPaths=stdout&development=true&hostname=h".data
      = .ok { defaultConfig with EncoderType := ConsoleEncoder, Development := true,
                                 OutputPaths := some ["stdout".data] } := by decide
  exact ⟨h, (ParseConfigFromURIString_frame _ id (fun _ => .ok 0) Orders.inOrder _
    ⟨"logger".data, "console".data,
      [("outputPaths".data, "stdout".data), ("development".data, "true".data),
       ("hostname".data, "h".data)]⟩ _
    Orders.inOrder_valid rfl (Or.inl rfl) h).2.2.2.2.2.2.2.2.2.2.2.2.2.2.2.1⟩

/-! ## C5: the encoder `Build` makes for syslog -/

/-- C5 fails on the code. For a syslog Configuration with framing
octet-counting, facility 8, hostname `web-1`, pid 42 and app `api`, the local
`encoderCfg` of `Build` holds these five values, but the encoder is made from
`defaultSyslogEncoderConfig`, whose five fields are the defaults. -/
theorem buildEncoder_syslog_default :
    ({ defaultConfig with
        EncoderType := SyslogEncoder, OutputAddresses := some ["localhost:514".data],
        Framing := OctetCountingFraming, Facility := 8, Hostname := "web-1".data, PID := 42,
        App := "api".data } : Config).buildEncoder
      = .ok (.syslog ⟨defaultJSONEncoderConfig, NonTransparentFraming, LOG_LOCAL0, [], 0, []⟩) ∧
    ({ defaultConfig with
        EncoderType := SyslogEncoder, OutputAddresses := some ["localhost:514".data],
        Framing := OctetCountingFraming, Facility := 8, Hostname := "web-1".data, PID := 42,
        App := "api".data } : Config).syslogEncoderCfg
      = ⟨defaultJSONEncoderConfig, OctetCountingFraming, 8, "web-1".data, 42, "api".data⟩ := by
  decide

/-- For every syslog Configuration the encoder of `Build` is made from
`defaultSyslogEncoderConfig`. -/
theorem buildEncoder_syslog (cfg : Config) (h : cfg.EncoderType = SyslogEncoder) :
    cfg.buildEncoder = .ok (.syslog defaultSyslogEncoderConfig) := by
  unfold Config.buildEncoder
  rw [h, if_neg (by decide), if_neg (by decide), if_pos rfl]

/-! ## C6: reverting the global logger -/

theorem ReplaceGlobals_some (g : Globals) (l : Logger) :
    ReplaceGlobals g (some l)
      = some ({ globalL := some l
                globalQuickL := some (l.WithAddCallerSkip quickLDepth)
                globalS := some l.Sugar
                zapL := some l
                zapS := some l.Sugar }, ⟨g.globalL, g.zapL⟩) := rfl

theorem RevertFunc.call_some (g : Globals) (p z : Logger) :
    RevertFunc.call ⟨some p, some z⟩ g
      = some { globalL := some p
               globalQuickL := some (p.WithAddCallerSkip quickLDepth)
               globalS := some p.Sugar
               zapL := some p
               zapS := some p.Sugar } := rfl

theorem replaceAll_spec (ls : List Logger) (g : Globals) (l₀ z₀ : Logger)
    (hL : g.globalL = some l₀) (hz : g.zapL = some z₀) :
    ∃ g' recs, replaceAll g ls = some (g', recs) ∧ recs.length = ls.length ∧
      ∀ rec ∈ recs, ∃ p z, rec = (some p, ⟨some p, some z⟩) := by
  induction ls generalizing g l₀ z₀ with
  | nil => exact ⟨g, [], rfl, rfl, fun _ h => absurd h (List.not_mem_nil _)⟩
  | cons l ls ih =>
    obtain ⟨g', recs, hr, hlen, hrec⟩ :=
      ih { globalL := some l
           globalQuickL := some (l.WithAddCallerSkip quickLDepth)
           globalS := some l.Sugar
           zapL := some l
           zapS := some l.Sugar } l l rfl rfl
    refine ⟨g', (L g, ⟨g.globalL, g.zapL⟩) :: recs, ?_, ?_, ?_⟩
    · simp only [replaceAll, ReplaceGlobals_some, hr]
    · simp only [List.length_cons, hlen]
    · intro rec hmem
      rcases List.mem_cons.1 hmem with h | h
      · exact ⟨l₀, z₀, by rw [h, L, hL, hz]⟩
      · exact hrec rec h

theorem revertAll_spec (rs : List RevertFunc) (g : Globals)
    (h : ∀ r ∈ rs, ∃ p z, r = ⟨some p, some z⟩) :
    ∃ states, revertAll g rs = some states ∧ states.map L = rs.map RevertFunc.prev ∧
      ∀ s ∈ states, ∃ l, L s = some l ∧ s.DerivedFrom l := by
  induction rs generalizing g with
  | nil => exact ⟨[], rfl, rfl, fun _ h => absurd h (List.not_mem_nil _)⟩
  | cons r rs ih =>
    obtain ⟨p, z, hr⟩ := h r (List.mem_cons_self _ _)
    subst hr
    obtain ⟨states, hs, hmap, hder⟩ :=
      ih { globalL := some p
           globalQuickL := some (p.WithAddCallerSkip quickLDepth)
           globalS := some p.Sugar
           zapL := some p
           zapS := some p.Sugar } (fun r hr => h r (List.mem_cons_of_mem _ hr))
    refine ⟨{ globalL := some p
              globalQuickL := some (p.WithAddCallerSkip quickLDepth)
              globalS := some p.Sugar
              zapL := some p
              zapS := some p.Sugar } :: states, ?_, ?_, ?_⟩
    · simp only [revertAll, RevertFunc.call_some, hs]
    · simp only [List.map_cons, hmap]
      rfl
    · intro s hmem
      rcases List.mem_cons.1 hmem with h' | h'
      · subst h'
        exact ⟨p, rfl, rfl, rfl⟩
      · exact hder s h'

/-- C6. For every state in which a logger is installed and every list of
loggers, the `ReplaceGlobals` calls for the list all return, and invoking the
returned closures in reverse order returns each time and leaves, after the
closure of a call, `L()` equal to the logger that was current immediately
before that call, the skip-one-frame logger and `S()` being the variants
derived from that same logger. -/
theorem ReplaceGlobals_revert (g : Globals) (l₀ z₀ : Logger) (ls : List Logger)
    (hL : g.globalL = some l₀) (hz : g.zapL = some z₀) :
    ∃ g' recs, replaceAll g ls = some (g', recs) ∧ recs.length = ls.length ∧
      ∃ states, revertAll g' (recs.map Prod.snd).reverse = some states ∧
        states.map L = (recs.map Prod.fst).reverse ∧
        ∀ s ∈ states, ∃ l, L s = some l ∧ s.DerivedFrom l := by
  obtain ⟨g', recs, hr, hlen, hrec⟩ := replaceAll_spec ls g l₀ z₀ hL hz
  obtain ⟨states, hs, hmap, hder⟩ := revertAll_spec (recs.map Prod.snd).reverse g'
    (fun r hr => by
      rw [List.mem_reverse, List.mem_map] at hr
      obtain ⟨rec, hmem, hsnd⟩ := hr
      obtain ⟨p, z, hpz⟩ := hrec rec hmem
      exact ⟨p, z, by rw [← hsnd, hpz]⟩)
  refine ⟨g', recs, hr, hlen, states, hs, ?_, hder⟩
  rw [hmap, List.map_reverse, List.map_map]
  congr 1
  apply List.map_congr_left
  intro rec hmem
  obtain ⟨p, z, hpz⟩ := hrec rec hmem
  rw [hpz]
  rfl

/-- C6, at three replacements over an installed logger: the closures invoked
in reverse order leave `L()` at the second, the first and the installed
logger in turn. -/
theorem ReplaceGlobals_revert_witness :
    ∃ g' recs,
      replaceAll ⟨some ⟨0, 0⟩, some ⟨0, 1⟩, some ⟨⟨0, 2⟩⟩, some ⟨0, 0⟩, some ⟨⟨0, 2⟩⟩⟩
          [⟨1, 0⟩, ⟨2, 0⟩, ⟨3, 0⟩] = some (g', recs) ∧
      recs.map Prod.fst = [some ⟨0, 0⟩, some ⟨1, 0⟩, some ⟨2, 0⟩] ∧
      ∃ states, revertAll g' (recs.map Prod.snd).reverse = some states ∧
        states.map L = [some ⟨2, 0⟩, some ⟨1, 0⟩, some ⟨0, 0⟩] := by
  obtain ⟨g', recs, hr, _, states, hs, hmap, _⟩ :=
    ReplaceGlobals_revert ⟨some ⟨0, 0⟩, some ⟨0, 1⟩, some ⟨⟨0, 2⟩⟩, some ⟨0, 0⟩, some ⟨⟨0, 2⟩⟩⟩
      ⟨0, 0⟩ ⟨0, 0⟩ [⟨1, 0⟩, ⟨2, 0⟩, ⟨3, 0⟩] rfl rfl
  have hfst : recs.map Prod.fst = [some ⟨0, 0⟩, some ⟨1, 0⟩, some ⟨2, 0⟩] := by
    have hr' : replaceAll
        ⟨some ⟨0, 0⟩, some ⟨0, 1⟩, some ⟨⟨0, 2⟩⟩, some ⟨0, 0⟩, some ⟨⟨0, 2⟩⟩⟩
        [⟨1, 0⟩, ⟨2, 0⟩, ⟨3, 0⟩] = some (g', recs) := hr
    simp only [replaceAll, ReplaceGlobals_some, Option.some.injEq, Prod.mk.injEq] at hr'
    rw [← hr'.2]
    rfl
  exact ⟨g', recs, hr, hfst, states, hs, by rw [hmap, hfst]; rfl⟩

/-! ## C9: the error of an invalid integer -/

/-- C9, as stated, fails: the error does not identify the offending spec. The
single spec `maxsize=x` and the second spec of the list `filename=a.log`,
`maxage=1,maxsize=x` fail with one and the same error value, which holds the
key and the value and nothing of the spec or of its position. -/
theorem ParseLumberjacks_error_spec_counterexample :
    ParseLumberjacks id (fun _ => id) ["maxsize=x".data]
      = .error (.withMessage (.numError ⟨"Atoi".data, "x".data, .ErrSyntax⟩)
          "lumberjack: error parsing maxsize".data) ∧
    ParseLumberjacks id (fun _ => id) ["filename=a.log".data, "maxage=1,maxsize=x".data]
      = .error (.withMessage (.numError ⟨"Atoi".data, "x".data, .ErrSyntax⟩)
          "lumberjack: error parsing maxsize".data) ∧
    GoError.Error id (.withMessage (.numError ⟨"Atoi".data, "x".data, .ErrSyntax⟩)
          "lumberjack: error parsing maxsize".data)
      = "lumberjack: error parsing maxsize: strconv.Atoi: parsing x: invalid syntax".data := by
  decide

theorem withMessage_numError_text (q : GoString → GoString) (ne : NumError) (key : GoString) :
    GoError.Error q (.withMessage (.numError ne) (errMessage key))
      = "lumberjack: error parsing ".data ++ key ++ ": strconv.".data ++ ne.Func
          ++ ": parsing ".data ++ q ne.Num ++ ": ".data ++ ne.Err.text := by
  simp only [GoError.Error, NumError.Error, errMessage, List.append_assoc]
  rfl

/-- C9, amended. For every list of specs and every order of the ranges, when in
some spec the value of a key that is `maxsize`, `maxage` or `maxbackups` in any
letter case (the value of the last pair with that spelling) is not a valid
integer, `ParseLumberjacks` returns no configs and an error whose message is
`lumberjack: error parsing KEY: strconv.FUNC: parsing VALUE: CAUSE`, where KEY
is a key of one of the specs as spelled there and VALUE, quoted, is the value
of that key, invalid for it. Nothing in the error tells the spec. -/
theorem ParseLumberjacks_invalid_integer (u : Char → Char) (ρ : Nat → RangeOrder GoString)
    (vs : List GoString) (s k v : GoString) (hρ : ∀ i, (ρ i).Valid) (hs : s ∈ vs)
    (hk : ToLower u k ∈ intKeys) (hlast : lastValue (scanPairs s) k = some v)
    (hbad : (Atoi v).toBool = false) :
    ∃ s' key value ne,
      ParseLumberjacks u ρ vs = .error (.withMessage (.numError ne) (errMessage key)) ∧
      s' ∈ vs ∧ lastValue (scanPairs s') key = some value ∧
      validFor (ToLower u key) value = false ∧ ne.Num = value ∧
      ∀ q : GoString → GoString,
        GoError.Error q (.withMessage (.numError ne) (errMessage key))
          = "lumberjack: error parsing ".data ++ key ++ ": strconv.".data ++ ne.Func
              ++ ": parsing ".data ++ q value ++ ": ".data ++ ne.Err.text := by
  have hinv : validFor (ToLower u k) v = false := by
    unfold validFor
    have hk' : ToLower u k = kMaxSize ∨ ToLower u k = kMaxAge ∨ ToLower u k = kMaxBackups := by
      simpa [intKeys] using hk
    rw [if_pos hk']
    exact hbad
  obtain ⟨e, he⟩ := parseLumberjacksFrom_error_of_mem u ρ vs 0
    ⟨s, hs, fun j => parseLumberjack_error_of_invalid_entry u (ρ j) (hρ j) s k v hlast hinv⟩
  obtain ⟨s', hs', j, hj⟩ := parseLumberjacksFrom_error_inv u ρ vs 0 e he
  obtain ⟨key, value, ne, hl, hv, hnum, hE⟩ := parseLumberjack_error_inv u (ρ j) (hρ j) s' e hj
  refine ⟨s', key, value, ne, ?_, hs', hl, hv, hnum, fun q => ?_⟩
  · unfold ParseLumberjacks
    rw [he, hE]
  · rw [withMessage_numError_text, hnum]

/-- C9, amended, at the list `filename=a.log`, `MaxAge=7d`. -/
theorem ParseLumberjacks_invalid_integer_witness :
    ∃ s' key value ne,
      ParseLumberjacks id (fun _ => id) ["filename=a.log".data, "MaxAge=7d".data]
        = .error (.withMessage (.numError ne) (errMessage key)) ∧
      s' ∈ ["filename=a.log".data, "MaxAge=7d".data] ∧
      lastValue (scanPairs s') key = some value ∧
      validFor (ToLower id key) value = false ∧ ne.Num = value ∧
      ∀ q : GoString → GoString,
        GoError.Error q (.withMessage (.numError ne) (errMessage key))
          = "lumberjack: error parsing ".data ++ key ++ ": strconv.".data ++ ne.Func
              ++ ": parsing ".data ++ q value ++ ": ".data ++ ne.Err.text :=
  ParseLumberjacks_invalid_integer id (fun _ => id)
    ["filename=a.log".data, "MaxAge=7d".data] "MaxAge=7d".data "MaxAge".data "7d".data
    (fun _ m => List.Perm.refl m) (by decide) (by decide) (by decide) (by decide)

/-! ## C10: a key present with an empty value -/

/-- C10, as stated, fails: in `maxsize=,maxsize=100` the key `maxsize` is
present with an empty value, and `ParseLumberjacks` returns without error a
config whose `MaxSize` is 100, the default, because the later pair of the same
spelling replaces the empty one in the scanned map. -/
theorem ParseLumberjacks_empty_value_counterexample :
    ParseLumberjacks id (fun _ => id) ["maxsize=,maxsize=100".data]
      = .ok [⟨[], 100, 0, 50, false, false⟩] ∧
    scanPairs "maxsize=,maxsize=100".data
      = [("maxsize".data, []), ("maxsize".data, "100".data)] := by
  decide

/-- C10, amended. For every list of specs and every order of the ranges, when in
some spec a key that is `maxsize`, `maxage`, `maxbackups`, `localtime` or
`compress` in any letter case is present with an empty value in the last pair
of that spelling (`maxsize=` or a bare `maxsize`), `ParseLumberjacks` returns
no config, hence none carrying the default of that key, but an error. -/
theorem ParseLumberjacks_empty_value (u : Char → Char) (ρ : Nat → RangeOrder GoString)
    (vs : List GoString) (s k : GoString) (hρ : ∀ i, (ρ i).Valid) (hs : s ∈ vs)
    (hk : ToLower u k ∈ intKeys ++ boolKeys)
    (hlast : lastValue (scanPairs s) k = some []) :
    ∃ e, ParseLumberjacks u ρ vs = .error e := by
  have hinv : validFor (ToLower u k) [] = false := by
    have hk' : ToLower u k = kMaxSize ∨ ToLower u k = kMaxAge ∨ ToLower u k = kMaxBackups
        ∨ ToLower u k = kLocalTime ∨ ToLower u k = kCompress := by
      simpa [intKeys, boolKeys] using hk
    rcases hk' with h | h | h | h | h <;> rw [h] <;> decide
  exact parseLumberjacksFrom_error_of_mem u ρ vs 0
    ⟨s, hs, fun j => parseLumberjack_error_of_invalid_entry u (ρ j) (hρ j) s k [] hlast hinv⟩

/-- C10, amended, at the spec `filename=a.log,Compress;maxsize=10` with its bare
`Compress`. -/
theorem ParseLumberjacks_empty_value_witness :
    lastValue (scanPairs "filename=a.log,Compress;maxsize=10".data) "Compress".data = some [] ∧
    ∃ e, ParseLumberjacks id (fun _ => id) ["filename=a.log,Compress;maxsize=10".data]
      = .error e :=
  ⟨by decide,
    ParseLumberjacks_empty_value id (fun _ => id) ["filename=a.log,Compress;maxsize=10".data]
      "filename=a.log,Compress;maxsize=10".data "Compress".data
      (fun _ m => List.Perm.refl m) (by decide) (by decide) (by decide)⟩

/-! ## C7: the letter case of keys -/

theorem splitAny_ne_nil (seps : List Char) (s : GoString) : splitAny seps s ≠ [] := by
  cases s with
  | nil => simp [splitAny]
  | cons c s =>
    unfold splitAny
    by_cases hc : c ∈ seps
    · rw [if_pos hc]
      exact List.cons_ne_nil _ _
    · rw [if_neg hc]
      split <;> exact List.cons_ne_nil _ _

theorem splitAny_cons_sep (seps : List Char) (c : Char) (s : GoString) (hc : c ∈ seps) :
    splitAny seps (c :: s) = [] :: splitAny seps s := by
  rw [splitAny, if_pos hc]

theorem splitAny_cons_nonsep (seps : List Char) (c : Char) (s : GoString) (hc : c ∉ seps) :
    ∃ h r, splitAny seps s = h :: r ∧ splitAny seps (c :: s) = (c :: h) :: r := by
  cases hs : splitAny seps s with
  | nil => exact absurd hs (splitAny_ne_nil seps s)
  | cons h r =>
    refine ⟨h, r, rfl, ?_⟩
    rw [splitAny, if_neg hc, hs]

theorem cutEq_cons_eq (h : GoString) : cutEq ('=' :: h) = ([], h) := by
  simp [cutEq]

theorem cutEq_cons_ne (c : Char) (h : GoString) (hc : c ≠ '=') :
    cutEq (c :: h) = (c :: (cutEq h).1, (cutEq h).2) := by
  simp [cutEq, List.takeWhile_cons, List.dropWhile_cons, hc]

theorem keyRecase_segments (u : Char → Char) (s : GoString) :
    ∀ (b : Bool) (t : GoString), keyRecase u b s t = true →
      (b = true → List.Forall₂ (SegRel u) (splitAny [',', ';'] s) (splitAny [',', ';'] t)) ∧
      (b = false → ∃ h r r', splitAny [',', ';'] s = h :: r ∧
        splitAny [',', ';'] t = h :: r' ∧ List.Forall₂ (SegRel u) r r') := by
  induction s with
  | nil =>
    intro b t h
    cases t with
    | nil =>
      refine ⟨fun _ => ?_, fun _ => ⟨[], [], [], rfl, rfl, List.Forall₂.nil⟩⟩
      exact List.Forall₂.cons ⟨Iff.rfl, rfl, rfl⟩ List.Forall₂.nil
    | cons d t => simp [keyRecase] at h
  | cons c s ih =>
    intro b t h
    cases t with
    | nil => simp [keyRecase] at h
    | cons d t =>
      rw [keyRecase] at h
      by_cases hsep : c = ',' ∨ c = ';'
      · rw [if_pos hsep, Bool.and_eq_true, decide_eq_true_eq] at h
        obtain ⟨hd, hrec⟩ := h
        subst hd
        have hmem : d ∈ [',', ';'] := by
          rcases hsep with h | h <;> simp [h]
        have hall := (ih true t hrec).1 rfl
        rw [splitAny_cons_sep _ _ _ hmem, splitAny_cons_sep _ _ _ hmem]
        exact ⟨fun _ => List.Forall₂.cons ⟨Iff.rfl, rfl, rfl⟩ hall,
          fun _ => ⟨[], _, _, rfl, rfl, hall⟩⟩
      · rw [if_neg hsep] at h
        have hc : c ∉ [',', ';'] := by
          intro hm
          simp only [List.mem_cons, List.mem_singleton, List.not_mem_nil, or_false] at hm
          exact hsep hm
        cases b with
        | true =>
          rw [if_pos rfl] at h
          refine ⟨fun _ => ?_, fun hb => absurd hb (by decide)⟩
          by_cases heq : c = '='
          · rw [if_pos heq, Bool.and_eq_true, decide_eq_true_eq] at h
            obtain ⟨hd, hrec⟩ := h
            subst hd heq
            obtain ⟨h₀, r, r', hs, ht, hall⟩ := (ih false t hrec).2 rfl
            obtain ⟨h₁, r₁, hs₁, hs₂⟩ := splitAny_cons_nonsep [',', ';'] '=' s (by decide)
            obtain ⟨h₂, r₂, ht₁, ht₂⟩ := splitAny_cons_nonsep [',', ';'] '=' t (by decide)
            rw [hs] at hs₁
            rw [ht] at ht₁
            cases hs₁
            cases ht₁
            rw [hs₂, ht₂]
            refine List.Forall₂.cons ⟨?_, ?_, ?_⟩ hall
            · simp
            · rw [cutEq_cons_eq]
            · rw [cutEq_cons_eq]
          · rw [if_neg heq] at h
            simp only [Bool.and_eq_true, decide_eq_true_eq] at h
            obtain ⟨⟨⟨⟨hd1, hd2⟩, hd3⟩, hlow⟩, hrec⟩ := h
            have hd : d ∉ [',', ';'] := by
              intro hm
              simp only [List.mem_cons, List.mem_singleton, List.not_mem_nil, or_false] at hm
              rcases hm with hm | hm
              · exact hd1 hm
              · exact hd2 hm
            have hall := (ih true t hrec).1 rfl
            obtain ⟨h₁, r₁, hs₁, hs₂⟩ := splitAny_cons_nonsep [',', ';'] c s hc
            obtain ⟨h₂, r₂, ht₁, ht₂⟩ := splitAny_cons_nonsep [',', ';'] d t hd
            rw [hs₁, ht₁] at hall
            rw [hs₂, ht₂]
            cases hall with
            | cons hhead htail =>
              refine List.Forall₂.cons ⟨?_, ?_, ?_⟩ htail
              · simp
              · rw [cutEq_cons_ne c h₁ heq, cutEq_cons_ne d h₂ hd3]
                simp only [ToLower, List.map_cons]
                rw [hlow]
                congr 1
                exact hhead.2.1
              · rw [cutEq_cons_ne c h₁ heq, cutEq_cons_ne d h₂ hd3]
                exact hhead.2.2
        | false =>
          rw [if_neg (by decide), Bool.and_eq_true, decide_eq_true_eq] at h
          obtain ⟨hd, hrec⟩ := h
          subst hd
          refine ⟨fun hb => absurd hb (by decide), fun _ => ?_⟩
          obtain ⟨h₀, r, r', hs, ht, hall⟩ := (ih false t hrec).2 rfl
          obtain ⟨h₁, r₁, hs₁, hs₂⟩ := splitAny_cons_nonsep [',', ';'] d s hc
          obtain ⟨h₂, r₂, ht₁, ht₂⟩ := splitAny_cons_nonsep [',', ';'] d t hc
          rw [hs] at hs₁
          rw [ht] at ht₁
          cases hs₁
          cases ht₁
          exact ⟨d :: h₀, r, r', hs₂, ht₂, hall⟩

theorem scanPairs_of_segments (u : Char → Char) (l l' : List GoString)
    (h : List.Forall₂ (SegRel u) l l') :
    List.Forall₂ (PairRel u) ((l.filter (fun seg => seg != [])).map cutEq)
      ((l'.filter (fun seg => seg != [])).map cutEq) := by
  induction h with
  | nil => exact List.Forall₂.nil
  | @cons a b la lb hab _ ih =>
    by_cases ha : a = []
    · have hb : b = [] := hab.1.1 ha
      subst ha hb
      exact ih
    · have hb : b ≠ [] := fun hb => ha (hab.1.2 hb)
      have ha' : (a != []) = true := by simpa using ha
      have hb' : (b != []) = true := by simpa using hb
      have e1 : List.filter (fun seg => seg != []) (a :: la)
          = a :: List.filter (fun seg => seg != []) la := by
        rw [List.filter_cons]
        simp only [ha', if_true]
      have e2 : List.filter (fun seg => seg != []) (b :: lb)
          = b :: List.filter (fun seg => seg != []) lb := by
        rw [List.filter_cons]
        simp only [hb', if_true]
      rw [e1, e2, List.map_cons, List.map_cons]
      exact List.Forall₂.cons ⟨hab.2.1, hab.2.2⟩ ih

theorem keyRecase_scanPairs (u : Char → Char) (s t : GoString)
    (h : keyRecase u true s t = true) :
    List.Forall₂ (PairRel u) (scanPairs s) (scanPairs t) :=
  scanPairs_of_segments u _ _ ((keyRecase_segments u s true t h).1 rfl)

theorem pairRel_lowerKeys (u : Char → Char) {ps qs : List (GoString × GoString)}
    (h : List.Forall₂ (PairRel u) ps qs) : lowerKeys u ps = lowerKeys u qs := by
  induction h with
  | nil => rfl
  | cons hab _ ih =>
    simp only [lowerKeys, List.map_cons] at ih ⊢
    rw [hab.1, ih]

theorem pairRel_entriesValid (u : Char → Char) {ps qs : List (GoString × GoString)}
    (h : List.Forall₂ (PairRel u) ps qs) : entriesValid u ps = entriesValid u qs := by
  induction h with
  | nil => rfl
  | cons hab _ ih =>
    simp only [entriesValid, List.all_cons] at ih ⊢
    rw [hab.1, hab.2, ih]

theorem pairRel_specValue (u : Char → Char) (k : GoString)
    {ps qs : List (GoString × GoString)} (h : List.Forall₂ (PairRel u) ps qs) :
    specValue u ps k = specValue u qs k := by
  induction h with
  | nil => rfl
  | @cons a b la lb hab _ ih =>
    obtain ⟨a1, a2⟩ := a
    obtain ⟨b1, b2⟩ := b
    rw [specValue_cons, specValue_cons, ih]
    have h1 : ToLower u a1 = ToLower u b1 := hab.1
    have h2 : a2 = b2 := hab.2
    rw [h1, h2]

theorem pairRel_specOutcome (u : Char → Char) (s t : GoString)
    (h : List.Forall₂ (PairRel u) (scanPairs s) (scanPairs t)) :
    specOutcome u s = specOutcome u t := by
  unfold specOutcome configOf
  simp only [pairRel_entriesValid u h, pairRel_specValue u _ h]

theorem parseLumberjack_toOption (u : Char → Char) (ρ : RangeOrder GoString) (hρ : ρ.Valid)
    (s : GoString) (hn : (lowerKeys u (scanPairs s)).Nodup) :
    (parseLumberjack u ρ s).toOption = specOutcome u s := by
  have hperm : (ρ (scanKV s)).Perm (scanPairs s) := by
    have h := hρ (scanKV s)
    rw [scanKV_of_nodup u s hn] at h ⊢
    exact h
  have hn' : (lowerKeys u (ρ (scanKV s))).Nodup := (lowerKeys_perm u hperm).nodup_iff.2 hn
  unfold parseLumberjack specOutcome
  rw [applyEntries_toOption u _ _ hn', entriesValid_perm u hperm, configOf_perm u _ hperm hn']

theorem parseLumberjacksFrom_toOption (u : Char → Char) (ρ : Nat → RangeOrder GoString)
    (f : GoString → Option LumberjackConfig) (vs : List GoString) (i : Nat)
    (h : ∀ s ∈ vs, ∀ j, (parseLumberjack u (ρ j) s).toOption = f s) :
    (parseLumberjacksFrom u ρ i vs).toOption = allPresent (vs.map f) := by
  induction vs generalizing i with
  | nil => rfl
  | cons v vs ih =>
    have hv := h v (List.mem_cons_self _ _) i
    have ih' := ih (i + 1) (fun s hs => h s (List.mem_cons_of_mem _ hs))
    simp only [parseLumberjacksFrom, List.map_cons]
    cases hr : parseLumberjack u (ρ i) v with
    | error e =>
      rw [hr] at hv
      have hfv : f v = none := hv.symm
      simp only [hfv, allPresent]
      rfl
    | ok l =>
      rw [hr] at hv
      have hfv : f v = some l := hv.symm
      simp only [hfv, allPresent]
      rw [← ih']
      cases parseLumberjacksFrom u ρ (i + 1) vs <;> rfl

/-- C7, as stated, fails. The error names the key as the spec spells it, so
`MaxSize=x` and `maxsize=x` return different errors; and two spellings of one
key are two entries of the scanned map, so `MAXSIZE=x,maxsize=1` fails while
`maxsize=x,maxsize=1`, the same spec with its keys in lower case, returns a
config. -/
theorem ParseLumberjacks_keyCase_counterexample :
    keyRecase id true "MaxSize=x".data "maxsize=x".data = true ∧
    ParseLumberjacks id (fun _ => id) ["MaxSize=x".data]
      = .error (.withMessage (.numError ⟨"Atoi".data, "x".data, .ErrSyntax⟩)
          "lumberjack: error parsing MaxSize".data) ∧
    ParseLumberjacks id (fun _ => id) ["maxsize=x".data]
      = .error (.withMessage (.numError ⟨"Atoi".data, "x".data, .ErrSyntax⟩)
          "lumberjack: error parsing maxsize".data) ∧
    keyRecase id true "MAXSIZE=x,maxsize=1".data "maxsize=x,maxsize=1".data = true ∧
    ParseLumberjacks id (fun _ => id) ["MAXSIZE=x,maxsize=1".data]
      = .error (.withMessage (.numError ⟨"Atoi".data, "x".data, .ErrSyntax⟩)
          "lumberjack: error parsing MAXSIZE".data) ∧
    ParseLumberjacks id (fun _ => id) ["maxsize=x,maxsize=1".data]
      = .ok [⟨[], 1, 0, 50, false, false⟩] := by
  decide

/-- C7, amended. For every list of specs in which no spec names a key twice,
in whatever letter case, and every list obtained from it by changing the
letter case of keys only, `ParseLumberjacks` returns for both, whatever the
orders of the ranges, the same configs, or an error for both. -/
theorem ParseLumberjacks_keyCase (u : Char → Char) (ρ ρ' : Nat → RangeOrder GoString)
    (vs ws : List GoString) (hρ : ∀ i, (ρ i).Valid) (hρ' : ∀ i, (ρ' i).Valid)
    (hcase : List.Forall₂ (fun s t => keyRecase u true s t = true) vs ws)
    (hn : ∀ s ∈ vs, (lowerKeys u (scanPairs s)).Nodup) :
    (ParseLumberjacks u ρ vs).toOption = (ParseLumberjacks u ρ' ws).toOption := by
  have hmap : vs.map (specOutcome u) = ws.map (specOutcome u) ∧
      ∀ t ∈ ws, (lowerKeys u (scanPairs t)).Nodup := by
    clear hρ hρ'
    induction hcase with
    | nil => exact ⟨rfl, fun _ h => absurd h (List.not_mem_nil _)⟩
    | @cons s t ls lt hst _ ih =>
      have hrel := keyRecase_scanPairs u s t hst
      obtain ⟨ih1, ih2⟩ := ih (fun s' hs' => hn s' (List.mem_cons_of_mem _ hs'))
      refine ⟨?_, ?_⟩
      · rw [List.map_cons, List.map_cons, pairRel_specOutcome u s t hrel, ih1]
      · intro t' ht'
        rcases List.mem_cons.1 ht' with h | h
        · rw [h, ← pairRel_lowerKeys u hrel]
          exact hn s (List.mem_cons_self _ _)
        · exact ih2 t' h
  unfold ParseLumberjacks
  rw [parseLumberjacksFrom_toOption u ρ (specOutcome u) vs 0
      (fun s hs j => parseLumberjack_toOption u (ρ j) (hρ j) s (hn s hs)),
    parseLumberjacksFrom_toOption u ρ' (specOutcome u) ws 0
      (fun t ht j => parseLumberjack_toOption u (ρ' j) (hρ' j) t (hmap.2 t ht)),
    hmap.1]

/-- C7, amended, at the second spec of `TestParseLumberjacks` and the same spec
with its keys in other letter cases. -/
theorem ParseLumberjacks_keyCase_witness :
    (ParseLumberjacks id (fun _ => id)
        ["filename=stdout.log,MaxAge=3200,localtime=true".data]).toOption
      = (ParseLumberjacks id (fun _ => List.reverse)
        ["FileName=stdout.log,maxage=3200,LOCALTIME=true".data]).toOption :=
  ParseLumberjacks_keyCase id (fun _ => id) (fun _ => List.reverse)
    ["filename=stdout.log,MaxAge=3200,localtime=true".data]
    ["FileName=stdout.log,maxage=3200,LOCALTIME=true".data]
    (fun _ m => List.Perm.refl m) (fun _ m => List.reverse_perm m)
    (List.Forall₂.cons (by decide) List.Forall₂.nil)
    (by
      intro s hs
      rw [List.mem_singleton] at hs
      subst hs
      decide)

/-! ## C8: pairs whose key is not recognised -/

theorem splitAny_append_sep (seps : List Char) (a r : GoString) (d : Char) (hd : d ∈ seps) :
    splitAny seps (a ++ d :: r) = splitAny seps a ++ splitAny seps r := by
  induction a with
  | nil =>
    rw [List.nil_append, splitAny_cons_sep _ _ _ hd]
    rfl
  | cons c a ih =>
    rw [List.cons_append]
    by_cases hc : c ∈ seps
    · rw [splitAny_cons_sep _ _ _ hc, splitAny_cons_sep _ _ _ hc, ih]
      rfl
    · obtain ⟨h₁, r₁, hs₁, hs₂⟩ := splitAny_cons_nonsep seps c a hc
      obtain ⟨h₂, r₂, ht₁, ht₂⟩ := splitAny_cons_nonsep seps c (a ++ d :: r) hc
      rw [ih, hs₁] at ht₁
      rw [List.cons_append] at ht₁
      cases ht₁
      rw [hs₂, ht₂]
      rfl

theorem splitAny_no_sep (seps : List Char) (p : GoString) (hp : ∀ c ∈ p, c ∉ seps) :
    splitAny seps p = [p] := by
  induction p with
  | nil => rfl
  | cons c p ih =>
    obtain ⟨h₁, r₁, hs₁, hs₂⟩ :=
      splitAny_cons_nonsep seps c p (hp c (List.mem_cons_self _ _))
    rw [ih (fun c' hc' => hp c' (List.mem_cons_of_mem _ hc'))] at hs₁
    cases hs₁
    exact hs₂

theorem applyEntry_unrecognized (u : Char → Char) (c : LumberjackConfig) (k v : GoString)
    (h : recognizedEntry u (k, v) = false) : applyEntry u c k v = .ok c := by
  unfold recognizedEntry at h
  have hk : ToLower u k ∉ recognizedKeys := by simpa using h
  have hne : ∀ key ∈ recognizedKeys, ¬ ToLower u k = key := fun key hkey heq => hk (heq ▸ hkey)
  unfold applyEntry
  dsimp only
  rw [if_neg (hne kFilename (by decide)), if_neg (hne kMaxSize (by decide)),
    if_neg (hne kMaxAge (by decide)), if_neg (hne kMaxBackups (by decide)),
    if_neg (hne kLocalTime (by decide)), if_neg (hne kCompress (by decide))]

theorem applyEntries_filter (u : Char → Char) (c : LumberjackConfig)
    (es : List (GoString × GoString)) :
    applyEntries u c es = applyEntries u c (es.filter (recognizedEntry u)) := by
  induction es generalizing c with
  | nil => rfl
  | cons p es ih =>
    obtain ⟨k, v⟩ := p
    rw [List.filter_cons]
    by_cases hr : recognizedEntry u (k, v) = true
    · rw [if_pos hr]
      simp only [applyEntries]
      cases applyEntry u c k v with
      | error e => rfl
      | ok c' => exact ih c'
    · rw [if_neg hr]
      simp only [applyEntries, applyEntry_unrecognized u c k v (by simpa using hr)]
      exact ih c

theorem filter_set_recognized (u : Char → Char) (m : GoMap GoString) (k v : GoString) :
    (m.set k v).filter (recognizedEntry u)
      = if recognizedEntry u (k, v) = true then
          GoMap.set (m.filter (recognizedEntry u)) k v
        else m.filter (recognizedEntry u) := by
  have hkey : ∀ k' v' v'', recognizedEntry u (k', v') = recognizedEntry u (k', v'') :=
    fun _ _ _ => rfl
  induction m with
  | nil =>
    by_cases hr : recognizedEntry u (k, v) = true
    · simp [GoMap.set, hr]
    · simp [GoMap.set, hr]
  | cons e m ih =>
    obtain ⟨k', v'⟩ := e
    by_cases hk : k' = k
    · subst hk
      have h' := hkey k' v' v
      by_cases hr : recognizedEntry u (k', v) = true
      · simp [GoMap.set, List.filter_cons, hr, h']
      · simp [GoMap.set, List.filter_cons, hr, h']
    · by_cases hr : recognizedEntry u (k, v) = true
      · rw [if_pos hr] at ih ⊢
        by_cases hr' : recognizedEntry u (k', v') = true
        · simp [GoMap.set, List.filter_cons, hk, hr', ih]
        · simp [GoMap.set, List.filter_cons, hk, hr', ih]
      · rw [if_neg hr] at ih ⊢
        by_cases hr' : recognizedEntry u (k', v') = true
        · simp [GoMap.set, List.filter_cons, hk, hr', ih]
        · simp [GoMap.set, List.filter_cons, hk, hr', ih]

theorem filter_scan_fold (u : Char → Char) (ps : List (GoString × GoString))
    (m : GoMap GoString) :
    (ps.foldl (fun m p => GoMap.set m p.1 p.2) m).filter (recognizedEntry u)
      = (ps.filter (recognizedEntry u)).foldl (fun m p => GoMap.set m p.1 p.2)
          (m.filter (recognizedEntry u)) := by
  induction ps generalizing m with
  | nil => rfl
  | cons p ps ih =>
    rw [List.foldl_cons, ih, filter_set_recognized, List.filter_cons]
    by_cases hr : recognizedEntry u p = true
    · have hr' : recognizedEntry u (p.1, p.2) = true := hr
      rw [if_pos hr, if_pos hr', List.foldl_cons]
    · have hr' : ¬ recognizedEntry u (p.1, p.2) = true := hr
      rw [if_neg hr, if_neg hr']

theorem filter_scanKV (u : Char → Char) (s : GoString) :
    (scanKV s).filter (recognizedEntry u)
      = ((scanPairs s).filter (recognizedEntry u)).foldl (fun m p => GoMap.set m p.1 p.2) [] :=
  filter_scan_fold u (scanPairs s) []

/-- The pieces of a spec with one more piece whose key is not recognised give
the same recognised entries of the scanned map. -/
theorem filter_scanKV_insert (u : Char → Char) (s s' p : GoString) (l₁ l₂ : List GoString)
    (hs : splitAny [',', ';'] s = l₁ ++ l₂) (hs' : splitAny [',', ';'] s' = l₁ ++ p :: l₂)
    (hkey : ToLower u (cutEq p).1 ∉ recognizedKeys) :
    (scanKV s').filter (recognizedEntry u) = (scanKV s).filter (recognizedEntry u) := by
  rw [filter_scanKV, filter_scanKV]
  congr 1
  unfold scanPairs
  rw [hs, hs']
  simp only [List.filter_append, List.map_append, List.filter_cons, List.map_cons]
  have hp : recognizedEntry u (cutEq p) = false := by
    unfold recognizedEntry
    simpa using hkey
  congr 1
  by_cases hne : (p != []) = true
  · simp only [hne, if_true, List.map_cons, List.filter_cons, hp]
    rfl
  · simp only [hne]
    rfl

theorem possible_iff_filter (u : Char → Char) (s : GoString)
    (r : Except GoError LumberjackConfig) :
    parseLumberjackPossible u s r ↔
      ∃ es : List (GoString × GoString),
        es.Perm ((scanKV s).filter (recognizedEntry u)) ∧
        applyEntries u lumberjackInit es = r := by
  constructor
  · rintro ⟨ρ, hρ, hr⟩
    refine ⟨(ρ (scanKV s)).filter (recognizedEntry u), (hρ (scanKV s)).filter _, ?_⟩
    rw [← applyEntries_filter]
    exact hr
  · rintro ⟨es, hperm, hr⟩
    have hes : es.filter (recognizedEntry u) = es := by
      rw [List.filter_eq_self]
      intro e he
      exact (List.mem_filter.1 (hperm.mem_iff.1 he)).2
    have hrest : ((scanKV s).filter (fun e => !recognizedEntry u e)).filter (recognizedEntry u)
        = [] := by
      rw [List.filter_eq_nil_iff]
      intro e he
      have := (List.mem_filter.1 he).2
      simpa using this
    have hperm' : (es ++ (scanKV s).filter (fun e => !recognizedEntry u e)).Perm (scanKV s) :=
      (hperm.append_right _).trans (List.filter_append_perm (recognizedEntry u) (scanKV s))
    refine ⟨fun m => if m = scanKV s then
        es ++ (scanKV s).filter (fun e => !recognizedEntry u e) else m, ?_, ?_⟩
    · intro m
      dsimp only
      by_cases hm : m = scanKV s
      · rw [if_pos hm, hm]
        exact hperm'
      · rw [if_neg hm]
    · unfold parseLumberjack
      dsimp only
      rw [if_pos rfl, applyEntries_filter, List.filter_append, hes, hrest, List.append_nil]
      exact hr

theorem possible_of_filter_eq (u : Char → Char) (s s' : GoString)
    (h : (scanKV s').filter (recognizedEntry u) = (scanKV s).filter (recognizedEntry u))
    (r : Except GoError LumberjackConfig) :
    parseLumberjackPossible u s' r ↔ parseLumberjackPossible u s r := by
  rw [possible_iff_filter, possible_iff_filter, h]

theorem parseLumberjacksFrom_congr_ge (u : Char → Char) (ρ ρ' : Nat → RangeOrder GoString)
    (vs : List GoString) (i : Nat) (h : ∀ j, i ≤ j → ρ' j = ρ j) :
    parseLumberjacksFrom u ρ' i vs = parseLumberjacksFrom u ρ i vs := by
  induction vs generalizing i with
  | nil => rfl
  | cons v vs ih =>
    simp only [parseLumberjacksFrom, h i (Nat.le_refl i),
      ih (i + 1) (fun j hj => h j (Nat.le_of_succ_le hj))]

theorem parseLumberjacksFrom_replace (u : Char → Char) (ρ ρ' : Nat → RangeOrder GoString)
    (s s' : GoString) (post pre : List GoString) (i : Nat)
    (hat : parseLumberjack u (ρ' (i + pre.length)) s'
      = parseLumberjack u (ρ (i + pre.length)) s)
    (hoff : ∀ j, j ≠ i + pre.length → ρ' j = ρ j) :
    parseLumberjacksFrom u ρ' i (pre ++ s' :: post)
      = parseLumberjacksFrom u ρ i (pre ++ s :: post) := by
  induction pre generalizing i with
  | nil =>
    simp only [List.length_nil, Nat.add_zero] at hat hoff
    simp only [List.nil_append, parseLumberjacksFrom, hat,
      parseLumberjacksFrom_congr_ge u ρ ρ' post (i + 1) (fun j hj => hoff j (by omega))]
  | cons v pre ih =>
    have hlen : i + (v :: pre).length = i + 1 + pre.length := by
      simp only [List.length_cons]
      omega
    rw [hlen] at hat hoff
    have hi : ρ' i = ρ i := hoff i (by omega)
    change parseLumberjacksFrom u ρ' i (v :: (pre ++ s' :: post))
      = parseLumberjacksFrom u ρ i (v :: (pre ++ s :: post))
    rw [parseLumberjacksFrom, parseLumberjacksFrom, hi, ih (i + 1) hat hoff]

theorem ParseLumberjacksPossible_replace (u : Char → Char) (s s' : GoString)
    (pre post : List GoString)
    (h : ∀ r, parseLumberjackPossible u s r → parseLumberjackPossible u s' r)
    (r : Except GoError (List LumberjackConfig))
    (hr : ParseLumberjacksPossible u (pre ++ s :: post) r) :
    ParseLumberjacksPossible u (pre ++ s' :: post) r := by
  obtain ⟨ρ, hρ, hres⟩ := hr
  obtain ⟨ρ₁, hρ₁, h₁⟩ := h _ ⟨ρ pre.length, hρ pre.length, rfl⟩
  refine ⟨fun j => if j = pre.length then ρ₁ else ρ j, ?_, ?_⟩
  · intro j
    by_cases hj : j = pre.length
    · simp only [hj, if_true]
      exact hρ₁
    · simp only [hj, if_false]
      exact hρ j
  · unfold ParseLumberjacks at hres ⊢
    rw [← hres]
    apply parseLumberjacksFrom_replace
    · simp only [Nat.zero_add, if_true]
      exact h₁
    · intro j hj
      simp only [Nat.zero_add] at hj
      simp only [hj, if_false]

/-- Where a pair can be put into a spec: the pieces of the new text are those
of the old with the pair among them. -/
theorem insert_pair_segments (a b p : GoString) (d : Char) (hd : d = ',' ∨ d = ';')
    (hp : ∀ c ∈ p, c ≠ ',' ∧ c ≠ ';') :
    ((b = [] ∨ ∃ e b', (e = ',' ∨ e = ';') ∧ b = e :: b') →
      ∃ l₁ l₂, splitAny [',', ';'] (a ++ b) = l₁ ++ l₂ ∧
        splitAny [',', ';'] (a ++ d :: (p ++ b)) = l₁ ++ p :: l₂) ∧
    ((a = [] ∨ ∃ e a', (e = ',' ∨ e = ';') ∧ a = a' ++ [e]) →
      ∃ l₁ l₂, splitAny [',', ';'] (a ++ b) = l₁ ++ l₂ ∧
        splitAny [',', ';'] (a ++ (p ++ d :: b)) = l₁ ++ p :: l₂) := by
  have hmem : ∀ e : Char, e = ',' ∨ e = ';' → e ∈ [',', ';'] := by
    intro e he
    rcases he with he | he <;> simp [he]
  have hp' : ∀ c ∈ p, c ∉ [',', ';'] := by
    intro c hc hm
    simp only [List.mem_cons, List.mem_singleton, List.not_mem_nil, or_false] at hm
    rcases hm with hm | hm
    · exact (hp c hc).1 hm
    · exact (hp c hc).2 hm
  have hsp := splitAny_no_sep [',', ';'] p hp'
  constructor
  · rintro (hb | ⟨e, b', he, hb⟩)
    · subst hb
      refine ⟨splitAny [',', ';'] a, [], by simp, ?_⟩
      rw [splitAny_append_sep _ _ _ _ (hmem d hd), List.append_nil, hsp]
    · subst hb
      refine ⟨splitAny [',', ';'] a, splitAny [',', ';'] b',
        splitAny_append_sep _ _ _ _ (hmem e he), ?_⟩
      rw [splitAny_append_sep _ _ _ _ (hmem d hd), splitAny_append_sep _ _ _ _ (hmem e he), hsp]
      rfl
  · rintro (ha | ⟨e, a', he, ha⟩)
    · subst ha
      refine ⟨[], splitAny [',', ';'] b, by simp, ?_⟩
      rw [List.nil_append, splitAny_append_sep _ _ _ _ (hmem d hd), hsp]
      rfl
    · subst ha
      refine ⟨splitAny [',', ';'] a', splitAny [',', ';'] b, ?_, ?_⟩
      · rw [List.append_assoc, List.singleton_append,
          splitAny_append_sep _ _ _ _ (hmem e he)]
      · rw [List.append_assoc, List.singleton_append,
          splitAny_append_sep _ _ _ _ (hmem e he), splitAny_append_sep _ _ _ _ (hmem d hd), hsp]
        rfl

/-- C8. For every list of specs, every spec `a ++ b` of it and every pair `p`
(a text without `,` and `;`, with any value or with no `=` at all) whose key is
none of the six recognised when compared without case: putting `p` into the
spec at a boundary of its pairs, after `a` when `b` is empty or starts with a
separator, or before `b` when `a` is empty or ends with one, leaves the results
`ParseLumberjacks` can return unchanged, configs and errors alike. -/
theorem ParseLumberjacks_unrecognized_key (u : Char → Char) (pre post : List GoString)
    (a b p : GoString) (d : Char) (hd : d = ',' ∨ d = ';')
    (hp : ∀ c ∈ p, c ≠ ',' ∧ c ≠ ';')
    (hkey : ToLower u (cutEq p).1 ∉ recognizedKeys) :
    ((b = [] ∨ ∃ e b', (e = ',' ∨ e = ';') ∧ b = e :: b') →
      ∀ r, ParseLumberjacksPossible u (pre ++ (a ++ d :: (p ++ b)) :: post) r ↔
        ParseLumberjacksPossible u (pre ++ (a ++ b) :: post) r) ∧
    ((a = [] ∨ ∃ e a', (e = ',' ∨ e = ';') ∧ a = a' ++ [e]) →
      ∀ r, ParseLumberjacksPossible u (pre ++ (a ++ (p ++ d :: b)) :: post) r ↔
        ParseLumberjacksPossible u (pre ++ (a ++ b) :: post) r) := by
  have key : ∀ s s' : GoString,
      (∃ l₁ l₂, splitAny [',', ';'] s = l₁ ++ l₂ ∧ splitAny [',', ';'] s' = l₁ ++ p :: l₂) →
      ∀ r, ParseLumberjacksPossible u (pre ++ s' :: post) r ↔
        ParseLumberjacksPossible u (pre ++ s :: post) r := by
    rintro s s' ⟨l₁, l₂, hs, hs'⟩ r
    have hf := filter_scanKV_insert u s s' p l₁ l₂ hs hs' hkey
    exact ⟨ParseLumberjacksPossible_replace u s' s pre post
        (fun r' => (possible_of_filter_eq u s s' hf r').1) r,
      ParseLumberjacksPossible_replace u s s' pre post
        (fun r' => (possible_of_filter_eq u s s' hf r').2) r⟩
  obtain ⟨h1, h2⟩ := insert_pair_segments a b p d hd hp
  exact ⟨fun hb => key _ _ (h1 hb), fun ha => key _ _ (h2 ha)⟩

/-- C8, at the first spec of `TestParseLumberjacks` with the pair `owner=ops`
put after `filename=abc.log`: the config of the test is still a result, and so
it was without the pair. -/
theorem ParseLumberjacks_unrecognized_key_witness :
    ParseLumberjacks id (fun _ => id)
        ["filename=abc.log,owner=ops,compress=true;maxsize=500".data]
      = .ok [⟨"abc.log".data, 500, 0, 50, false, true⟩] ∧
    (ParseLumberjacksPossible id
        ["filename=abc.log,owner=ops,compress=true;maxsize=500".data]
        (.ok [⟨"abc.log".data, 500, 0, 50, false, true⟩]) ↔
      ParseLumberjacksPossible id ["filename=abc.log,compress=true;maxsize=500".data]
        (.ok [⟨"abc.log".data, 500, 0, 50, false, true⟩])) :=
  ⟨by decide,
    (ParseLumberjacks_unrecognized_key id [] [] "filename=abc.log".data
      ",compress=true;maxsize=500".data "owner=ops".data ',' (Or.inl rfl) (by decide)
      (by decide)).1 (Or.inr ⟨',', "compress=true;maxsize=500".data, Or.inl rfl, rfl⟩)
      (.ok [⟨"abc.log".data, 500, 0, 50, false, true⟩])⟩

/-! ## C11: the integer fields of a returned config -/

theorem Atoi_inIntRange (s : GoString) (n : Int) (h : Atoi s = .ok n) : inIntRange n := by
  unfold Atoi at h
  unfold inIntRange
  repeat' (first | split at h | (dsimp only at h; split at h))
  all_goals first
    | (cases h; done)
    | (cases h
       rename_i un _ _ hlt
       constructor <;> omega)

theorem applyEntry_intsInRange (u : Char → Char) (c c' : LumberjackConfig) (k v : GoString)
    (h : applyEntry u c k v = .ok c') (hc : c.IntsInRange) : c'.IntsInRange := by
  unfold applyEntry at h
  dsimp only at h
  repeat' split at h
  all_goals first
    | (cases h; done)
    | (cases h; exact hc)
    | (cases h
       rename_i n hn
       first
         | exact ⟨Atoi_inIntRange v n hn, hc.2.1, hc.2.2⟩
         | exact ⟨hc.1, Atoi_inIntRange v n hn, hc.2.2⟩
         | exact ⟨hc.1, hc.2.1, Atoi_inIntRange v n hn⟩)

theorem applyEntries_intsInRange (u : Char → Char) (es : List (GoString × GoString))
    (c c' : LumberjackConfig) (h : applyEntries u c es = .ok c') (hc : c.IntsInRange) :
    c'.IntsInRange := by
  induction es generalizing c with
  | nil =>
    simp only [applyEntries, Except.ok.injEq] at h
    exact h ▸ hc
  | cons e es ih =>
    obtain ⟨k, v⟩ := e
    simp only [applyEntries] at h
    cases hr : applyEntry u c k v with
    | error e =>
      simp only [hr] at h
      cases h
    | ok c₁ =>
      simp only [hr] at h
      exact ih c₁ h (applyEntry_intsInRange u c c₁ k v hr hc)

theorem lumberjackInit_intsInRange : lumberjackInit.IntsInRange := by
  unfold LumberjackConfig.IntsInRange inIntRange lumberjackInit DefaultLumberjackMaxSize
    DefaultLumberjackMaxBackups
  norm_num

theorem parseLumberjacksFrom_intsInRange (u : Char → Char) (ρ : Nat → RangeOrder GoString)
    (vs : List GoString) (i : Nat) (l : List LumberjackConfig)
    (h : parseLumberjacksFrom u ρ i vs = .ok l) : ∀ c ∈ l, c.IntsInRange := by
  induction vs generalizing i l with
  | nil =>
    simp only [parseLumberjacksFrom, Except.ok.injEq] at h
    subst h
    exact fun _ hc => absurd hc (List.not_mem_nil _)
  | cons v vs ih =>
    simp only [parseLumberjacksFrom] at h
    cases hr : parseLumberjack u (ρ i) v with
    | error e =>
      simp only [hr] at h
      cases h
    | ok c₁ =>
      simp only [hr] at h
      cases hr' : parseLumberjacksFrom u ρ (i + 1) vs with
      | error e =>
        simp only [hr'] at h
        cases h
      | ok ls =>
        simp only [hr', Except.ok.injEq] at h
        subst h
        intro c hc
        rcases List.mem_cons.1 hc with hc | hc
        · subst hc
          exact applyEntries_intsInRange u _ _ _ hr lumberjackInit_intsInRange
        · exact ih (i + 1) ls hr' c hc

/-- C11, as stated, fails: `strconv.Atoi` takes a sign and nothing checks it, so
the spec `maxsize=-5,maxage=-1,maxbackups=-3` is accepted with three negative
fields. -/
theorem ParseLumberjacks_negative_counterexample :
    ParseLumberjacks id (fun _ => id) ["maxsize=-5,maxage=-1,maxbackups=-3".data]
      = .ok [⟨[], -5, -1, -3, false, false⟩] := by
  decide

theorem Atoi_nonneg (s : GoString) (n : Int) (h : Atoi s = .ok n)
    (hs : s.head? ≠ some '-') : 0 ≤ n := by
  unfold Atoi at h
  repeat' (first | split at h | (dsimp only at h; split at h))
  all_goals first
    | (cases h; done)
    | (cases h; omega)
    | (exfalso; simp_all)

theorem Atoi_negative_signed (s : GoString) (n : Int) (h : Atoi s = .ok n) (hn : n < 0) :
    ∃ rest, s = '-' :: rest := by
  cases s with
  | nil =>
    unfold Atoi at h
    cases h
  | cons c rest =>
    by_cases hc : c = '-'
    · exact ⟨rest, by rw [hc]⟩
    · have h0 := Atoi_nonneg (c :: rest) n h (by simpa using hc)
      omega

theorem nonNegUnlessSigned_of_entry (u : Char → Char) (s key k v : GoString) (n : Int)
    (hm : (k, v) ∈ scanKV s) (hk : ToLower u k = key) (hv : Atoi v = .ok n) :
    nonNegUnlessSigned u s key n := by
  by_cases hn : 0 ≤ n
  · exact Or.inl hn
  · obtain ⟨rest, hrest⟩ := Atoi_negative_signed v n hv (not_le.1 hn)
    subst hrest
    exact Or.inr ⟨k, rest, hm, hk, hv⟩

theorem applyEntry_signed (u : Char → Char) (s : GoString) (c c' : LumberjackConfig)
    (k v : GoString) (h : applyEntry u c k v = .ok c') (hm : (k, v) ∈ scanKV s)
    (hc : c.SignedAsWritten u s) : c'.SignedAsWritten u s := by
  have hr := applyEntry_intsInRange u c c' k v h hc.2.2.2
  unfold applyEntry at h
  dsimp only at h
  by_cases h1 : ToLower u k = kFilename
  · rw [if_pos h1] at h
    cases h
    exact hc
  rw [if_neg h1] at h
  by_cases h2 : ToLower u k = kMaxSize
  · rw [if_pos h2] at h
    cases hn : Atoi v with
    | error e =>
      rw [hn] at h
      cases h
    | ok n =>
      rw [hn] at h
      cases h
      exact ⟨nonNegUnlessSigned_of_entry u s _ k v n hm h2 hn, hc.2.1, hc.2.2.1, hr⟩
  rw [if_neg h2] at h
  by_cases h3 : ToLower u k = kMaxAge
  · rw [if_pos h3] at h
    cases hn : Atoi v with
    | error e =>
      rw [hn] at h
      cases h
    | ok n =>
      rw [hn] at h
      cases h
      exact ⟨hc.1, nonNegUnlessSigned_of_entry u s _ k v n hm h3 hn, hc.2.2.1, hr⟩
  rw [if_neg h3] at h
  by_cases h4 : ToLower u k = kMaxBackups
  · rw [if_pos h4] at h
    cases hn : Atoi v with
    | error e =>
      rw [hn] at h
      cases h
    | ok n =>
      rw [hn] at h
      cases h
      exact ⟨hc.1, hc.2.1, nonNegUnlessSigned_of_entry u s _ k v n hm h4 hn, hr⟩
  rw [if_neg h4] at h
  by_cases h5 : ToLower u k = kLocalTime
  · rw [if_pos h5] at h
    cases hn : ParseBool v with
    | error e =>
      rw [hn] at h
      cases h
    | ok n =>
      rw [hn] at h
      cases h
      exact ⟨hc.1, hc.2.1, hc.2.2.1, hr⟩
  rw [if_neg h5] at h
  by_cases h6 : ToLower u k = kCompress
  · rw [if_pos h6] at h
    cases hn : ParseBool v with
    | error e =>
      rw [hn] at h
      cases h
    | ok n =>
      rw [hn] at h
      cases h
      exact ⟨hc.1, hc.2.1, hc.2.2.1, hr⟩
  rw [if_neg h6] at h
  cases h
  exact hc

theorem applyEntries_signed (u : Char → Char) (s : GoString)
    (es : List (GoString × GoString)) (c c' : LumberjackConfig)
    (h : applyEntries u c es = .ok c') (hes : ∀ e ∈ es, e ∈ scanKV s)
    (hc : c.SignedAsWritten u s) : c'.SignedAsWritten u s := by
  induction es generalizing c with
  | nil =>
    simp only [applyEntries, Except.ok.injEq] at h
    exact h ▸ hc
  | cons e es ih =>
    obtain ⟨k, v⟩ := e
    simp only [applyEntries] at h
    cases hr : applyEntry u c k v with
    | error err =>
      simp only [hr] at h
      cases h
    | ok c₁ =>
      simp only [hr] at h
      exact ih c₁ h (fun e he => hes e (List.mem_cons_of_mem _ he))
        (applyEntry_signed u s c c₁ k v hr (hes _ (List.mem_cons_self _ _)) hc)

theorem lumberjackInit_signed (u : Char → Char) (s : GoString) :
    lumberjackInit.SignedAsWritten u s :=
  ⟨Or.inl (by decide), Or.inl (by decide), Or.inl (by decide), lumberjackInit_intsInRange⟩

theorem parseLumberjack_signed (u : Char → Char) (ρ : RangeOrder GoString) (hρ : ρ.Valid)
    (s : GoString) (c : LumberjackConfig) (h : parseLumberjack u ρ s = .ok c) :
    c.SignedAsWritten u s :=
  applyEntries_signed u s _ _ _ h (fun _ he => (hρ (scanKV s)).mem_iff.1 he)
    (lumberjackInit_signed u s)

theorem parseLumberjacksFrom_signed (u : Char → Char) (ρ : Nat → RangeOrder GoString)
    (hρ : ∀ i, (ρ i).Valid) (vs : List GoString) (i : Nat) (l : List LumberjackConfig)
    (h : parseLumberjacksFrom u ρ i vs = .ok l) :
    List.Forall₂ (fun s c => c.SignedAsWritten u s) vs l := by
  induction vs generalizing i l with
  | nil =>
    simp only [parseLumberjacksFrom, Except.ok.injEq] at h
    subst h
    exact List.Forall₂.nil
  | cons v vs ih =>
    simp only [parseLumberjacksFrom] at h
    cases hr : parseLumberjack u (ρ i) v with
    | error e =>
      simp only [hr] at h
      cases h
    | ok c₁ =>
      simp only [hr] at h
      cases hr' : parseLumberjacksFrom u ρ (i + 1) vs with
      | error e =>
        simp only [hr'] at h
        cases h
      | ok ls =>
        simp only [hr', Except.ok.injEq] at h
        subst h
        exact List.Forall₂.cons (parseLumberjack_signed u (ρ i) (hρ i) v c₁ hr)
          (ih (i + 1) ls hr')

/-! ### A value of the scanned map is a part of the spec -/

theorem lastValue_mem (ps : List (GoString × GoString)) (k v : GoString)
    (h : lastValue ps k = some v) : (k, v) ∈ ps := by
  induction ps with
  | nil => cases h
  | cons p ps ih =>
    simp only [lastValue] at h
    cases hl : lastValue ps k with
    | some v' =>
      rw [hl] at h
      exact List.mem_cons_of_mem _ (ih (hl.trans h))
    | none =>
      rw [hl] at h
      by_cases hp : p.1 = k
      · simp only [hp, if_true, Option.some.injEq] at h
        have : p = (k, v) := Prod.ext hp h
        rw [this]
        exact List.mem_cons_self _ _
      · simp only [hp, if_false] at h
        cases h

theorem splitAny_mem_chars (seps : List Char) (s seg : GoString) (c : Char)
    (hseg : seg ∈ splitAny seps s) (hc : c ∈ seg) : c ∈ s := by
  induction s generalizing seg with
  | nil =>
    simp only [splitAny, List.mem_singleton] at hseg
    rw [hseg] at hc
    exact hc
  | cons d s ih =>
    by_cases hd : d ∈ seps
    · rw [splitAny_cons_sep _ _ _ hd] at hseg
      rcases List.mem_cons.1 hseg with h | h
      · rw [h] at hc
        exact absurd hc (List.not_mem_nil _)
      · exact List.mem_cons_of_mem _ (ih seg h hc)
    · obtain ⟨h₁, r₁, hs₁, hs₂⟩ := splitAny_cons_nonsep seps d s hd
      rw [hs₂] at hseg
      rcases List.mem_cons.1 hseg with h | h
      · rw [h] at hc
        rcases List.mem_cons.1 hc with hc' | hc'
        · rw [hc']
          exact List.mem_cons_self _ _
        · exact List.mem_cons_of_mem _ (ih h₁ (hs₁ ▸ List.mem_cons_self _ _) hc')
      · exact List.mem_cons_of_mem _ (ih seg (hs₁ ▸ List.mem_cons_of_mem _ h) hc)

theorem scanKV_value_chars (s k v : GoString) (c : Char) (hm : (k, v) ∈ scanKV s)
    (hc : c ∈ v) : c ∈ s := by
  have hp : (k, v) ∈ scanPairs s := lastValue_mem _ _ _ ((mem_scanKV_iff s k v).1 hm)
  unfold scanPairs at hp
  obtain ⟨seg, hseg, hcut⟩ := List.mem_map.1 hp
  have hseg' : seg ∈ splitAny [',', ';'] s := (List.mem_filter.1 hseg).1
  have hv : v = (seg.dropWhile (fun c => c != '=')).drop 1 := by
    have h2 := congrArg Prod.snd hcut
    exact h2.symm
  have hsub : c ∈ seg := by
    rw [hv] at hc
    exact (List.dropWhile_sublist _).subset (List.mem_of_mem_drop hc)
  exact splitAny_mem_chars _ s seg c hseg' hsub

/-- C11, amended. For every list of spec strings that `ParseLumberjacks`
accepts, whatever the orders of the ranges, the `MaxSize`, `MaxAge` and
`MaxBackups` of every returned config are integers a 64-bit `int` holds, each
of them non-negative unless its spec gives the field, under a spelling of its
key, a value written with a leading `-`, which `strconv.Atoi` accepts; so the
three fields of every config are non-negative when no spec contains a `-`. -/
theorem ParseLumberjacks_nonNegUnlessSigned (u : Char → Char)
    (ρ : Nat → RangeOrder GoString) (vs : List GoString) (l : List LumberjackConfig)
    (hρ : ∀ i, (ρ i).Valid) (h : ParseLumberjacks u ρ vs = .ok l) :
    List.Forall₂ (fun s c => c.SignedAsWritten u s) vs l ∧
    ((∀ s ∈ vs, '-' ∉ s) → ∀ c ∈ l, 0 ≤ c.MaxSize ∧ 0 ≤ c.MaxAge ∧ 0 ≤ c.MaxBackups) := by
  have hall := parseLumberjacksFrom_signed u ρ hρ vs 0 l h
  refine ⟨hall, fun hs c hc => ?_⟩
  have key : ∀ (vs : List GoString) (l : List LumberjackConfig),
      List.Forall₂ (fun s c => c.SignedAsWritten u s) vs l → ∀ c ∈ l,
        ∃ s ∈ vs, c.SignedAsWritten u s := by
    intro vs l hf
    induction hf with
    | nil => exact fun c hc => absurd hc (List.not_mem_nil _)
    | @cons a b la lb hab _ ih =>
      intro c hc
      rcases List.mem_cons.1 hc with hc | hc
      · exact ⟨a, List.mem_cons_self _ _, hc ▸ hab⟩
      · obtain ⟨s, hs, hp⟩ := ih c hc
        exact ⟨s, List.mem_cons_of_mem _ hs, hp⟩
  obtain ⟨s, hsv, h1, h2, h3, _⟩ := key vs l hall c hc
  have hno : ∀ key n, nonNegUnlessSigned u s key n → 0 ≤ n := by
    intro key n hn
    rcases hn with hn | ⟨k, rest, hm, _, _⟩
    · exact hn
    · exact absurd (scanKV_value_chars s k _ '-' hm (List.mem_cons_self _ _)) (hs s hsv)
  exact ⟨hno _ _ h1, hno _ _ h2, hno _ _ h3⟩

/-- C11, amended, at the specs `maxsize=-5,maxage=7` and `maxbackups=3`: the one
negative field is the one written with a `-`. -/
theorem ParseLumberjacks_nonNegUnlessSigned_witness :
    ParseLumberjacks id (fun _ => id) ["maxsize=-5,maxage=7".data, "maxbackups=3".data]
      = .ok [⟨[], -5, 7, 50, false, false⟩, ⟨[], 100, 0, 3, false, false⟩] ∧
    List.Forall₂ (fun s c => LumberjackConfig.SignedAsWritten id s c)
      ["maxsize=-5,maxage=7".data, "maxbackups=3".data]
      [⟨[], -5, 7, 50, false, false⟩, ⟨[], 100, 0, 3, false, false⟩] :=
  ⟨by decide,
    (ParseLumberjacks_nonNegUnlessSigned id (fun _ => id)
      ["maxsize=-5,maxage=7".data, "maxbackups=3".data]
      [⟨[], -5, 7, 50, false, false⟩, ⟨[], 100, 0, 3, false, false⟩]
      (fun _ m => List.Perm.refl m) (by decide)).1⟩

/-! ## C12: the options `Build` hands to `zap.New` -/

theorem buildOptions_eq (cfg : Config) (errSink : WriteSyncer) :
    cfg.buildOptions errSink = specOptions cfg errSink := by
  unfold Config.buildOptions specOptions
  cases cfg.Development <;> cases cfg.DisableCaller <;> cases cfg.DisableStacktrace <;> rfl

/-- C12. For every Configuration, every outside and every list of extra
options, when `Build` reaches its call of `zap.New`, the options of the call
are exactly: the error-output option bound to the error sink the sink builder
returned; then the development option iff `Development` is set; then the
caller option iff `DisableCaller` is false; then the stack option iff
`DisableStacktrace` is false, at `WarnLevel` when `Development` is set and at
`ErrorLevel` otherwise; followed by the extra options in their given order.
`Build` then returns the logger of that call. -/
theorem Build_options (w : Env) (cfg : Config) (opts : List ZapOption) (tr : List Event)
    (args : NewArgs) (h : cfg.buildArgs w opts = (tr, .ok args)) :
    ∃ sink errSink, cfg.openSinks w = (tr, .ok (sink, errSink)) ∧ args.sink = sink ∧
      args.opts
        = [ZapOption.ErrorOutput errSink]
          ++ (if cfg.Development = true then [ZapOption.Development] else [])
          ++ (if cfg.DisableCaller = false then [ZapOption.AddCaller] else [])
          ++ (if cfg.DisableStacktrace = false then
                [ZapOption.AddStacktrace
                  (if cfg.Development = true then Level.WarnLevel else Level.ErrorLevel)]
              else [])
          ++ opts ∧
      cfg.Build w opts = (tr, .ok (w.New args)) := by
  have hB : cfg.Build w opts = (tr, .ok (w.New args)) := by
    unfold Config.Build
    rw [h]
  unfold Config.buildArgs at h
  cases he : cfg.buildEncoder with
  | error e =>
    simp only [he] at h
    cases h
  | ok enc =>
    simp only [he] at h
    rcases hs : cfg.openSinks w with ⟨tr', r⟩
    cases r with
    | error e =>
      simp only [hs] at h
      cases h
    | ok p =>
      obtain ⟨sink, errSink⟩ := p
      simp only [hs, Prod.mk.injEq, Except.ok.injEq] at h
      obtain ⟨htr, hargs⟩ := h
      subst htr hargs
      refine ⟨sink, errSink, rfl, rfl, ?_, hB⟩
      show cfg.buildOptions errSink ++ opts = _
      rw [buildOptions_eq]
      rfl

/-- C12, at the default Configuration (json, caller disabled) with two extra
options of the caller. -/
theorem Build_options_witness :
    ∃ sink errSink, defaultConfig.openSinks Env.allOk
        = ([.open ["stderr".data], .open ["stderr".data]], .ok (sink, errSink)) ∧
      sink = .multi (.opened ["stderr".data]) (.rotating []) ∧
      [ZapOption.ErrorOutput (.multi (.opened ["stderr".data]) (.rotating [])),
        .AddStacktrace .ErrorLevel, .custom 7, .custom 8]
        = [ZapOption.ErrorOutput errSink] ++ [] ++ [] ++ [ZapOption.AddStacktrace .ErrorLevel]
          ++ [.custom 7, .custom 8] ∧
      defaultConfig.Build Env.allOk [.custom 7, .custom 8]
        = ([.open ["stderr".data], .open ["stderr".data]], .ok ⟨4, 0⟩) := by
  obtain ⟨sink, errSink, h1, h2, h3, h4⟩ :=
    Build_options Env.allOk defaultConfig [.custom 7, .custom 8]
      [.open ["stderr".data], .open ["stderr".data]]
      ⟨.json defaultJSONEncoderConfig, .multi (.opened ["stderr".data]) (.rotating []),
        baseLoggerLevel,
        [.ErrorOutput (.multi (.opened ["stderr".data]) (.rotating [])),
          .AddStacktrace .ErrorLevel, .custom 7, .custom 8]⟩
      (by decide)
  exact ⟨sink, errSink, h1, h2.symm, h3, h4⟩

/-! ## C13 and C14: configurations `Build` refuses -/

/-- C13. For every Configuration with `EncoderType` `SyslogEncoder` and an
empty `OutputAddresses` list, every outside and every list of extra options,
`Build` returns an error and no logger, and does nothing to the outside: no
`zap.Open`, no connection. The error is the `fmt.Errorf("")` of
`openSyslogSinks`. -/
theorem Build_syslog_no_address (w : Env) (cfg : Config) (opts : List ZapOption)
    (ht : cfg.EncoderType = SyslogEncoder) (ha : cfg.OutputAddresses.elems = []) :
    cfg.Build w opts = ([], .error .emptyMessage) := by
  have hs : cfg.openSinks w = ([], .error .emptyMessage) := by
    unfold Config.openSinks Config.openSyslogSinks
    rw [ht, if_neg (by decide), if_pos rfl, ha]
    rfl
  unfold Config.Build Config.buildArgs Config.buildEncoder
  rw [hs, ht, if_neg (by decide), if_neg (by decide), if_pos rfl]

/-- C13, at the syslog Configuration with no address. -/
theorem Build_syslog_no_address_witness :
    ({ defaultConfig with EncoderType := SyslogEncoder } : Config).Build Env.allOk []
      = ([], .error .emptyMessage) :=
  Build_syslog_no_address Env.allOk { defaultConfig with EncoderType := SyslogEncoder } []
    rfl rfl

/-- C14. For every Configuration whose `EncoderType` is none of `JSONEncoder`,
`ConsoleEncoder` and `SyslogEncoder`, every outside and every list of extra
options, `Build` returns the unknown-encoder error and no logger, makes no
encoder and does nothing to the outside. -/
theorem Build_unknown_encoder (w : Env) (cfg : Config) (opts : List ZapOption)
    (h1 : cfg.EncoderType ≠ JSONEncoder) (h2 : cfg.EncoderType ≠ ConsoleEncoder)
    (h3 : cfg.EncoderType ≠ SyslogEncoder) :
    cfg.Build w opts = ([], .error (.unknownEncoderType cfg.EncoderType)) ∧
    cfg.buildEncoder = .error (.unknownEncoderType cfg.EncoderType) := by
  have he : cfg.buildEncoder = .error (.unknownEncoderType cfg.EncoderType) := by
    unfold Config.buildEncoder
    rw [if_neg h1, if_neg h2, if_neg h3]
  refine ⟨?_, he⟩
  unfold Config.Build Config.buildArgs
  rw [he]

/-- C14, at encoder type 7. -/
theorem Build_unknown_encoder_witness :
    ({ defaultConfig with EncoderType := 7 } : Config).Build Env.allOk []
      = ([], .error (.unknownEncoderType 7)) :=
  (Build_unknown_encoder Env.allOk { defaultConfig with EncoderType := 7 } []
    (by decide) (by decide) (by decide)).1

/-! ## C20: the network and the address of a syslog token -/

theorem takeWhile_append_sep (a b : GoString) (c : Char) (h : c ∉ a) :
    (a ++ c :: b).takeWhile (fun x => x != c) = a ∧
    ((a ++ c :: b).dropWhile (fun x => x != c)).drop 1 = b := by
  induction a with
  | nil => simp [List.takeWhile_cons, List.dropWhile_cons]
  | cons x a ih =>
    have hx : x ≠ c := fun hx => h (hx ▸ List.mem_cons_self _ _)
    have hx' : (x != c) = true := by simpa using hx
    have ha : c ∉ a := fun ha => h (List.mem_cons_of_mem _ ha)
    obtain ⟨ih1, ih2⟩ := ih ha
    constructor
    · rw [List.cons_append, List.takeWhile_cons]
      simp only [hx', if_true]
      rw [ih1]
    · rw [List.cons_append, List.dropWhile_cons]
      simp only [hx', if_true]
      exact ih2

theorem dialAll_trace (w : Env) (addrs : List GoString) (i : Nat) :
    (dialAll w i addrs).1 <+: addrs.map dialEvent ∧
    ∀ ts, (dialAll w i addrs).2 = .ok ts →
      (dialAll w i addrs).1 = addrs.map dialEvent ∧ ts = addrs.map dialTarget := by
  induction addrs generalizing i with
  | nil => exact ⟨List.prefix_refl _, fun ts h => ⟨rfl, by cases h; rfl⟩⟩
  | cons a addrs ih =>
    obtain ⟨ih1, ih2⟩ := ih (i + 1)
    simp only [dialAll, List.map_cons]
    cases hc : w.NewConnSyncer i (dialTarget a).1 (dialTarget a).2 with
    | some err =>
      refine ⟨?_, fun ts h => by cases h⟩
      exact ⟨addrs.map dialEvent, rfl⟩
    | none =>
      rcases hd : dialAll w (i + 1) addrs with ⟨tr, r⟩
      rw [hd] at ih1 ih2
      cases r with
      | error err =>
        refine ⟨?_, fun ts h => by cases h⟩
        exact (List.prefix_cons_inj _).2 ih1
      | ok ts' =>
        refine ⟨(List.prefix_cons_inj _).2 ih1, fun ts h => ?_⟩
        obtain ⟨e1, e2⟩ := ih2 ts' rfl
        simp only [Except.ok.injEq] at h
        subst h
        simp only at e1
        exact ⟨by rw [e1]; rfl, by rw [e2]⟩

theorem dialAll_ok (w : Env) (addrs : List GoString) (i : Nat)
    (h : ∀ j a, addrs[j]? = some a →
      w.NewConnSyncer (i + j) (dialTarget a).1 (dialTarget a).2 = none) :
    dialAll w i addrs = (addrs.map dialEvent, .ok (addrs.map dialTarget)) := by
  induction addrs generalizing i with
  | nil => rfl
  | cons a addrs ih =>
    have h0 : w.NewConnSyncer i (dialTarget a).1 (dialTarget a).2 = none :=
      h 0 a (List.getElem?_cons_zero ..)
    have ih' := ih (i + 1) (fun j b hb => by
      have hj := h (j + 1) b ((List.getElem?_cons_succ ..).trans hb)
      rw [show i + (j + 1) = i + 1 + j by omega] at hj
      exact hj)
    simp only [dialAll, h0, ih', List.map_cons, dialEvent]

theorem dialAll_fail (w : Env) (pre post : List GoString) (a : GoString) (e : GoError)
    (i : Nat)
    (hpre : ∀ j b, pre[j]? = some b →
      w.NewConnSyncer (i + j) (dialTarget b).1 (dialTarget b).2 = none)
    (hf : w.NewConnSyncer (i + pre.length) (dialTarget a).1 (dialTarget a).2 = some e) :
    dialAll w i (pre ++ a :: post) = ((pre ++ [a]).map dialEvent, .error e) := by
  induction pre generalizing i with
  | nil =>
    have hf' : w.NewConnSyncer i (dialTarget a).1 (dialTarget a).2 = some e := hf
    simp only [List.nil_append, dialAll, hf', List.map_cons, List.map_nil, dialEvent]
  | cons b pre ih =>
    have h0 : w.NewConnSyncer i (dialTarget b).1 (dialTarget b).2 = none :=
      hpre 0 b (List.getElem?_cons_zero ..)
    have ih' : dialAll w (i + 1) (pre.append (a :: post))
        = ((pre ++ [a]).map dialEvent, .error e) := ih (i + 1)
      (fun j c hc => by
        have hj := hpre (j + 1) c ((List.getElem?_cons_succ ..).trans hc)
        rw [show i + (j + 1) = i + 1 + j by omega] at hj
        exact hj)
      (by
        rw [show i + 1 + pre.length = i + (b :: pre).length by
          simp only [List.length_cons]; omega]
        exact hf)
    simp only [List.cons_append, dialAll, h0, ih', List.map_cons, dialEvent]

/-- C20. For every syslog output address token: when the token contains no
`:`, the network is `tcp` and the address the whole token; when it is `a:b`
with no `:` in `a`, the network is `a` and the address `b`. For every
Configuration with a non-empty `OutputAddresses` and every outside in which
`stderr` opens: when every connection succeeds, `openSyslogSinks` opens
`stderr`, dials the network and address of every token in order, and returns
the connections; when the connections of the tokens `pre` succeed and that of
the next token `a` fails with `e`, it opens `stderr`, dials the tokens of `pre`
and `a` in order and no other, closes `stderr` and returns `e`. -/
theorem openSyslogSinks_dials (w : Env) (cfg : Config) :
    (∀ addr : GoString, ':' ∉ addr → dialTarget addr = ("tcp".data, addr)) ∧
    (∀ a b : GoString, ':' ∉ a → dialTarget (a ++ ':' :: b) = (a, b)) ∧
    (cfg.OutputAddresses.elems ≠ [] → w.Open 0 ["stderr".data] = none →
      (∀ j a, cfg.OutputAddresses.elems[j]? = some a →
        w.NewConnSyncer j (dialTarget a).1 (dialTarget a).2 = none) →
      cfg.openSyslogSinks w
        = (.open ["stderr".data]
            :: cfg.OutputAddresses.elems.map
                (fun a => Event.dial (dialTarget a).1 (dialTarget a).2),
          .ok (.conns (cfg.OutputAddresses.elems.map dialTarget),
            .opened ["stderr".data]))) ∧
    (∀ pre a post e, cfg.OutputAddresses.elems = pre ++ a :: post →
      w.Open 0 ["stderr".data] = none →
      (∀ j b, pre[j]? = some b →
        w.NewConnSyncer j (dialTarget b).1 (dialTarget b).2 = none) →
      w.NewConnSyncer pre.length (dialTarget a).1 (dialTarget a).2 = some e →
      cfg.openSyslogSinks w
        = (.open ["stderr".data]
            :: (pre ++ [a]).map (fun a => Event.dial (dialTarget a).1 (dialTarget a).2)
              ++ [.close ["stderr".data]],
          .error e)) := by
  refine ⟨fun addr h => ?_, fun a b h => ?_, fun hne ho hall => ?_,
    fun pre a post e hsplit ho hpre hf => ?_⟩
  · unfold dialTarget
    rw [if_neg h]
  · have hm : ':' ∈ a ++ ':' :: b := by simp
    obtain ⟨h1, h2⟩ := takeWhile_append_sep a b ':' h
    unfold dialTarget
    rw [if_pos hm, h1, h2]
  · have hlen : ¬ cfg.OutputAddresses.elems.length = 0 := fun h0 =>
      hne (List.length_eq_zero.1 h0)
    have hd := dialAll_ok w cfg.OutputAddresses.elems 0 (fun j a hj => by
      rw [Nat.zero_add]
      exact hall j a hj)
    unfold Config.openSyslogSinks
    rw [if_neg hlen]
    simp only [ho, hd]
    rfl
  · have hlen : ¬ cfg.OutputAddresses.elems.length = 0 := by
      rw [hsplit]
      simp
    have hd := dialAll_fail w pre post a e 0
      (fun j b hj => by
        rw [Nat.zero_add]
        exact hpre j b hj)
      (by
        rw [Nat.zero_add]
        exact hf)
    unfold Config.openSyslogSinks
    rw [if_neg hlen]
    simp only [ho, hsplit, hd]
    rfl

/-- C20, at `OutputAddresses` `["loghost", "tcp:localhost:514"]` when every
connection succeeds: `stderr` is opened, then network `tcp` is dialled at
`loghost` and network `tcp` at `localhost:514`. -/
theorem openSyslogSinks_dials_witness :
    Config.openSyslogSinks Env.allOk
        { defaultConfig with
            EncoderType := SyslogEncoder
            OutputAddresses := some ["loghost".data, "tcp:localhost:514".data] }
      = ([.open ["stderr".data], .dial "tcp".data "loghost".data,
          .dial "tcp".data "localhost:514".data],
        .ok (.conns [("tcp".data, "loghost".data), ("tcp".data, "localhost:514".data)],
          .opened ["stderr".data])) :=
  ((openSyslogSinks_dials Env.allOk
    { defaultConfig with
        EncoderType := SyslogEncoder
        OutputAddresses := some ["loghost".data, "tcp:localhost:514".data] }).2.2.1
    (by decide) rfl (fun _ _ _ => rfl)).trans (by decide)

/-! ## More on loops over a range -/

theorem rangeM_ok_mem {β σ : Type} (step : σ → GoString → β → Except GoError σ)
    (es : GoMap β) (st st' : σ) (h : rangeM step st es = .ok st') :
    ∀ e ∈ es, ∃ st₀ st₁, step st₀ e.1 e.2 = .ok st₁ := by
  induction es generalizing st with
  | nil => exact fun _ he => absurd he (List.not_mem_nil _)
  | cons e es ih =>
    obtain ⟨k, v⟩ := e
    simp only [rangeM] at h
    cases hs : step st k v with
    | error err =>
      simp only [hs] at h
      cases h
    | ok st₁ =>
      simp only [hs] at h
      intro e he
      rcases List.mem_cons.1 he with he | he
      · subst he
        exact ⟨st, st₁, hs⟩
      · exact ih st₁ h e he

theorem rangeM_error_mem {β σ : Type} (step : σ → GoString → β → Except GoError σ)
    (es : GoMap β) (st : σ) (err : GoError) (h : rangeM step st es = .error err) :
    ∃ e ∈ es, ∃ st₀, step st₀ e.1 e.2 = .error err := by
  induction es generalizing st with
  | nil => simp [rangeM] at h
  | cons e es ih =>
    obtain ⟨k, v⟩ := e
    simp only [rangeM] at h
    cases hs : step st k v with
    | error err' =>
      simp only [hs, Except.error.injEq] at h
      subst h
      exact ⟨(k, v), List.mem_cons_self _ _, st, hs⟩
    | ok st₁ =>
      simp only [hs] at h
      obtain ⟨e, he, st₀, h₀⟩ := ih st₁ h
      exact ⟨e, List.mem_cons_of_mem _ he, st₀, h₀⟩

/-- In a range over a map, what the pass of one key sets and no other pass
touches holds at the end. -/
theorem rangeM_set_by_key {β σ τ : Type} (step : σ → GoString → β → Except GoError σ)
    (π : σ → τ) (k₀ : GoString) (v₀ : β) (a : τ) (es : GoMap β)
    (hn : (es.map Prod.fst).Nodup) (hmem : (k₀, v₀) ∈ es)
    (hset : ∀ st st₁, step st k₀ v₀ = .ok st₁ → π st₁ = a)
    (hpres : ∀ e ∈ es, e.1 ≠ k₀ → ∀ st st₁, step st e.1 e.2 = .ok st₁ → π st₁ = π st)
    (st st' : σ) (h : rangeM step st es = .ok st') : π st' = a := by
  induction es generalizing st with
  | nil => exact absurd hmem (List.not_mem_nil _)
  | cons e es ih =>
    obtain ⟨k, v⟩ := e
    simp only [List.map_cons, List.nodup_cons] at hn
    simp only [rangeM] at h
    cases hs : step st k v with
    | error err =>
      simp only [hs] at h
      cases h
    | ok st₁ =>
      simp only [hs] at h
      rcases List.mem_cons.1 hmem with heq | hrest
      · cases heq
        rw [rangeM_const_mem step π es (fun e he st₂ st₃ h₂ =>
          hpres e (List.mem_cons_of_mem _ he)
            (fun hk => hn.1 (hk ▸ List.mem_map_of_mem Prod.fst he)) st₂ st₃ h₂) st₁ st' h]
        exact hset st st₁ hs
      · exact ih hn.2 hrest (fun e he => hpres e (List.mem_cons_of_mem _ he)) st₁ h

theorem range_nodup (url : URL) (ρ : RangeOrder (List GoString)) (hρ : ρ.Valid) :
    ((ρ url.Query).map Prod.fst).Nodup :=
  ((hρ url.Query).map _).nodup_iff.2 url.Query_nodup

theorem range_mem_of_param (url : URL) (ρ : RangeOrder (List GoString)) (hρ : ρ.Valid)
    (k v : GoString) (rest : List GoString) (h : paramValues url.QueryPairs k = v :: rest) :
    (k, v :: rest) ∈ ρ url.Query := by
  rw [(hρ url.Query).mem_iff, ← GoMap.get_eq_some_iff _ url.Query_nodup, URL.Query_get, h]
  rfl

theorem range_mem_values (url : URL) (ρ : RangeOrder (List GoString)) (hρ : ρ.Valid)
    (e : GoString × List GoString) (he : e ∈ ρ url.Query) :
    e.2 = paramValues url.QueryPairs e.1 ∧ e.2 ≠ [] :=
  URL.Query_mem url e.1 e.2 ((hρ url.Query).mem_iff.1 he)

/-! ## C17: the three boolean parameters -/

theorem parseBoolParam_inv (vs : List GoString) (msg : GoString) (b : Bool)
    (h : parseBoolParam vs msg = .ok b) : ∃ v rest, vs = v :: rest ∧ ParseBool v = .ok b := by
  unfold parseBoolParam at h
  cases vs with
  | nil => cases h
  | cons v rest =>
    refine ⟨v, rest, rfl, ?_⟩
    cases hp : ParseBool v with
    | error e =>
      simp only [hp] at h
      cases h
    | ok b' =>
      simp only [hp, Except.ok.injEq] at h
      rw [h]

theorem commonStep_set (cfg cfg₁ : Config) (k : GoString) (vs : List GoString)
    (h : commonStep cfg k vs = .ok cfg₁) :
    (k = "development".data →
      ∃ v rest, vs = v :: rest ∧ ParseBool v = .ok cfg₁.Development) ∧
    (k = "disableCaller".data →
      ∃ v rest, vs = v :: rest ∧ ParseBool v = .ok cfg₁.DisableCaller) ∧
    (k = "disableStacktrace".data →
      ∃ v rest, vs = v :: rest ∧ ParseBool v = .ok cfg₁.DisableStacktrace) := by
  unfold commonStep at h
  by_cases h1 : k = "development".data
  · rw [if_pos h1] at h
    cases hb : parseBoolParam vs "config: error parsing development".data with
    | error e =>
      simp only [hb] at h
      cases h
    | ok b =>
      simp only [hb] at h
      cases h
      refine ⟨fun _ => parseBoolParam_inv vs _ b hb, fun h2 => ?_, fun h3 => ?_⟩
      · rw [h1] at h2
        exact absurd h2 (by decide)
      · rw [h1] at h3
        exact absurd h3 (by decide)
  rw [if_neg h1] at h
  by_cases h2 : k = "disableCaller".data
  · rw [if_pos h2] at h
    cases hb : parseBoolParam vs "config: error parsing disableCaller".data with
    | error e =>
      simp only [hb] at h
      cases h
    | ok b =>
      simp only [hb] at h
      cases h
      refine ⟨fun h1' => absurd h1' h1, fun _ => parseBoolParam_inv vs _ b hb, fun h3 => ?_⟩
      rw [h2] at h3
      exact absurd h3 (by decide)
  rw [if_neg h2] at h
  by_cases h3 : k = "disableStacktrace".data
  · rw [if_pos h3] at h
    cases hb : parseBoolParam vs "config: error parsing disableStacktrace".data with
    | error e =>
      simp only [hb] at h
      cases h
    | ok b =>
      simp only [hb] at h
      cases h
      exact ⟨fun h1' => absurd h1' h1, fun h2' => absurd h2' h2,
        fun _ => parseBoolParam_inv vs _ b hb⟩
  · exact ⟨fun h1' => absurd h1' h1, fun h2' => absurd h2' h2, fun h3' => absurd h3' h3⟩

theorem syslogStep_frame (u : Char → Char) (fp : GoString → Except GoError Priority)
    (st st₁ : SyslogState) (k : GoString) (vs : List GoString)
    (h : syslogStep u fp st k vs = .ok st₁) :
    st₁.cfg.Development = st.cfg.Development ∧
    st₁.cfg.DisableCaller = st.cfg.DisableCaller ∧
    st₁.cfg.DisableStacktrace = st.cfg.DisableStacktrace ∧
    (k ≠ "framing".data → st₁.cfg.Framing = st.cfg.Framing) := by
  unfold syslogStep at h
  dsimp only at h
  repeat' split at h
  all_goals first
    | (cases h; done)
    | (cases h; exact ⟨rfl, rfl, rfl, fun _ => rfl⟩)
    | (cases h
       rename_i hk _
       exact ⟨rfl, rfl, rfl, fun hne => absurd hk hne⟩)
    | (cases h
       rename_i hk _ _
       exact ⟨rfl, rfl, rfl, fun hne => absurd hk hne⟩)

theorem populateSyslog_ok_inv (u : Char → Char) (fp : GoString → Except GoError Priority)
    (ρ : RangeOrder (List GoString)) (c cfg : Config) (values : GoMap (List GoString))
    (h : c.populateSyslogEncoderFromQS u fp ρ values = .ok cfg) :
    ∃ st, rangeM (syslogStep u fp) ⟨c, none⟩ (ρ values) = .ok st ∧
      cfg = { st.cfg with OutputAddresses := st.outputAddresses } := by
  unfold Config.populateSyslogEncoderFromQS at h
  cases hr : rangeM (syslogStep u fp) ⟨c, none⟩ (ρ values) with
  | error e =>
    simp only [hr] at h
    cases h
  | ok st =>
    simp only [hr, Except.ok.injEq] at h
    exact ⟨st, rfl, h.symm⟩

/-- What the populator of the encoder leaves of the three booleans. -/
theorem encoder_populator_common (u : Char → Char) (fp : GoString → Except GoError Priority)
    (o : Orders) (url : URL) (cfg : Config) (ho : o.Valid)
    (h : ParseConfigFromURI u fp o url = .ok cfg) :
    ∃ config, defaultConfig.populateCommonFromQS o.common url.Query = .ok config ∧
      cfg.Development = config.Development ∧ cfg.DisableCaller = config.DisableCaller ∧
      cfg.DisableStacktrace = config.DisableStacktrace := by
  obtain ⟨_, config, hc, hcase⟩ := ParseConfigFromURI_ok_inv u fp o url cfg h
  refine ⟨config, hc, ?_⟩
  have hstd : ∀ t : EncoderType,
      ({ config with EncoderType := t }).populateStandardEncoderFromQS u
        o.encoder o.lumberjack o.errorLumberjack url.Query = .ok cfg →
      cfg.Development = config.Development ∧ cfg.DisableCaller = config.DisableCaller ∧
      cfg.DisableStacktrace = config.DisableStacktrace := by
    intro t hp
    have hs0 := (populateStandard_frame u o.encoder ho.2.1 o.lumberjack o.errorLumberjack url
      _ cfg hp).1
    refine ⟨?_, ?_, ?_⟩
    · have h' := congrArg Config.Development hs0
      exact h'
    · have h' := congrArg Config.DisableCaller hs0
      exact h'
    · have h' := congrArg Config.DisableStacktrace hs0
      exact h'
  rcases hcase with ⟨_, hp⟩ | ⟨_, hp⟩ | ⟨_, hp⟩
  · exact hstd _ hp
  · exact hstd _ hp
  · obtain ⟨st, hr, hcfg⟩ := populateSyslog_ok_inv u fp o.encoder _ cfg url.Query hp
    subst hcfg
    exact ⟨rangeM_const (syslogStep u fp) (fun st => st.cfg.Development)
        (fun st k v st₁ hs => (syslogStep_frame u fp st st₁ k v hs).1) _ _ _ hr,
      rangeM_const (syslogStep u fp) (fun st => st.cfg.DisableCaller)
        (fun st k v st₁ hs => (syslogStep_frame u fp st st₁ k v hs).2.1) _ _ _ hr,
      rangeM_const (syslogStep u fp) (fun st => st.cfg.DisableStacktrace)
        (fun st k v st₁ hs => (syslogStep_frame u fp st st₁ k v hs).2.2.1) _ _ _ hr⟩

/-- C17. For every URI, whatever its encoder kind, and every order of the
ranges: when `ParseConfigFromURI` returns a Configuration, each of
`development`, `disableCaller` and `disableStacktrace` present in the query has
a first value that `strconv.ParseBool` accepts, and the field of its name holds
the parsed boolean; so when the first value of one of them is not a valid
boolean, `ParseConfigFromURI` returns an error and no Configuration. -/
theorem ParseConfigFromURI_booleans (u : Char → Char)
    (fp : GoString → Except GoError Priority) (o : Orders) (url : URL) (ho : o.Valid) :
    (∀ cfg, ParseConfigFromURI u fp o url = .ok cfg →
      (∀ v rest, paramValues url.QueryPairs "development".data = v :: rest →
        ParseBool v = .ok cfg.Development) ∧
      (∀ v rest, paramValues url.QueryPairs "disableCaller".data = v :: rest →
        ParseBool v = .ok cfg.DisableCaller) ∧
      (∀ v rest, paramValues url.QueryPairs "disableStacktrace".data = v :: rest →
        ParseBool v = .ok cfg.DisableStacktrace)) ∧
    (∀ k v rest,
      k = "development".data ∨ k = "disableCaller".data ∨ k = "disableStacktrace".data →
      paramValues url.QueryPairs k = v :: rest → (ParseBool v).toBool = false →
      ∃ e, ParseConfigFromURI u fp o url = .error e) := by
  have part1 : ∀ cfg, ParseConfigFromURI u fp o url = .ok cfg →
      (∀ v rest, paramValues url.QueryPairs "development".data = v :: rest →
        ParseBool v = .ok cfg.Development) ∧
      (∀ v rest, paramValues url.QueryPairs "disableCaller".data = v :: rest →
        ParseBool v = .ok cfg.DisableCaller) ∧
      (∀ v rest, paramValues url.QueryPairs "disableStacktrace".data = v :: rest →
        ParseBool v = .ok cfg.DisableStacktrace) := by
    intro cfg h
    obtain ⟨config, hc, e1, e2, e3⟩ := encoder_populator_common u fp o url cfg ho h
    unfold Config.populateCommonFromQS at hc
    have hnd := range_nodup url o.common ho.1
    have key : ∀ (k : GoString) (π : Config → Bool) (v : GoString) (rest : List GoString),
        paramValues url.QueryPairs k = v :: rest →
        (∀ st st₁ vs, commonStep st k vs = .ok st₁ →
          ∃ v' rest', vs = v' :: rest' ∧ ParseBool v' = .ok (π st₁)) →
        (∀ k' vs st st₁, k' ≠ k → commonStep st k' vs = .ok st₁ → π st₁ = π st) →
        ParseBool v = .ok (π config) := by
      intro k π v rest hv hset hpres
      have hmem := range_mem_of_param url o.common ho.1 k v rest hv
      obtain ⟨st₀, st₁, h₀⟩ := rangeM_ok_mem commonStep _ _ _ hc (k, v :: rest) hmem
      obtain ⟨v', rest', hvs, hpb⟩ := hset st₀ st₁ (v :: rest) h₀
      cases hvs
      have hπ : π config = π st₁ :=
        rangeM_set_by_key commonStep π k (v :: rest) (π st₁) _ hnd hmem
          (fun st st₂ hs => by
            obtain ⟨v'', rest'', hvs', hpb'⟩ := hset st st₂ (v :: rest) hs
            cases hvs'
            rw [hpb] at hpb'
            exact (Except.ok.inj hpb').symm)
          (fun e _ hne st st₂ hs => hpres e.1 e.2 st st₂ hne hs) _ _ hc
      rw [hπ]
      exact hpb
    refine ⟨fun v rest hv => ?_, fun v rest hv => ?_, fun v rest hv => ?_⟩
    · rw [e1]
      exact key _ (fun c => c.Development) v rest hv
        (fun st st₁ vs hs => (commonStep_set st st₁ _ vs hs).1 rfl)
        (fun k' vs st st₁ hne hs => (commonStep_cases st st₁ k' vs hs).2.1 hne)
    · rw [e2]
      exact key _ (fun c => c.DisableCaller) v rest hv
        (fun st st₁ vs hs => (commonStep_set st st₁ _ vs hs).2.1 rfl)
        (fun k' vs st st₁ hne hs => (commonStep_cases st st₁ k' vs hs).2.2.1 hne)
    · rw [e3]
      exact key _ (fun c => c.DisableStacktrace) v rest hv
        (fun st st₁ vs hs => (commonStep_set st st₁ _ vs hs).2.2 rfl)
        (fun k' vs st st₁ hne hs => (commonStep_cases st st₁ k' vs hs).2.2.2 hne)
  refine ⟨part1, fun k v rest hk hv hbad => ?_⟩
  cases hr : ParseConfigFromURI u fp o url with
  | error e => exact ⟨e, rfl⟩
  | ok cfg =>
    exfalso
    obtain ⟨p1, p2, p3⟩ := part1 cfg hr
    rcases hk with hk | hk | hk
    · subst hk
      rw [p1 v rest hv] at hbad
      cases hbad
    · subst hk
      rw [p2 v rest hv] at hbad
      cases hbad
    · subst hk
      rw [p3 v rest hv] at hbad
      cases hbad

/-- C17, at `logger:syslog?disableCaller=0&development=yes`: `yes` is not a
boolean of `strconv.ParseBool`. -/
theorem ParseConfigFromURI_booleans_witness :
    ∃ e, ParseConfigFromURI id (fun _ => .ok 0) Orders.inOrder
      ⟨"logger".data, "syslog".data,
        [("disableCaller".data, "0".data), ("development".data, "yes".data)]⟩ = .error e :=
  (ParseConfigFromURI_booleans id (fun _ => .ok 0) Orders.inOrder
    ⟨"logger".data, "syslog".data,
      [("disableCaller".data, "0".data), ("development".data, "yes".data)]⟩
    Orders.inOrder_valid).2 "development".data "yes".data [] (Or.inl rfl) (by decide)
    (by decide)

/-! ## C16: the framing parameter -/

theorem syslogStep_framing (u : Char → Char) (fp : GoString → Except GoError Priority)
    (st st₁ : SyslogState) (v : GoString) (rest : List GoString)
    (h : syslogStep u fp st "framing".data (v :: rest) = .ok st₁) :
    (ToLower u v ∈ nonTransparentNames ∧ st₁.cfg.Framing = NonTransparentFraming) ∨
    (ToLower u v ∉ nonTransparentNames ∧ ToLower u v ∈ octetCountingNames ∧
      st₁.cfg.Framing = OctetCountingFraming) := by
  unfold syslogStep at h
  dsimp only at h
  rw [if_neg (by decide), if_neg (by decide), if_pos rfl] at h
  have hnt : (ToLower u v = [] ∨ ToLower u v = "0".data ∨ ToLower u v = "non-transparent".data
      ∨ ToLower u v = "non-transparent-framing".data) ↔ ToLower u v ∈ nonTransparentNames := by
    simp [nonTransparentNames]
  have hoc : (ToLower u v = "1".data ∨ ToLower u v = "octet-counting".data
      ∨ ToLower u v = "octet-counting-framing".data) ↔ ToLower u v ∈ octetCountingNames := by
    simp [octetCountingNames]
  by_cases h1 : ToLower u v = [] ∨ ToLower u v = "0".data ∨ ToLower u v = "non-transparent".data
      ∨ ToLower u v = "non-transparent-framing".data
  · rw [if_pos h1] at h
    cases h
    exact Or.inl ⟨hnt.1 h1, rfl⟩
  · rw [if_neg h1] at h
    by_cases h2 : ToLower u v = "1".data ∨ ToLower u v = "octet-counting".data
        ∨ ToLower u v = "octet-counting-framing".data
    · rw [if_pos h2] at h
      cases h
      exact Or.inr ⟨fun hm => h1 (hnt.2 hm), hoc.1 h2, rfl⟩
    · rw [if_neg h2] at h
      cases h

theorem framing_names_disjoint (x : GoString) (h1 : x ∈ nonTransparentNames)
    (h2 : x ∈ octetCountingNames) : False := by
  have hall : ∀ y ∈ nonTransparentNames, y ∉ octetCountingNames := by decide
  exact hall x h1 h2

/-- C16. For every syslog URI carrying a framing parameter, with `v` its first
value, and every order of the ranges: when `ParseConfigFromURI` returns a
Configuration, its `Framing` is non-transparent if `v` in lower case is the
empty text, `0`, `non-transparent` or `non-transparent-framing`, and
octet-counting if it is `1`, `octet-counting` or `octet-counting-framing`; for
every other `v` it returns an error and no Configuration. -/
theorem ParseConfigFromURI_framing (u : Char → Char)
    (fp : GoString → Except GoError Priority) (o : Orders) (url : URL) (v : GoString)
    (rest : List GoString) (ho : o.Valid) (hop : url.Opaque = "syslog".data)
    (hv : paramValues url.QueryPairs "framing".data = v :: rest) :
    (∀ cfg, ParseConfigFromURI u fp o url = .ok cfg →
      (ToLower u v ∈ nonTransparentNames → cfg.Framing = NonTransparentFraming) ∧
      (ToLower u v ∈ octetCountingNames → cfg.Framing = OctetCountingFraming)) ∧
    (ToLower u v ∉ nonTransparentNames → ToLower u v ∉ octetCountingNames →
      ∃ e, ParseConfigFromURI u fp o url = .error e) := by
  have part1 : ∀ cfg, ParseConfigFromURI u fp o url = .ok cfg →
      (ToLower u v ∈ nonTransparentNames ∧ cfg.Framing = NonTransparentFraming) ∨
      (ToLower u v ∉ nonTransparentNames ∧ ToLower u v ∈ octetCountingNames ∧
        cfg.Framing = OctetCountingFraming) := by
    intro cfg h
    obtain ⟨_, config, _, hcase⟩ := ParseConfigFromURI_ok_inv u fp o url cfg h
    rcases hcase with ⟨h1, _⟩ | ⟨h2, _⟩ | ⟨_, hp⟩
    · rw [hop] at h1
      exact absurd h1 (by decide)
    · rw [hop] at h2
      exact absurd h2 (by decide)
    · obtain ⟨st, hr, hcfg⟩ := populateSyslog_ok_inv u fp o.encoder _ cfg url.Query hp
      have hmem := range_mem_of_param url o.encoder ho.2.1 _ v rest hv
      obtain ⟨st₀, st₁, h₀⟩ := rangeM_ok_mem (syslogStep u fp) _ _ _ hr _ hmem
      have hF : st.cfg.Framing = st₁.cfg.Framing :=
        rangeM_set_by_key (syslogStep u fp) (fun st => st.cfg.Framing) "framing".data
          (v :: rest) st₁.cfg.Framing _ (range_nodup url o.encoder ho.2.1) hmem
          (fun st₂ st₃ hs => by
            rcases syslogStep_framing u fp st₂ st₃ v rest hs with ⟨_, e3⟩ | ⟨hn3, _, e3⟩
            · rcases syslogStep_framing u fp st₀ st₁ v rest h₀ with ⟨_, e1⟩ | ⟨hn1, _, _⟩
              · exact e3.trans e1.symm
              · exact absurd (by assumption) hn1
            · rcases syslogStep_framing u fp st₀ st₁ v rest h₀ with ⟨hm1, _⟩ | ⟨_, _, e1⟩
              · exact absurd hm1 hn3
              · exact e3.trans e1.symm)
          (fun e _ hne st₂ st₃ hs => (syslogStep_frame u fp st₂ st₃ e.1 e.2 hs).2.2.2 hne)
          _ _ hr
      have hcF : cfg.Framing = st.cfg.Framing := by rw [hcfg]
      rw [hcF, hF]
      exact syslogStep_framing u fp st₀ st₁ v rest h₀
  refine ⟨fun cfg h => ?_, fun hn1 hn2 => ?_⟩
  · rcases part1 cfg h with ⟨hm, e⟩ | ⟨hn, hm, e⟩
    · exact ⟨fun _ => e, fun hm2 => (framing_names_disjoint _ hm hm2).elim⟩
    · exact ⟨fun hm1 => absurd hm1 hn, fun _ => e⟩
  · cases hr : ParseConfigFromURI u fp o url with
    | error e => exact ⟨e, rfl⟩
    | ok cfg =>
      rcases part1 cfg hr with ⟨hm, _⟩ | ⟨_, hm, _⟩
      · exact absurd hm hn1
      · exact absurd hm hn2

/-- C16, at `logger:syslog?outputAddress=localhost:514&framing=Octet-Counting`. -/
theorem ParseConfigFromURI_framing_witness :
    ParseConfigFromURI id (fun _ => .ok 0) Orders.inOrder
        ⟨"logger".data, "syslog".data,
          [("outputAddress".data, "localhost:514".data),
           ("framing".data, "Octet-Counting".data)]⟩
      = .ok { defaultConfig with EncoderType := SyslogEncoder, Framing := 1,
                                 OutputAddresses := some ["localhost:514".data] } ∧
    ({ defaultConfig with EncoderType := SyslogEncoder, Framing := 1,
                          OutputAddresses := some ["localhost:514".data] } : Config).Framing
      = OctetCountingFraming := by
  have hres : ParseConfigFromURI id (fun _ => .ok 0) Orders.inOrder
        ⟨"logger".data, "syslog".data,
          [("outputAddress".data, "localhost:514".data),
           ("framing".data, "Octet-Counting".data)]⟩
      = .ok { defaultConfig with EncoderType := SyslogEncoder, Framing := 1,
                                 OutputAddresses := some ["localhost:514".data] } := by
    decide
  exact ⟨hres, ((ParseConfigFromURI_framing id (fun _ => .ok 0) Orders.inOrder
    ⟨"logger".data, "syslog".data,
      [("outputAddress".data, "localhost:514".data),
       ("framing".data, "Octet-Counting".data)]⟩ "Octet-Counting".data []
    Orders.inOrder_valid rfl (by decide)).1 _ hres).2 (by decide)⟩

/-! ## C15: the rotation lists of a console or json URI -/

theorem standardStep_lumberjack (u : Char → Char) (ρl ρe : Nat → RangeOrder GoString)
    (st st₁ : StandardState) (v : GoString) (rest : List GoString) :
    (standardStep u ρl ρe st "lumberjack".data (v :: rest) = .ok st₁ →
      ∃ ls, ParseLumberjacks u ρl (v :: rest) = .ok ls ∧ st₁.cfg.Lumberjacks = some ls) ∧
    (standardStep u ρl ρe st "errorLumberjack".data (v :: rest) = .ok st₁ →
      ∃ ls, ParseLumberjacks u ρe (v :: rest) = .ok ls ∧
        st₁.cfg.ErrorLumberjacks = some ls) := by
  constructor
  · intro h
    unfold standardStep at h
    rw [if_neg (by simp), if_neg (by decide), if_neg (by decide), if_neg (by decide),
      if_neg (by decide), if_pos rfl] at h
    cases hp : ParseLumberjacks u ρl (v :: rest) with
    | error e =>
      simp only [hp] at h
      cases h
    | ok ls =>
      simp only [hp] at h
      cases h
      exact ⟨ls, rfl, rfl⟩
  · intro h
    unfold standardStep at h
    rw [if_neg (by simp), if_neg (by decide), if_neg (by decide), if_neg (by decide),
      if_neg (by decide), if_neg (by decide), if_pos rfl] at h
    cases hp : ParseLumberjacks u ρe (v :: rest) with
    | error e =>
      simp only [hp] at h
      cases h
    | ok ls =>
      simp only [hp] at h
      cases h
      exact ⟨ls, rfl, rfl⟩

theorem standardStep_error (u : Char → Char) (ρl ρe : Nat → RangeOrder GoString)
    (st : StandardState) (k : GoString) (vs : List GoString) (e : GoError)
    (h : standardStep u ρl ρe st k vs = .error e) :
    (k = "lumberjack".data ∧ ParseLumberjacks u ρl vs = .error e) ∨
    (k = "errorLumberjack".data ∧ ParseLumberjacks u ρe vs = .error e) := by
  unfold standardStep at h
  by_cases h0 : vs.length = 0
  · rw [if_pos h0] at h
    cases h
  rw [if_neg h0] at h
  by_cases h1 : k = "outputPath".data
  · rw [if_pos h1] at h
    cases h
  rw [if_neg h1] at h
  by_cases h2 : k = "outputPaths".data
  · rw [if_pos h2] at h
    cases h
  rw [if_neg h2] at h
  by_cases h3 : k = "errorOutputPath".data
  · rw [if_pos h3] at h
    cases h
  rw [if_neg h3] at h
  by_cases h4 : k = "errorOutputPaths".data
  · rw [if_pos h4] at h
    cases h
  rw [if_neg h4] at h
  by_cases h5 : k = "lumberjack".data
  · rw [if_pos h5] at h
    cases hp : ParseLumberjacks u ρl vs with
    | error e' =>
      simp only [hp, Except.error.injEq] at h
      rw [h]
      exact Or.inl ⟨h5, rfl⟩
    | ok ls =>
      simp only [hp] at h
      cases h
  rw [if_neg h5] at h
  by_cases h6 : k = "errorLumberjack".data
  · rw [if_pos h6] at h
    cases hp : ParseLumberjacks u ρe vs with
    | error e' =>
      simp only [hp, Except.error.injEq] at h
      rw [h]
      exact Or.inr ⟨h6, rfl⟩
    | ok ls =>
      simp only [hp] at h
      cases h
  rw [if_neg h6] at h
  cases h

theorem populateStandard_error_inv (u : Char → Char) (ρ : RangeOrder (List GoString))
    (ρl ρe : Nat → RangeOrder GoString) (c : Config) (values : GoMap (List GoString))
    (e : GoError) (h : c.populateStandardEncoderFromQS u ρ ρl ρe values = .error e) :
    rangeM (standardStep u ρl ρe) ⟨c, none, none⟩ (ρ values) = .error e := by
  unfold Config.populateStandardEncoderFromQS at h
  cases hr : rangeM (standardStep u ρl ρe) ⟨c, none, none⟩ (ρ values) with
  | error e' =>
    simp only [hr, Except.error.injEq] at h
    rw [h]
  | ok st =>
    simp only [hr] at h
    cases h

/-- The rotation list a console or json URI gets from one of its two
parameters. -/
theorem standard_rotation_field (u : Char → Char) (o : Orders) (url : URL) (ho : o.Valid)
    (c cfg : Config)
    (hp : c.populateStandardEncoderFromQS u o.encoder o.lumberjack o.errorLumberjack
      url.Query = .ok cfg)
    (hc1 : c.Lumberjacks = none) (hc2 : c.ErrorLumberjacks = none) :
    ParseLumberjacks u o.lumberjack (paramValues url.QueryPairs "lumberjack".data)
      = .ok cfg.Lumberjacks.elems ∧
    ParseLumberjacks u o.errorLumberjack (paramValues url.QueryPairs "errorLumberjack".data)
      = .ok cfg.ErrorLumberjacks.elems := by
  obtain ⟨_, hslj, hselj, _, _⟩ :=
    populateStandard_frame u o.encoder ho.2.1 o.lumberjack o.errorLumberjack url c cfg hp
  obtain ⟨st, hr, hcfg⟩ :=
    populateStandard_ok_inv u o.encoder o.lumberjack o.errorLumberjack c cfg url.Query hp
  have hnd := range_nodup url o.encoder ho.2.1
  constructor
  · cases hv : paramValues url.QueryPairs "lumberjack".data with
    | nil =>
      rw [hslj ((paramValues_eq_nil_iff _ _).1 hv), hc1]
      rfl
    | cons v rest =>
      have hmem := range_mem_of_param url o.encoder ho.2.1 _ v rest hv
      obtain ⟨st₀, st₁, h₀⟩ := rangeM_ok_mem (standardStep u o.lumberjack o.errorLumberjack)
        _ _ _ hr _ hmem
      obtain ⟨ls, hls, _⟩ := (standardStep_lumberjack u _ _ st₀ st₁ v rest).1 h₀
      have hL : st.cfg.Lumberjacks = some ls :=
        rangeM_set_by_key (standardStep u o.lumberjack o.errorLumberjack)
          (fun st => st.cfg.Lumberjacks) "lumberjack".data (v :: rest) (some ls) _ hnd hmem
          (fun st₂ st₃ hs => by
            obtain ⟨ls', hls', e'⟩ := (standardStep_lumberjack u _ _ st₂ st₃ v rest).1 hs
            rw [hls] at hls'
            show st₃.cfg.Lumberjacks = some ls
            rw [e', Except.ok.inj hls'])
          (fun e _ hne st₂ st₃ hs =>
            (standardStep_cases u _ _ st₂ st₃ e.1 e.2 hs).2.2.2.1 hne)
          _ _ hr
      have hcL : cfg.Lumberjacks = st.cfg.Lumberjacks := by rw [hcfg]
      rw [hls, hcL, hL]
      rfl
  · cases hv : paramValues url.QueryPairs "errorLumberjack".data with
    | nil =>
      rw [hselj ((paramValues_eq_nil_iff _ _).1 hv), hc2]
      rfl
    | cons v rest =>
      have hmem := range_mem_of_param url o.encoder ho.2.1 _ v rest hv
      obtain ⟨st₀, st₁, h₀⟩ := rangeM_ok_mem (standardStep u o.lumberjack o.errorLumberjack)
        _ _ _ hr _ hmem
      obtain ⟨ls, hls, _⟩ := (standardStep_lumberjack u _ _ st₀ st₁ v rest).2 h₀
      have hL : st.cfg.ErrorLumberjacks = some ls :=
        rangeM_set_by_key (standardStep u o.lumberjack o.errorLumberjack)
          (fun st => st.cfg.ErrorLumberjacks) "errorLumberjack".data (v :: rest) (some ls) _
          hnd hmem
          (fun st₂ st₃ hs => by
            obtain ⟨ls', hls', e'⟩ := (standardStep_lumberjack u _ _ st₂ st₃ v rest).2 hs
            rw [hls] at hls'
            show st₃.cfg.ErrorLumberjacks = some ls
            rw [e', Except.ok.inj hls'])
          (fun e _ hne st₂ st₃ hs =>
            (standardStep_cases u _ _ st₂ st₃ e.1 e.2 hs).2.2.2.2 hne)
          _ _ hr
      have hcL : cfg.ErrorLumberjacks = st.cfg.ErrorLumberjacks := by rw [hcfg]
      rw [hls, hcL, hL]
      rfl

/-- C15 as stated fails: for `logger:json?lumberjack=maxsize=x&development=maybe`
the call of `ParseLumberjacks` on the `lumberjack` values fails with the error
of `maxsize`, and `ParseConfigFromURI` returns another error, that of the
boolean `development`, which it reads first. -/
theorem ParseConfigFromURI_lumberjack_error_counterexample :
    ParseLumberjacks id (fun _ => id) ["maxsize=x".data]
      = .error (.withMessage (.numError ⟨"Atoi".data, "x".data, .ErrSyntax⟩)
          "lumberjack: error parsing maxsize".data) ∧
    ParseConfigFromURI id (fun _ => .ok 0) Orders.inOrder
        ⟨"logger".data, "json".data,
          [("lumberjack".data, "maxsize=x".data), ("development".data, "maybe".data)]⟩
      = .error (.withMessage (.numError ⟨"ParseBool".data, "maybe".data, .ErrSyntax⟩)
          "config: error parsing development".data) ∧
    ParseConfigFromURI id (fun _ => .ok 0) Orders.inOrder
        ⟨"logger".data, "json".data,
          [("lumberjack".data, "maxsize=x".data), ("development".data, "maybe".data)]⟩
      ≠ .error (.withMessage (.numError ⟨"Atoi".data, "x".data, .ErrSyntax⟩)
          "lumberjack: error parsing maxsize".data) := by
  decide

/-- C15, amended. For every console or json URI and every order of the ranges:
when `ParseConfigFromURI` returns a Configuration, its `Lumberjacks` holds the
configs `ParseLumberjacks` returns for all values of the `lumberjack` parameter
in query order, and its `ErrorLumberjacks` those for all values of
`errorLumberjack`; when one of the two `ParseLumberjacks` calls fails,
`ParseConfigFromURI` returns an error and no Configuration; and when the scheme
is `logger` and each of `development`, `disableCaller`, `disableStacktrace`
present holds a valid boolean, the error returned is the error of a failing
call: that error when only one of the two calls fails, the error of either
when both fail, and never any other error. -/
theorem ParseConfigFromURI_lumberjacks (u : Char → Char)
    (fp : GoString → Except GoError Priority) (o : Orders) (url : URL) (ho : o.Valid)
    (henc : url.Opaque = "console".data ∨ url.Opaque = "json".data) :
    (∀ cfg, ParseConfigFromURI u fp o url = .ok cfg →
      ParseLumberjacks u o.lumberjack (paramValues url.QueryPairs "lumberjack".data)
        = .ok cfg.Lumberjacks.elems ∧
      ParseLumberjacks u o.errorLumberjack
          (paramValues url.QueryPairs "errorLumberjack".data)
        = .ok cfg.ErrorLumberjacks.elems) ∧
    (∀ e,
      (ParseLumberjacks u o.lumberjack (paramValues url.QueryPairs "lumberjack".data)
          = .error e ∨
        ParseLumberjacks u o.errorLumberjack
          (paramValues url.QueryPairs "errorLumberjack".data) = .error e) →
      ∃ e', ParseConfigFromURI u fp o url = .error e' ∧
        (url.Scheme = "logger".data → commonParamsValid url.QueryPairs = true →
          ParseLumberjacks u o.lumberjack (paramValues url.QueryPairs "lumberjack".data)
              = .error e' ∨
            ParseLumberjacks u o.errorLumberjack
              (paramValues url.QueryPairs "errorLumberjack".data) = .error e')) ∧
    (url.Scheme = "logger".data → commonParamsValid url.QueryPairs = true →
      (∀ e,
        ParseLumberjacks u o.lumberjack (paramValues url.QueryPairs "lumberjack".data)
          = .error e →
        (∀ e₂, ParseLumberjacks u o.errorLumberjack
          (paramValues url.QueryPairs "errorLumberjack".data) ≠ .error e₂) →
        ParseConfigFromURI u fp o url = .error e) ∧
      (∀ e,
        ParseLumberjacks u o.errorLumberjack
          (paramValues url.QueryPairs "errorLumberjack".data) = .error e →
        (∀ e₁, ParseLumberjacks u o.lumberjack
          (paramValues url.QueryPairs "lumberjack".data) ≠ .error e₁) →
        ParseConfigFromURI u fp o url = .error e)) ∧
    (∀ e, ParseConfigFromURI u fp o url = .error e → url.Scheme = "logger".data →
      commonParamsValid url.QueryPairs = true →
      ParseLumberjacks u o.lumberjack (paramValues url.QueryPairs "lumberjack".data)
          = .error e ∨
        ParseLumberjacks u o.errorLumberjack
          (paramValues url.QueryPairs "errorLumberjack".data) = .error e) := by
  have part1 : ∀ cfg, ParseConfigFromURI u fp o url = .ok cfg →
      ParseLumberjacks u o.lumberjack (paramValues url.QueryPairs "lumberjack".data)
        = .ok cfg.Lumberjacks.elems ∧
      ParseLumberjacks u o.errorLumberjack
          (paramValues url.QueryPairs "errorLumberjack".data)
        = .ok cfg.ErrorLumberjacks.elems := by
    intro cfg h
    obtain ⟨_, config, hc, t, _, hp⟩ := ParseConfigFromURI_standard u fp o url cfg henc h
    obtain ⟨hc0, _, _, _⟩ := populateCommon_frame o.common ho.1 url _ config hc
    have hlj : config.Lumberjacks = none := by
      have h' := congrArg Config.Lumberjacks hc0
      exact h'
    have helj : config.ErrorLumberjacks = none := by
      have h' := congrArg Config.ErrorLumberjacks hc0
      exact h'
    exact standard_rotation_field u o url ho _ cfg hp hlj helj
  have part2 : ∀ e,
      (ParseLumberjacks u o.lumberjack (paramValues url.QueryPairs "lumberjack".data)
          = .error e ∨
        ParseLumberjacks u o.errorLumberjack
          (paramValues url.QueryPairs "errorLumberjack".data) = .error e) →
      ∃ e', ParseConfigFromURI u fp o url = .error e' := by
    intro e hfail
    cases hr : ParseConfigFromURI u fp o url with
    | error e' => exact ⟨e', rfl⟩
    | ok cfg =>
      obtain ⟨p1, p2⟩ := part1 cfg hr
      rcases hfail with hf | hf
      · rw [p1] at hf
        cases hf
      · rw [p2] at hf
        cases hf
  have part3 : ∀ e, ParseConfigFromURI u fp o url = .error e → url.Scheme = "logger".data →
      commonParamsValid url.QueryPairs = true →
      ParseLumberjacks u o.lumberjack (paramValues url.QueryPairs "lumberjack".data)
          = .error e ∨
        ParseLumberjacks u o.errorLumberjack
          (paramValues url.QueryPairs "errorLumberjack".data) = .error e := by
    intro e herr hs hv
    obtain ⟨config, hc⟩ := populateCommon_total o.common ho.1 url defaultConfig hv
    unfold ParseConfigFromURI at herr
    rw [if_neg (not_not.2 hs)] at herr
    simp only [hc] at herr
    have hstd : ∀ t : EncoderType,
        ({ config with EncoderType := t }).populateStandardEncoderFromQS u
          o.encoder o.lumberjack o.errorLumberjack url.Query = .error e →
        ParseLumberjacks u o.lumberjack (paramValues url.QueryPairs "lumberjack".data)
            = .error e ∨
          ParseLumberjacks u o.errorLumberjack
            (paramValues url.QueryPairs "errorLumberjack".data) = .error e := by
      intro t hp
      have hr := populateStandard_error_inv u _ _ _ _ _ e hp
      obtain ⟨e₀, he₀, st₀, h₀⟩ := rangeM_error_mem _ _ _ e hr
      have hvals := (range_mem_values url o.encoder ho.2.1 e₀ he₀).1
      rcases standardStep_error u _ _ st₀ e₀.1 e₀.2 e h₀ with ⟨hk, hpl⟩ | ⟨hk, hpl⟩
      · rw [hvals, hk] at hpl
        exact Or.inl hpl
      · rw [hvals, hk] at hpl
        exact Or.inr hpl
    rcases henc with hcons | hjson
    · rw [if_pos hcons] at herr
      exact hstd _ herr
    · have hne : ¬ url.Opaque = "console".data := by
        rw [hjson]
        decide
      rw [if_neg hne, if_pos hjson] at herr
      exact hstd _ herr
  refine ⟨part1, fun e hfail => ?_, fun hs hv => ⟨fun e hl hno => ?_, fun e hl hno => ?_⟩,
    part3⟩
  · obtain ⟨e', he'⟩ := part2 e hfail
    exact ⟨e', he', fun hs hv => part3 e' he' hs hv⟩
  · obtain ⟨e', he'⟩ := part2 e (Or.inl hl)
    rcases part3 e' he' hs hv with h3 | h3
    · rw [hl] at h3
      rw [he', ← Except.error.inj h3]
    · exact absurd h3 (hno e')
  · obtain ⟨e', he'⟩ := part2 e (Or.inr hl)
    rcases part3 e' he' hs hv with h3 | h3
    · exact absurd h3 (hno e')
    · rw [hl] at h3
      rw [he', ← Except.error.inj h3]

/-- C15, amended, at `logger:json?lumberjack=filename=a.log&lumberjack=maxsize=x`:
the error returned is the error of the failing `ParseLumberjacks` call. -/
theorem ParseConfigFromURI_lumberjacks_witness :
    ParseLumberjacks id (fun _ => id) ["filename=a.log".data, "maxsize=x".data]
      = .error (.withMessage (.numError ⟨"Atoi".data, "x".data, .ErrSyntax⟩)
          "lumberjack: error parsing maxsize".data) ∧
    ParseConfigFromURI id (fun _ => .ok 0) Orders.inOrder
        ⟨"logger".data, "json".data,
          [("lumberjack".data, "filename=a.log".data), ("lumberjack".data, "maxsize=x".data)]⟩
      = .error (.withMessage (.numError ⟨"Atoi".data, "x".data, .ErrSyntax⟩)
          "lumberjack: error parsing maxsize".data) := by
  have hl : ParseLumberjacks id (fun _ => id) ["filename=a.log".data, "maxsize=x".data]
      = .error (.withMessage (.numError ⟨"Atoi".data, "x".data, .ErrSyntax⟩)
          "lumberjack: error parsing maxsize".data) := by
    decide
  exact ⟨hl, ((ParseConfigFromURI_lumberjacks id (fun _ => .ok 0) Orders.inOrder
    ⟨"logger".data, "json".data,
      [("lumberjack".data, "filename=a.log".data), ("lumberjack".data, "maxsize=x".data)]⟩
    Orders.inOrder_valid (Or.inr rfl)).2.2.1 rfl (by decide)).1 _ hl
    (fun e₂ h => by
      have h' : (Except.ok [] : Except GoError (List LumberjackConfig)) = .error e₂ := h
      cases h')⟩

/-! ## C18, C19: the level flag and the Kingpin settings -/

theorem severityNames_unmarshal (u : Char → Char) (t : GoString) (ht : t ∈ severityNames) :
    ∃ l, Level.UnmarshalText u t = .ok l ∧ l.String = t := by
  unfold severityNames at ht
  simp only [List.mem_cons, List.mem_singleton, List.not_mem_nil, or_false] at ht
  rcases ht with h | h | h | h | h | h | h
  · exact ⟨.DebugLevel, by rw [h]; rfl, by rw [h]; rfl⟩
  · exact ⟨.InfoLevel, by rw [h]; rfl, by rw [h]; rfl⟩
  · exact ⟨.WarnLevel, by rw [h]; rfl, by rw [h]; rfl⟩
  · exact ⟨.ErrorLevel, by rw [h]; rfl, by rw [h]; rfl⟩
  · exact ⟨.DPanicLevel, by rw [h]; rfl, by rw [h]; rfl⟩
  · exact ⟨.PanicLevel, by rw [h]; rfl, by rw [h]; rfl⟩
  · exact ⟨.FatalLevel, by rw [h]; rfl, by rw [h]; rfl⟩

theorem baseLoggerLevel_unmarshal (u : Char → Char) (cur : Level) (t : GoString)
    (ht : t ∈ severityNames) :
    ∃ l, baseLoggerLevelUnmarshalText u cur t = (l, none) ∧ l.String = t := by
  obtain ⟨l, hl, hs⟩ := severityNames_unmarshal u t ht
  refine ⟨l, ?_, hs⟩
  unfold baseLoggerLevelUnmarshalText
  rw [hl]

/-- C18 as stated fails: on the flag `levelFlag("info")` that `AddFlags`
registers, `Set("debug")` succeeds and leaves the shared threshold at debug,
and the flag's `String()` is still `info`, not `debug`. -/
theorem levelFlag_String_counterexample :
    levelFlag.Set id "info".data .InfoLevel "debug".data = (.DebugLevel, none) ∧
    levelFlag.String "info".data = "info".data ∧
    levelFlag.String "info".data ≠ "debug".data := by
  decide

/-- C18, amended. For every severity name `t` among debug, info, warn, error,
dpanic, panic and fatal, every level flag and every threshold held before:
`Set(t)` on the flag succeeds and leaves the shared base threshold at the level
whose `String()` is `t`, and the flag's own `String()` is the text the flag was
made with. -/
theorem levelFlag_Set_threshold (u : Char → Char) (f : levelFlag) (cur : Level)
    (t : GoString) (ht : t ∈ severityNames) :
    (∃ l, levelFlag.Set u f cur t = (l, none) ∧ l.String = t) ∧
    levelFlag.String f = f := by
  refine ⟨?_, rfl⟩
  unfold levelFlag.Set
  exact baseLoggerLevel_unmarshal u cur t ht

/-- C18, amended, at the flag `levelFlag("info")` and `Set("warn")`. -/
theorem levelFlag_Set_threshold_witness :
    "warn".data ∈ severityNames ∧
    ((∃ l, levelFlag.Set id "info".data .InfoLevel "warn".data = (l, none) ∧
        l.String = "warn".data) ∧
      levelFlag.String "info".data = "info".data) :=
  ⟨by decide, levelFlag_Set_threshold id "info".data .InfoLevel "warn".data (by decide)⟩

/-- C19. For every lower-case severity name `t` among debug, info, warn, error,
dpanic, panic and fatal, every format URI that `ParseConfigFromURI` parses into
a Configuration `c` and that `Build` builds into a logger `l`, and every state
of the package: `apply` on the settings with level `t` and that format returns
no error (`nil`), installs `l` as the global logger, and leaves the shared base
threshold at the level whose `String()` is `t`. -/
theorem apply_sets_level (u : Char → Char) (fp : GoString → Except GoError Priority)
    (o : Orders) (w : Env) (s : loggerSettings) (st : PackageState) (c : Config) (l : Logger)
    (ht : s.level ∈ severityNames)
    (hparse : ParseConfigFromURI u fp o s.format = .ok c)
    (hbuild : (c.Build w []).2 = .ok l) :
    ∃ st₁, s.apply u fp o w st = some (st₁, none) ∧
      st₁.baseLevel.String = s.level ∧
      st₁.globals.globalL = some l := by
  obtain ⟨lvl, hl, hs⟩ := baseLoggerLevel_unmarshal u st.baseLevel s.level ht
  refine ⟨⟨⟨some l, some (l.WithAddCallerSkip quickLDepth), some l.Sugar, some l,
    some l.Sugar⟩, lvl⟩, ?_, hs, rfl⟩
  unfold loggerSettings.apply
  simp only [hparse, hbuild, ReplaceGlobals_some, hl]

/-- C19, at the command line of `TestAddKingpinFlags`: level `debug` and format
`logger:console?outputPaths=stderr`, on a package state at level info. -/
theorem apply_sets_level_witness :
    ∃ st₁,
      loggerSettings.apply id (fun _ => .ok 0) Orders.inOrder Env.allOk
          ⟨"debug".data, ⟨"logger".data, "console".data,
            [("outputPaths".data, "stderr".data)]⟩⟩
          ⟨⟨none, none, none, none, none⟩, .InfoLevel⟩ = some (st₁, none) ∧
      st₁.baseLevel.String = "debug".data ∧
      st₁.globals.globalL = some ⟨2, 0⟩ :=
  apply_sets_level id (fun _ => .ok 0) Orders.inOrder Env.allOk
    ⟨"debug".data, ⟨"logger".data, "console".data, [("outputPaths".data, "stderr".data)]⟩⟩
    ⟨⟨none, none, none, none, none⟩, .InfoLevel⟩
    { defaultConfig with EncoderType := ConsoleEncoder, OutputPaths := some ["stderr".data] }
    ⟨2, 0⟩ (by decide) (by decide) (by decide)

/-! ## C21, C22: the standard sinks -/

theorem openStandardSinks_eq (w : Env) (cfg : Config) :
    cfg.openStandardSinks w
      = match w.Open 0 cfg.outputPathsOrDefault.elems with
        | some err => ([.open cfg.outputPathsOrDefault.elems], .error err)
        | none =>
          match w.Open 1 cfg.errorOutputPathsOrDefault.elems with
          | some err =>
            ([.open cfg.outputPathsOrDefault.elems, .open cfg.errorOutputPathsOrDefault.elems,
              .close cfg.outputPathsOrDefault.elems], .error err)
          | none =>
            ([.open cfg.outputPathsOrDefault.elems, .open cfg.errorOutputPathsOrDefault.elems],
              .ok (.opened cfg.outputPathsOrDefault.elems,
                .opened cfg.errorOutputPathsOrDefault.elems)) := rfl

/-- What `Build` does to the outside for a console or json Configuration whose
standard sinks fail to open is what `openStandardSinks` did. -/
theorem Build_standard_error (w : Env) (cfg : Config) (opts : List ZapOption)
    (tr : List Event) (e : GoError)
    (ht : cfg.EncoderType = JSONEncoder ∨ cfg.EncoderType = ConsoleEncoder)
    (h : cfg.openStandardSinks w = (tr, .error e)) :
    cfg.Build w opts = (tr, .error e) := by
  have hs : cfg.openSinks w = (tr, .error e) := by
    unfold Config.openSinks
    rw [if_pos ht, h]
  unfold Config.Build Config.buildArgs Config.buildEncoder
  rcases ht with ht | ht
  · rw [hs, ht, if_pos rfl]
  · rw [hs, ht, if_neg (by decide), if_pos rfl]

theorem parsed_defaults (u : Char → Char) (fp : GoString → Except GoError Priority)
    (o : Orders) (url : URL) (cfg : Config) (ho : o.Valid)
    (henc : url.Opaque = "console".data ∨ url.Opaque = "json".data)
    (h : ParseConfigFromURI u fp o url = .ok cfg) :
    cfg.defaultOutputPaths = some ["stderr".data] ∧
    cfg.defaultErrorOutputPaths = some ["stderr".data] := by
  obtain ⟨_, config, hc, t, _, hp⟩ := ParseConfigFromURI_standard u fp o url cfg henc h
  obtain ⟨hc0, _⟩ := populateCommon_frame o.common ho.1 url _ config hc
  obtain ⟨hp0, _⟩ :=
    populateStandard_frame u o.encoder ho.2.1 o.lumberjack o.errorLumberjack url _ cfg hp
  have a1 : cfg.defaultOutputPaths = config.defaultOutputPaths := by
    have h' := congrArg Config.defaultOutputPaths hp0
    exact h'
  have a2 : config.defaultOutputPaths = defaultConfig.defaultOutputPaths := by
    have h' := congrArg Config.defaultOutputPaths hc0
    exact h'
  have b1 : cfg.defaultErrorOutputPaths = config.defaultErrorOutputPaths := by
    have h' := congrArg Config.defaultErrorOutputPaths hp0
    exact h'
  have b2 : config.defaultErrorOutputPaths = defaultConfig.defaultErrorOutputPaths := by
    have h' := congrArg Config.defaultErrorOutputPaths hc0
    exact h'
  exact ⟨a1.trans (a2.trans rfl), b1.trans (b2.trans rfl)⟩

/-- C21. At the Configuration of the Go literal
`Config{Level: baseLoggerLevel, DisableCaller: true}`, a json Configuration
with no output paths and no error output paths, `openStandardSinks` opens the
empty list twice and `Build` goes on to make a logger over these sinks, where
the claim and the docstring of `ErrorOutputPaths` say standard error. -/
theorem openStandardSinks_literal :
    literalConfig.EncoderType = JSONEncoder ∧ literalConfig.OutputPaths = none ∧
    literalConfig.ErrorOutputPaths = none ∧
    literalConfig.openStandardSinks Env.allOk
      = ([.open [], .open []], .ok (.opened [], .opened [])) ∧
    literalConfig.Build Env.allOk [] = ([.open [], .open []], .ok ⟨2, 0⟩) := by
  decide

/-- The fallback of `openStandardSinks`: with `OutputPaths` `nil` the first
list opened is the field `defaultOutputPaths`, and with `ErrorOutputPaths`
`nil` the second, once the first is open, is `defaultErrorOutputPaths`. -/
theorem openStandardSinks_fallback (w : Env) (cfg : Config) :
    (cfg.OutputPaths = none →
      ∃ rest, (cfg.openStandardSinks w).1 = .open cfg.defaultOutputPaths.elems :: rest) ∧
    (cfg.ErrorOutputPaths = none → w.Open 0 cfg.outputPathsOrDefault.elems = none →
      ∃ rest, (cfg.openStandardSinks w).1
        = .open cfg.outputPathsOrDefault.elems
            :: .open cfg.defaultErrorOutputPaths.elems :: rest) := by
  constructor
  · intro h
    have hq : cfg.outputPathsOrDefault = cfg.defaultOutputPaths := by
      unfold Config.outputPathsOrDefault
      rw [h]
    rw [openStandardSinks_eq, hq]
    cases w.Open 0 cfg.defaultOutputPaths.elems with
    | some err => exact ⟨_, rfl⟩
    | none =>
      cases w.Open 1 cfg.errorOutputPathsOrDefault.elems with
      | some err => exact ⟨_, rfl⟩
      | none => exact ⟨_, rfl⟩
  · intro h h0
    have hq : cfg.errorOutputPathsOrDefault = cfg.defaultErrorOutputPaths := by
      unfold Config.errorOutputPathsOrDefault
      rw [h]
    rw [openStandardSinks_eq, hq, h0]
    cases w.Open 1 cfg.defaultErrorOutputPaths.elems with
    | some err => exact ⟨_, rfl⟩
    | none => exact ⟨_, rfl⟩

/-- Where the fallback is standard error: in every Configuration
`ParseConfigFromURI` returns for a console or json URI the two default lists
are `["stderr"]`, and `openStandardSinks` opens `["stderr"]` as the primary
outputs when the query names no output path, and as the error outputs, once
the primary outputs are open, when it names no error output path. -/
theorem openStandardSinks_parsed (w : Env) (cfg : Config) (u : Char → Char)
    (fp : GoString → Except GoError Priority) (o : Orders) (url : URL) (ho : o.Valid)
    (henc : url.Opaque = "console".data ∨ url.Opaque = "json".data)
    (h : ParseConfigFromURI u fp o url = .ok cfg) :
    (¬ hasParam url.QueryPairs "outputPath".data →
      ¬ hasParam url.QueryPairs "outputPaths".data →
      ∃ rest, (cfg.openStandardSinks w).1 = .open ["stderr".data] :: rest) ∧
    (¬ hasParam url.QueryPairs "errorOutputPath".data →
      ¬ hasParam url.QueryPairs "errorOutputPaths".data →
      w.Open 0 cfg.outputPathsOrDefault.elems = none →
      ∃ rest, (cfg.openStandardSinks w).1
        = .open cfg.outputPathsOrDefault.elems :: .open ["stderr".data] :: rest) := by
  obtain ⟨hd, hde⟩ := parsed_defaults u fp o url cfg ho henc h
  obtain ⟨_, config, _, t, _, hp⟩ := ParseConfigFromURI_standard u fp o url cfg henc h
  obtain ⟨_, _, _, hout, herr⟩ :=
    populateStandard_frame u o.encoder ho.2.1 o.lumberjack o.errorLumberjack url _ cfg hp
  obtain ⟨p1, p2⟩ := openStandardSinks_fallback w cfg
  refine ⟨fun a b => ?_, fun a b h0 => ?_⟩
  · obtain ⟨rest, hr⟩ := p1 (hout a b)
    rw [hd] at hr
    exact ⟨rest, hr⟩
  · obtain ⟨rest, hr⟩ := p2 (herr a b) h0
    rw [hde] at hr
    exact ⟨rest, hr⟩

/-- C22. For every Configuration and every outside in which opening the primary
output paths succeeds and opening the error output paths then fails with `e`:
`openStandardSinks` opens the primary set, tries the error set, calls the close
function of the primary set and returns `e` with no sinks; `Build`, for a
console or json Configuration, then returns `e` and no logger, having done
nothing more. -/
theorem openStandardSinks_closes (w : Env) (cfg : Config) (e : GoError)
    (h0 : w.Open 0 cfg.outputPathsOrDefault.elems = none)
    (h1 : w.Open 1 cfg.errorOutputPathsOrDefault.elems = some e) :
    cfg.openStandardSinks w
      = ([.open cfg.outputPathsOrDefault.elems, .open cfg.errorOutputPathsOrDefault.elems,
          .close cfg.outputPathsOrDefault.elems], .error e) ∧
    (cfg.EncoderType = JSONEncoder ∨ cfg.EncoderType = ConsoleEncoder →
      ∀ opts, cfg.Build w opts
        = ([.open cfg.outputPathsOrDefault.elems, .open cfg.errorOutputPathsOrDefault.elems,
            .close cfg.outputPathsOrDefault.elems], .error e)) := by
  have hs : cfg.openStandardSinks w
      = ([.open cfg.outputPathsOrDefault.elems, .open cfg.errorOutputPathsOrDefault.elems,
          .close cfg.outputPathsOrDefault.elems], .error e) := by
    rw [openStandardSinks_eq, h0, h1]
  exact ⟨hs, fun ht opts => Build_standard_error w cfg opts _ e ht hs⟩

/-- C22, at `OutputPaths` `["app.log"]` and the default error paths, when the
second `zap.Open` fails. -/
theorem openStandardSinks_closes_witness :
    ({ defaultConfig with OutputPaths := some ["app.log".data] } : Config).openStandardSinks
        Env.secondOpenFails
      = ([.open ["app.log".data], .open ["stderr".data], .close ["app.log".data]],
          .error (.external "open /var/log/err: denied".data)) :=
  (openStandardSinks_closes Env.secondOpenFails
    { defaultConfig with OutputPaths := some ["app.log".data] }
    (.external "open /var/log/err: denied".data) (by decide) (by decide)).1

/-! ## C25: a failing `apply` leaves the global logger as it was -/

/-- The level parser rejects a text exactly when neither the text nor its
lower-case form is one of the spellings of its `switch`. -/
theorem UnmarshalText_error_iff (u : Char → Char) (t : GoString) :
    (∃ e, Level.UnmarshalText u t = .error e) ↔
      Level.unmarshalText t = none ∧ Level.unmarshalText (ToLower u t) = none := by
  unfold Level.UnmarshalText
  cases h1 : Level.unmarshalText t with
  | some l => simp
  | none =>
    cases h2 : Level.unmarshalText (ToLower u t) with
    | some l => simp
    | none => simp

/-- The empty text and the upper-case names are level texts the parser accepts. -/
theorem UnmarshalText_accepts_more (u : Char → Char) :
    Level.UnmarshalText u [] = .ok .InfoLevel ∧
    Level.UnmarshalText u "WARN".data = .ok .WarnLevel :=
  ⟨rfl, rfl⟩

theorem baseLoggerLevel_rejected (u : Char → Char) (cur : Level) (t : GoString) (e : GoError)
    (h : Level.UnmarshalText u t = .error e) :
    baseLoggerLevelUnmarshalText u cur t = (cur, some e) := by
  unfold baseLoggerLevelUnmarshalText
  rw [h]

theorem toLowerRune_not_capital (u : Char → Char)
    (hu : ∀ c : Char, 128 ≤ c.toNat → isCapital (u c) = false) (c : Char) :
    isCapital (toLowerRune u c) = false := by
  unfold toLowerRune
  by_cases h1 : c.toNat < 128
  · rw [if_pos h1]
    by_cases h2 : 65 ≤ c.toNat ∧ c.toNat ≤ 90
    · rw [if_pos h2]
      obtain ⟨a, b⟩ := h2
      clear h1
      generalize c.toNat = n at a b
      interval_cases n <;> decide
    · rw [if_neg h2]
      unfold isCapital
      exact decide_eq_false h2
  · rw [if_neg h1]
    exact hu c (Nat.le_of_not_lt h1)

theorem ToLower_not_capital (u : Char → Char)
    (hu : ∀ c : Char, 128 ≤ c.toNat → isCapital (u c) = false) (t : GoString) :
    startsWithCapital (ToLower u t) = false := by
  cases t with
  | nil => rfl
  | cons c t => exact toLowerRune_not_capital u hu c

theorem unmarshalText_none (x : GoString) (h0 : x ≠ []) (h1 : x ∉ severityNames)
    (h2 : x ∉ severityNamesUpper) : Level.unmarshalText x = none := by
  have a : ∀ n, n ∈ severityNames → ¬ x = n := fun n hn e => h1 (e ▸ hn)
  have b : ∀ n, n ∈ severityNamesUpper → ¬ x = n := fun n hn e => h2 (e ▸ hn)
  unfold Level.unmarshalText
  rw [if_neg (fun h => h.elim (a _ (by decide)) (b _ (by decide))),
    if_neg (fun h => h.elim (a _ (by decide)) (fun h' => h'.elim (b _ (by decide)) h0)),
    if_neg (fun h => h.elim (a _ (by decide)) (b _ (by decide))),
    if_neg (fun h => h.elim (a _ (by decide)) (b _ (by decide))),
    if_neg (fun h => h.elim (a _ (by decide)) (b _ (by decide))),
    if_neg (fun h => h.elim (a _ (by decide)) (b _ (by decide))),
    if_neg (fun h => h.elim (a _ (by decide)) (b _ (by decide)))]

theorem ToLower_of_name (u : Char → Char) (t : GoString)
    (h : t ∈ severityNames ∨ t ∈ severityNamesUpper) : ToLower u t ∈ severityNames := by
  unfold severityNames severityNamesUpper at h
  simp only [List.mem_cons, List.mem_singleton, List.not_mem_nil, or_false] at h
  rcases h with (h | h | h | h | h | h | h) | (h | h | h | h | h | h | h)
  · subst h
    exact (by decide : "debug".data ∈ severityNames)
  · subst h
    exact (by decide : "info".data ∈ severityNames)
  · subst h
    exact (by decide : "warn".data ∈ severityNames)
  · subst h
    exact (by decide : "error".data ∈ severityNames)
  · subst h
    exact (by decide : "dpanic".data ∈ severityNames)
  · subst h
    exact (by decide : "panic".data ∈ severityNames)
  · subst h
    exact (by decide : "fatal".data ∈ severityNames)
  · subst h
    exact (by decide : "debug".data ∈ severityNames)
  · subst h
    exact (by decide : "info".data ∈ severityNames)
  · subst h
    exact (by decide : "warn".data ∈ severityNames)
  · subst h
    exact (by decide : "error".data ∈ severityNames)
  · subst h
    exact (by decide : "dpanic".data ∈ severityNames)
  · subst h
    exact (by decide : "panic".data ∈ severityNames)
  · subst h
    exact (by decide : "fatal".data ∈ severityNames)

/-- The level parser rejects every text that is not empty and whose lower-case
form is none of the seven names, when the case tables give no ASCII capital. -/
theorem UnmarshalText_rejects (u : Char → Char)
    (hu : ∀ c : Char, 128 ≤ c.toNat → isCapital (u c) = false) (t : GoString)
    (h0 : t ≠ []) (hl : ToLower u t ∉ severityNames) :
    Level.UnmarshalText u t = .error (.unrecognizedLevel t) := by
  have hup : ∀ x : GoString, startsWithCapital x = false → x ∉ severityNamesUpper := by
    intro x hx hm
    unfold severityNamesUpper at hm
    simp only [List.mem_cons, List.mem_singleton, List.not_mem_nil, or_false] at hm
    rcases hm with h | h | h | h | h | h | h
    all_goals (subst h; revert hx; decide)
  have h1 : t ∉ severityNames := fun h => hl (ToLower_of_name u t (Or.inl h))
  have h2 : t ∉ severityNamesUpper := fun h => hl (ToLower_of_name u t (Or.inr h))
  have h3 : ToLower u t ≠ [] := by
    cases t with
    | nil => exact absurd rfl h0
    | cons c t => exact List.cons_ne_nil _ _
  have h4 : ToLower u t ∉ severityNamesUpper := hup _ (ToLower_not_capital u hu t)
  unfold Level.UnmarshalText
  rw [unmarshalText_none t h0 h1 h2, unmarshalText_none _ h3 hl h4]

/-- C25 as stated fails: the empty level text is no severity name, and with it
and the format `logger:console?outputPaths=stderr`, on a state where logger 0
is installed, `apply` returns no error, the built logger stays installed and
the threshold becomes info. -/
theorem apply_empty_level_counterexample :
    ([] : GoString) ∉ severityNames ∧
    loggerSettings.apply id (fun _ => .ok 0) Orders.inOrder Env.allOk
        ⟨[], ⟨"logger".data, "console".data, [("outputPaths".data, "stderr".data)]⟩⟩
        ⟨⟨some ⟨0, 0⟩, some ⟨0, 1⟩, some ⟨⟨0, 2⟩⟩, some ⟨0, 0⟩, some ⟨⟨0, 2⟩⟩⟩, .WarnLevel⟩
      = some (⟨⟨some ⟨2, 0⟩, some ⟨2, 1⟩, some ⟨⟨2, 2⟩⟩, some ⟨2, 0⟩, some ⟨⟨2, 2⟩⟩⟩,
          .InfoLevel⟩, none) := by
  decide

/-- C25, amended. For every settings value and package state: when the format
URI parses and builds and the level text is one the level parser rejects with
`e` (which it does, with the unrecognized-level error, for every text that is
not empty and whose lower-case form is none of the seven names), on a state
with a logger `l₀` installed, `apply` returns `e`, and afterwards `L()` is
`l₀`, the skip-one-frame logger and `S()` are the variants derived from `l₀`
(the very triple of before when that one was derived from `l₀`), and the
threshold is untouched; when the format URI fails to parse, or parses and fails
to build, `apply` returns that error and the package state is the one of
before, no logger having been installed. -/
theorem apply_failure_restores (u : Char → Char) (fp : GoString → Except GoError Priority)
    (o : Orders) (w : Env) (s : loggerSettings) (st : PackageState) :
    (∀ c l e l₀ z₀, ParseConfigFromURI u fp o s.format = .ok c → (c.Build w []).2 = .ok l →
      Level.UnmarshalText u s.level = .error e →
      st.globals.globalL = some l₀ → st.globals.zapL = some z₀ →
      ∃ st₁, s.apply u fp o w st = some (st₁, some e) ∧
        L st₁.globals = some l₀ ∧ st₁.globals.DerivedFrom l₀ ∧
        st₁.baseLevel = st.baseLevel ∧
        (st.globals.DerivedFrom l₀ →
          st₁.globals.globalL = st.globals.globalL ∧
          st₁.globals.globalQuickL = st.globals.globalQuickL ∧
          st₁.globals.globalS = st.globals.globalS)) ∧
    ((∀ c : Char, 128 ≤ c.toNat → isCapital (u c) = false) → s.level ≠ [] →
      ToLower u s.level ∉ severityNames →
      Level.UnmarshalText u s.level = .error (.unrecognizedLevel s.level)) ∧
    (∀ e, ParseConfigFromURI u fp o s.format = .error e →
      s.apply u fp o w st = some (st, some e)) ∧
    (∀ c e, ParseConfigFromURI u fp o s.format = .ok c → (c.Build w []).2 = .error e →
      s.apply u fp o w st = some (st, some e)) := by
  refine ⟨?_, fun hu h0 hl => UnmarshalText_rejects u hu s.level h0 hl, ?_, ?_⟩
  · intro c l e l₀ z₀ hparse hbuild hrej hL hz
    have hlvl := baseLoggerLevel_rejected u st.baseLevel s.level e hrej
    refine ⟨⟨⟨some l₀, some (l₀.WithAddCallerSkip quickLDepth), some l₀.Sugar, some l₀,
      some l₀.Sugar⟩, st.baseLevel⟩, ?_, rfl, ⟨rfl, rfl⟩, rfl, ?_⟩
    · unfold loggerSettings.apply
      simp only [hparse, hbuild, ReplaceGlobals_some, hlvl, hL, hz, RevertFunc.call_some]
    · intro hder
      exact ⟨hL.symm, hder.1.symm, hder.2.symm⟩
  · intro e hparse
    unfold loggerSettings.apply
    simp only [hparse]
  · intro c e hparse hbuild
    unfold loggerSettings.apply
    simp only [hparse, hbuild]

/-- C25, amended, at level `verbose` and format
`logger:console?outputPaths=stderr`, on a state where logger 0 is installed:
the error is the parser's and `L()` is logger 0 again. -/
theorem apply_failure_restores_witness :
    ∃ st₁,
      loggerSettings.apply id (fun _ => .ok 0) Orders.inOrder Env.allOk
          ⟨"verbose".data, ⟨"logger".data, "console".data,
            [("outputPaths".data, "stderr".data)]⟩⟩
          ⟨⟨some ⟨0, 0⟩, some ⟨0, 1⟩, some ⟨⟨0, 2⟩⟩, some ⟨0, 0⟩, some ⟨⟨0, 2⟩⟩⟩, .WarnLevel⟩
        = some (st₁, some (.unrecognizedLevel "verbose".data)) ∧
      L st₁.globals = some ⟨0, 0⟩ ∧ st₁.baseLevel = .WarnLevel := by
  obtain ⟨st₁, h1, h2, _, h4, _⟩ :=
    (apply_failure_restores id (fun _ => .ok 0) Orders.inOrder Env.allOk
      ⟨"verbose".data, ⟨"logger".data, "console".data, [("outputPaths".data, "stderr".data)]⟩⟩
      ⟨⟨some ⟨0, 0⟩, some ⟨0, 1⟩, some ⟨⟨0, 2⟩⟩, some ⟨0, 0⟩, some ⟨⟨0, 2⟩⟩⟩, .WarnLevel⟩).1
      { defaultConfig with EncoderType := ConsoleEncoder, OutputPaths := some ["stderr".data] }
      ⟨2, 0⟩ (.unrecognizedLevel "verbose".data) ⟨0, 0⟩ ⟨0, 0⟩
      (by decide) (by decide) (by decide) rfl rfl
  exact ⟨st₁, h1, h2, h4⟩

/-! ## C24: the order of the destination lists -/

/-- A loop that appends under two keys, ranged over a map that holds both: the
values of one key are appended, then those of the other, in the order the range
meets the two keys. -/
theorem foldl_two_keys_both {τ : Type} (k₁ k₂ : GoString) (hne : k₁ ≠ k₂)
    (f₁ f₂ : List GoString → τ → τ) (es : GoMap (List GoString)) (x : τ)
    (hn : (es.map Prod.fst).Nodup) (v₁ v₂ : List GoString)
    (h₁ : (k₁, v₁) ∈ es) (h₂ : (k₂, v₂) ∈ es) :
    es.foldl (fun x e => if e.1 = k₁ then f₁ e.2 x else if e.1 = k₂ then f₂ e.2 x else x) x
        = f₂ v₂ (f₁ v₁ x) ∨
    es.foldl (fun x e => if e.1 = k₁ then f₁ e.2 x else if e.1 = k₂ then f₂ e.2 x else x) x
        = f₁ v₁ (f₂ v₂ x) := by
  induction es generalizing x with
  | nil => exact absurd h₁ (List.not_mem_nil _)
  | cons e es ih =>
    obtain ⟨k, v⟩ := e
    simp only [List.map_cons, List.nodup_cons] at hn
    obtain ⟨hk, hn'⟩ := hn
    have hkey : ∀ k' v', (k', v') ∈ es → k' ≠ k := by
      intro k' v' hm hk'
      exact hk (hk' ▸ List.mem_map_of_mem Prod.fst hm)
    rw [List.foldl_cons]
    by_cases hk1 : k = k₁
    · left
      have hv : v = v₁ := by
        rcases List.mem_cons.1 h₁ with h | h
        · exact (Prod.mk.inj h).2.symm
        · exact absurd hk1.symm (hkey _ _ h)
      have h₂' : (k₂, v₂) ∈ es := by
        rcases List.mem_cons.1 h₂ with h | h
        · exact absurd (hk1.symm.trans (Prod.mk.inj h).1.symm).symm hne.symm
        · exact h
      have step : (if (k, v).1 = k₁ then f₁ (k, v).2 x
          else if (k, v).1 = k₂ then f₂ (k, v).2 x else x) = f₁ v₁ x := by
        rw [if_pos hk1, hv]
      rw [step]
      rw [foldl_congr_mem
        (fun k v y => if k = k₁ then f₁ v y else if k = k₂ then f₂ v y else y)
        (fun k v y => if k = k₂ then f₂ v y else y) es (f₁ v₁ x)
        (fun e he y => by
          have hk' : e.1 ≠ k₁ := fun h => hkey e.1 e.2 he (h.trans hk1.symm)
          simp only [hk', if_false])]
      rw [foldl_single_key k₂ f₂ es (f₁ v₁ x) hn', (GoMap.get_eq_some_iff es hn' k₂ v₂).2 h₂']
    · by_cases hk2 : k = k₂
      · right
        have hv : v = v₂ := by
          rcases List.mem_cons.1 h₂ with h | h
          · exact (Prod.mk.inj h).2.symm
          · exact absurd hk2.symm (hkey _ _ h)
        have h₁' : (k₁, v₁) ∈ es := by
          rcases List.mem_cons.1 h₁ with h | h
          · exact absurd (Prod.mk.inj h).1.symm hk1
          · exact h
        have step : (if (k, v).1 = k₁ then f₁ (k, v).2 x
            else if (k, v).1 = k₂ then f₂ (k, v).2 x else x) = f₂ v₂ x := by
          rw [if_neg hk1, if_pos hk2, hv]
        rw [step]
        rw [foldl_congr_mem
          (fun k v y => if k = k₁ then f₁ v y else if k = k₂ then f₂ v y else y)
          (fun k v y => if k = k₁ then f₁ v y else y) es (f₂ v₂ x)
          (fun e he y => by
            have hk' : e.1 ≠ k₂ := fun h => hkey e.1 e.2 he (h.trans hk2.symm)
            simp only [hk', if_false])]
        rw [foldl_single_key k₁ f₁ es (f₂ v₂ x) hn', (GoMap.get_eq_some_iff es hn' k₁ v₁).2 h₁']
      · have step : (if (k, v).1 = k₁ then f₁ (k, v).2 x
            else if (k, v).1 = k₂ then f₂ (k, v).2 x else x) = x := by
          rw [if_neg hk1, if_neg hk2]
        rw [step]
        have h₁' : (k₁, v₁) ∈ es := by
          rcases List.mem_cons.1 h₁ with h | h
          · exact absurd (Prod.mk.inj h).1.symm hk1
          · exact h
        have h₂' : (k₂, v₂) ∈ es := by
          rcases List.mem_cons.1 h₂ with h | h
          · exact absurd (Prod.mk.inj h).1.symm hk2
          · exact h
        exact ih x hn' h₁' h₂'

/-- The two-key loop over the query map of a URL, in every order of the range:
with one key absent the result is that of the other key's values; with both
present it is one of the two compositions. -/
theorem range_two_keys {τ : Type} (k₁ k₂ : GoString) (hne : k₁ ≠ k₂)
    (f₁ f₂ : List GoString → τ → τ) (url : URL) (ρ : RangeOrder (List GoString))
    (hρ : ρ.Valid) (x : τ) (hf₁ : ∀ y, f₁ [] y = y) (hf₂ : ∀ y, f₂ [] y = y) :
    (¬ hasParam url.QueryPairs k₁ →
      (ρ url.Query).foldl
          (fun x e => if e.1 = k₁ then f₁ e.2 x else if e.1 = k₂ then f₂ e.2 x else x) x
        = f₂ (paramValues url.QueryPairs k₂) x) ∧
    (¬ hasParam url.QueryPairs k₂ →
      (ρ url.Query).foldl
          (fun x e => if e.1 = k₁ then f₁ e.2 x else if e.1 = k₂ then f₂ e.2 x else x) x
        = f₁ (paramValues url.QueryPairs k₁) x) ∧
    (hasParam url.QueryPairs k₁ → hasParam url.QueryPairs k₂ →
      (ρ url.Query).foldl
          (fun x e => if e.1 = k₁ then f₁ e.2 x else if e.1 = k₂ then f₂ e.2 x else x) x
        = f₂ (paramValues url.QueryPairs k₂) (f₁ (paramValues url.QueryPairs k₁) x) ∨
      (ρ url.Query).foldl
          (fun x e => if e.1 = k₁ then f₁ e.2 x else if e.1 = k₂ then f₂ e.2 x else x) x
        = f₁ (paramValues url.QueryPairs k₁) (f₂ (paramValues url.QueryPairs k₂) x)) := by
  refine ⟨fun h => foldl_two_keys_first_absent k₁ k₂ f₁ f₂ url ρ hρ x hf₂ h,
    fun h => foldl_two_keys_second_absent k₁ k₂ f₁ f₂ url ρ hρ x hf₁ h, fun h1 h2 => ?_⟩
  have hmem : ∀ k, hasParam url.QueryPairs k →
      (k, paramValues url.QueryPairs k) ∈ ρ url.Query := by
    intro k hk
    cases hv : paramValues url.QueryPairs k with
    | nil => exact absurd hk ((paramValues_eq_nil_iff _ _).1 hv)
    | cons v rest => exact range_mem_of_param url ρ hρ k v rest hv
  exact foldl_two_keys_both k₁ k₂ hne f₁ f₂ (ρ url.Query) x (range_nodup url ρ hρ) _ _
    (hmem k₁ h1) (hmem k₂ h2)

/-- The two destination lists of a console or json URI, in every order of the
ranges. -/
theorem standard_paths_value (u : Char → Char) (fp : GoString → Except GoError Priority)
    (o : Orders) (url : URL) (cfg : Config) (ho : o.Valid)
    (henc : url.Opaque = "console".data ∨ url.Opaque = "json".data)
    (h : ParseConfigFromURI u fp o url = .ok cfg) :
    ((¬ hasParam url.QueryPairs "outputPath".data →
        cfg.OutputPaths = appendStringsFromCommaSeparatedStrings none
          (paramValues url.QueryPairs "outputPaths".data)) ∧
      (¬ hasParam url.QueryPairs "outputPaths".data →
        cfg.OutputPaths = appendStringsFromStrings none
          (paramValues url.QueryPairs "outputPath".data)) ∧
      (hasParam url.QueryPairs "outputPath".data → hasParam url.QueryPairs "outputPaths".data →
        cfg.OutputPaths.elems
            = paramValues url.QueryPairs "outputPath".data
              ++ commaTokens (paramValues url.QueryPairs "outputPaths".data) ∨
          cfg.OutputPaths.elems
            = commaTokens (paramValues url.QueryPairs "outputPaths".data)
              ++ paramValues url.QueryPairs "outputPath".data)) ∧
    ((¬ hasParam url.QueryPairs "errorOutputPath".data →
        cfg.ErrorOutputPaths = appendStringsFromCommaSeparatedStrings none
          (paramValues url.QueryPairs "errorOutputPaths".data)) ∧
      (¬ hasParam url.QueryPairs "errorOutputPaths".data →
        cfg.ErrorOutputPaths = appendStringsFromStrings none
          (paramValues url.QueryPairs "errorOutputPath".data)) ∧
      (hasParam url.QueryPairs "errorOutputPath".data →
        hasParam url.QueryPairs "errorOutputPaths".data →
        cfg.ErrorOutputPaths.elems
            = paramValues url.QueryPairs "errorOutputPath".data
              ++ commaTokens (paramValues url.QueryPairs "errorOutputPaths".data) ∨
          cfg.ErrorOutputPaths.elems
            = commaTokens (paramValues url.QueryPairs "errorOutputPaths".data)
              ++ paramValues url.QueryPairs "errorOutputPath".data)) := by
  obtain ⟨_, config, _, t, _, hp⟩ := ParseConfigFromURI_standard u fp o url cfg henc h
  obtain ⟨hout, herr⟩ := standard_paths_fold u _ _ _ _ cfg _ hp
  have kout := range_two_keys "outputPath".data "outputPaths".data (by decide)
    (fun vs x => appendStringsFromStrings x vs)
    (fun vs x => appendStringsFromCommaSeparatedStrings x vs) url o.encoder ho.2.1 none
    appendStrings_nil (fun _ => rfl)
  have kerr := range_two_keys "errorOutputPath".data "errorOutputPaths".data (by decide)
    (fun vs x => appendStringsFromStrings x vs)
    (fun vs x => appendStringsFromCommaSeparatedStrings x vs) url o.encoder ho.2.1 none
    appendStrings_nil (fun _ => rfl)
  have eo : cfg.OutputPaths = (o.encoder url.Query).foldl
      (fun x e => if e.1 = "outputPath".data then appendStringsFromStrings x e.2
        else if e.1 = "outputPaths".data then appendStringsFromCommaSeparatedStrings x e.2
        else x) none := hout
  have ee : cfg.ErrorOutputPaths = (o.encoder url.Query).foldl
      (fun x e => if e.1 = "errorOutputPath".data then appendStringsFromStrings x e.2
        else if e.1 = "errorOutputPaths".data then
          appendStringsFromCommaSeparatedStrings x e.2
        else x) none := herr
  have el : ∀ a b : List GoString,
      (appendStringsFromCommaSeparatedStrings (appendStringsFromStrings none a) b).elems
        = a ++ commaTokens b := by
    intro a b
    rw [elems_appendComma]
    unfold appendStringsFromStrings
    rw [elems_goAppend]
    rfl
  have er : ∀ a b : List GoString,
      (appendStringsFromStrings (appendStringsFromCommaSeparatedStrings none b) a).elems
        = commaTokens b ++ a := by
    intro a b
    unfold appendStringsFromStrings
    rw [elems_goAppend, elems_appendComma]
    rfl
  refine ⟨⟨fun a => eo.trans (kout.1 a), fun a => eo.trans (kout.2.1 a), fun a b => ?_⟩,
    ⟨fun a => ee.trans (kerr.1 a), fun a => ee.trans (kerr.2.1 a), fun a b => ?_⟩⟩
  · rcases kout.2.2 a b with hk | hk
    · left
      rw [eo, hk]
      exact el _ _
    · right
      rw [eo, hk]
      exact er _ _
  · rcases kerr.2.2 a b with hk | hk
    · left
      rw [ee, hk]
      exact el _ _
    · right
      rw [ee, hk]
      exact er _ _

/-- C24 as stated fails: for `logger:console?outputPath=a&outputPaths=b` the
range that visits the query map in order yields `OutputPaths` `[a, b]`, the
range that visits it backwards yields `[b, a]`; both visit every entry once. -/
theorem ParseConfigFromURI_order_counterexample :
    Orders.inOrder.Valid ∧ Orders.encoderReversed.Valid ∧
    ParseConfigFromURI id (fun _ => .ok 0) Orders.inOrder
        ⟨"logger".data, "console".data,
          [("outputPath".data, "a".data), ("outputPaths".data, "b".data)]⟩
      = .ok { defaultConfig with EncoderType := ConsoleEncoder,
                                 OutputPaths := some ["a".data, "b".data] } ∧
    ParseConfigFromURI id (fun _ => .ok 0) Orders.encoderReversed
        ⟨"logger".data, "console".data,
          [("outputPath".data, "a".data), ("outputPaths".data, "b".data)]⟩
      = .ok { defaultConfig with EncoderType := ConsoleEncoder,
                                 OutputPaths := some ["b".data, "a".data] } :=
  ⟨Orders.inOrder_valid,
    ⟨fun m => List.Perm.refl m, fun m => List.reverse_perm m, fun _ m => List.Perm.refl m,
      fun _ m => List.Perm.refl m⟩,
    by decide, by decide⟩

/-- C24, amended. For every console or json URI and every two orders of the
ranges under which `ParseConfigFromURI` returns a Configuration: when the
query does not carry both `outputPath` and `outputPaths`, the two
Configurations have the same `OutputPaths`; when it carries both, `OutputPaths`
is either the `outputPath` values followed by the comma-split `outputPaths`
tokens or the tokens followed by the values, each block in query order,
according to which key the range meets first. The same holds for
`errorOutputPath`, `errorOutputPaths` and `ErrorOutputPaths`. -/
theorem ParseConfigFromURI_paths_order (u : Char → Char)
    (fp : GoString → Except GoError Priority) (o₁ o₂ : Orders) (url : URL)
    (cfg₁ cfg₂ : Config) (ho₁ : o₁.Valid) (ho₂ : o₂.Valid)
    (henc : url.Opaque = "console".data ∨ url.Opaque = "json".data)
    (h₁ : ParseConfigFromURI u fp o₁ url = .ok cfg₁)
    (h₂ : ParseConfigFromURI u fp o₂ url = .ok cfg₂) :
    (¬ (hasParam url.QueryPairs "outputPath".data ∧
          hasParam url.QueryPairs "outputPaths".data) →
      cfg₁.OutputPaths = cfg₂.OutputPaths) ∧
    (¬ (hasParam url.QueryPairs "errorOutputPath".data ∧
          hasParam url.QueryPairs "errorOutputPaths".data) →
      cfg₁.ErrorOutputPaths = cfg₂.ErrorOutputPaths) ∧
    (hasParam url.QueryPairs "outputPath".data → hasParam url.QueryPairs "outputPaths".data →
      cfg₁.OutputPaths.elems
          = paramValues url.QueryPairs "outputPath".data
            ++ commaTokens (paramValues url.QueryPairs "outputPaths".data) ∨
        cfg₁.OutputPaths.elems
          = commaTokens (paramValues url.QueryPairs "outputPaths".data)
            ++ paramValues url.QueryPairs "outputPath".data) ∧
    (hasParam url.QueryPairs "errorOutputPath".data →
      hasParam url.QueryPairs "errorOutputPaths".data →
      cfg₁.ErrorOutputPaths.elems
          = paramValues url.QueryPairs "errorOutputPath".data
            ++ commaTokens (paramValues url.QueryPairs "errorOutputPaths".data) ∨
        cfg₁.ErrorOutputPaths.elems
          = commaTokens (paramValues url.QueryPairs "errorOutputPaths".data)
            ++ paramValues url.QueryPairs "errorOutputPath".data) := by
  obtain ⟨⟨a1, a2, a3⟩, ⟨b1, b2, b3⟩⟩ := standard_paths_value u fp o₁ url cfg₁ ho₁ henc h₁
  obtain ⟨⟨c1, c2, _⟩, ⟨d1, d2, _⟩⟩ := standard_paths_value u fp o₂ url cfg₂ ho₂ henc h₂
  refine ⟨fun hnb => ?_, fun hnb => ?_, a3, b3⟩
  · by_cases hs : hasParam url.QueryPairs "outputPath".data
    · have hp : ¬ hasParam url.QueryPairs "outputPaths".data := fun hp => hnb ⟨hs, hp⟩
      rw [a2 hp, c2 hp]
    · rw [a1 hs, c1 hs]
  · by_cases hs : hasParam url.QueryPairs "errorOutputPath".data
    · have hp : ¬ hasParam url.QueryPairs "errorOutputPaths".data := fun hp => hnb ⟨hs, hp⟩
      rw [b2 hp, d2 hp]
    · rw [b1 hs, d1 hs]

/-- C24, amended, at `logger:console?outputPath=a&development=true&outputPath=b`
under the two orders of the counterexample: the same Configuration, with
`OutputPaths` `[a, b]`. -/
theorem ParseConfigFromURI_paths_order_witness :
    ParseConfigFromURI id (fun _ => .ok 0) Orders.inOrder
        ⟨"logger".data, "console".data,
          [("outputPath".data, "a".data), ("development".data, "true".data),
           ("outputPath".data, "b".data)]⟩
      = .ok { defaultConfig with EncoderType := ConsoleEncoder, Development := true,
                                 OutputPaths := some ["a".data, "b".data] } ∧
    ParseConfigFromURI id (fun _ => .ok 0) Orders.encoderReversed
        ⟨"logger".data, "console".data,
          [("outputPath".data, "a".data), ("development".data, "true".data),
           ("outputPath".data, "b".data)]⟩
      = .ok { defaultConfig with EncoderType := ConsoleEncoder, Development := true,
                                 OutputPaths := some ["a".data, "b".data] } ∧
    ({ defaultConfig with EncoderType := ConsoleEncoder, Development := true,
                          OutputPaths := some ["a".data, "b".data] } : Config).OutputPaths
      = some ["a".data, "b".data] := by
  have h₁ : ParseConfigFromURI id (fun _ => .ok 0) Orders.inOrder
        ⟨"logger".data, "console".data,
          [("outputPath".data, "a".data), ("development".data, "true".data),
           ("outputPath".data, "b".data)]⟩
      = .ok { defaultConfig with EncoderType := ConsoleEncoder, Development := true,
                                 OutputPaths := some ["a".data, "b".data] } := by
    decide
  have h₂ : ParseConfigFromURI id (fun _ => .ok 0) Orders.encoderReversed
        ⟨"logger".data, "console".data,
          [("outputPath".data, "a".data), ("development".data, "true".data),
           ("outputPath".data, "b".data)]⟩
      = .ok { defaultConfig with EncoderType := ConsoleEncoder, Development := true,
                                 OutputPaths := some ["a".data, "b".data] } := by
    decide
  exact ⟨h₁, h₂, ((ParseConfigFromURI_paths_order id (fun _ => .ok 0) Orders.inOrder
    Orders.encoderReversed _ _ _ Orders.inOrder_valid
    ⟨fun m => List.Perm.refl m, fun m => List.reverse_perm m, fun _ m => List.Perm.refl m,
      fun _ m => List.Perm.refl m⟩
    (Or.inl rfl) h₁ h₂).1 (by decide)).trans rfl⟩

/-! ## C26: a key written more than once -/

/-- Two maps without repeated keys that give the same lookups hold the same
entries. -/
theorem GoMap.perm_of_get {β : Type} (m₁ m₂ : GoMap β) (h₁ : (m₁.map Prod.fst).Nodup)
    (h₂ : (m₂.map Prod.fst).Nodup) (h : ∀ k, m₁.get k = m₂.get k) : m₁.Perm m₂ := by
  refine (List.perm_ext_iff_of_nodup (List.Nodup.of_map _ h₁) (List.Nodup.of_map _ h₂)).2 ?_
  intro e
  obtain ⟨k, v⟩ := e
  rw [← GoMap.get_eq_some_iff m₁ h₁, ← GoMap.get_eq_some_iff m₂ h₂, h k]

theorem lastValue_append (xs ys : List (GoString × GoString)) (k : GoString) :
    lastValue (xs ++ ys) k
      = match lastValue ys k with
        | some v => some v
        | none => lastValue xs k := by
  induction xs with
  | nil =>
    rw [List.nil_append]
    cases lastValue ys k <;> rfl
  | cons x xs ih =>
    rw [List.cons_append]
    simp only [lastValue]
    rw [ih]
    cases lastValue ys k <;> rfl

theorem lastValue_ne_none (ys : List (GoString × GoString)) (k : GoString)
    (h : ∃ p ∈ ys, p.1 = k) : lastValue ys k ≠ none := by
  induction ys with
  | nil =>
    obtain ⟨p, hp, _⟩ := h
    exact absurd hp (List.not_mem_nil _)
  | cons y ys ih =>
    obtain ⟨p, hp, hk⟩ := h
    simp only [lastValue]
    cases hl : lastValue ys k with
    | some v => simp
    | none =>
      rcases List.mem_cons.1 hp with hpy | hpy
      · have hy : y.1 = k := hpy ▸ hk
        simp [hy]
      · exact absurd hl (ih ⟨p, hpy, hk⟩)

/-- A pair shadowed by a later pair of the same key spelling changes no lookup. -/
theorem lastValue_drop_shadowed (xs ys : List (GoString × GoString)) (x : GoString × GoString)
    (h : ∃ p ∈ ys, p.1 = x.1) (k : GoString) :
    lastValue (xs ++ x :: ys) k = lastValue (xs ++ ys) k := by
  rw [lastValue_append, lastValue_append]
  simp only [lastValue]
  cases hl : lastValue ys k with
  | some v => rfl
  | none =>
    have hx : ¬ x.1 = k := by
      intro hx
      obtain ⟨p, hp, hpk⟩ := h
      exact lastValue_ne_none ys k ⟨p, hp, hpk.trans hx⟩ hl
    simp only [hx, if_false]

/-- The results `parseLumberjack` can return depend on the scanned map only
through the entries it holds. -/
theorem possible_of_perm (u : Char → Char) (s s' : GoString)
    (h : (scanKV s').Perm (scanKV s)) (r : Except GoError LumberjackConfig) :
    parseLumberjackPossible u s' r ↔ parseLumberjackPossible u s r := by
  rw [possible_iff_filter, possible_iff_filter]
  constructor
  · rintro ⟨es, hes, hr⟩
    exact ⟨es, hes.trans (h.filter _), hr⟩
  · rintro ⟨es, hes, hr⟩
    exact ⟨es, hes.trans (h.symm.filter _), hr⟩

/-- The pairs scanned from a spec whose pieces are `l₁ ++ p :: l₂`. -/
theorem scanPairs_of_pieces (s p : GoString) (l₁ l₂ : List GoString) (hp : p ≠ [])
    (hs : splitAny [',', ';'] s = l₁ ++ p :: l₂) :
    scanPairs s
      = (l₁.filter (fun seg => seg != [])).map cutEq
          ++ cutEq p :: (l₂.filter (fun seg => seg != [])).map cutEq := by
  have hp' : (p != []) = true := by simpa using hp
  unfold scanPairs
  rw [hs, List.filter_append, List.filter_cons]
  simp only [hp', if_true, List.map_append, List.map_cons]

theorem scanPairs_of_pieces_without (s : GoString) (l₁ l₂ : List GoString)
    (hs : splitAny [',', ';'] s = l₁ ++ l₂) :
    scanPairs s
      = (l₁.filter (fun seg => seg != [])).map cutEq
          ++ (l₂.filter (fun seg => seg != [])).map cutEq := by
  unfold scanPairs
  rw [hs, List.filter_append, List.map_append]

/-- Where an earlier occurrence sits in a spec: after a prefix that is empty or
ends with a separator, before a separator and the rest. -/
theorem pair_before_segments (a b p : GoString) (d : Char) (hd : d = ',' ∨ d = ';')
    (hp : ∀ c ∈ p, c ≠ ',' ∧ c ≠ ';')
    (ha : a = [] ∨ ∃ e a', (e = ',' ∨ e = ';') ∧ a = a' ++ [e]) :
    ∃ l₁, splitAny [',', ';'] (a ++ b) = l₁ ++ splitAny [',', ';'] b ∧
      splitAny [',', ';'] (a ++ (p ++ d :: b)) = l₁ ++ p :: splitAny [',', ';'] b := by
  have hmem : ∀ e : Char, e = ',' ∨ e = ';' → e ∈ [',', ';'] := by
    intro e he
    rcases he with he | he <;> simp [he]
  have hp' : ∀ c ∈ p, c ∉ [',', ';'] := by
    intro c hc hm
    obtain ⟨h1, h2⟩ := hp c hc
    simp only [List.mem_cons, List.mem_singleton, List.not_mem_nil, or_false] at hm
    rcases hm with hm | hm
    · exact h1 hm
    · exact h2 hm
  have hpb : splitAny [',', ';'] (p ++ d :: b) = p :: splitAny [',', ';'] b := by
    rw [splitAny_append_sep _ _ _ _ (hmem d hd), splitAny_no_sep _ _ hp']
    rfl
  rcases ha with ha | ⟨e, a', he, ha⟩
  · subst ha
    exact ⟨[], rfl, by rw [List.nil_append, hpb]; rfl⟩
  · subst ha
    refine ⟨splitAny [',', ';'] a', ?_, ?_⟩
    · rw [List.append_assoc, List.singleton_append, splitAny_append_sep _ _ _ _ (hmem e he)]
    · rw [List.append_assoc, List.singleton_append, splitAny_append_sep _ _ _ _ (hmem e he),
        hpb]

/-- The scanned map of a spec with an earlier occurrence of a key that a later
piece writes again, and that of the spec without the occurrence, give the same
lookups, the one under the key being that of the rest. -/
theorem scanKV_drop_shadowed (s s' p q : GoString) (l₁ l₂ : List GoString) (hp : p ≠ [])
    (hs : splitAny [',', ';'] s = l₁ ++ p :: l₂) (hs' : splitAny [',', ';'] s' = l₁ ++ l₂)
    (hq : q ∈ l₂) (hqne : q ≠ []) (hkey : (cutEq q).1 = (cutEq p).1) :
    (∀ k, (scanKV s).get k = (scanKV s').get k) ∧
    (scanKV s).get (cutEq p).1
      = lastValue ((l₂.filter (fun seg => seg != [])).map cutEq) (cutEq p).1 ∧
    (scanKV s).get (cutEq p).1 ≠ none := by
  have hmemq : cutEq q ∈ (l₂.filter (fun seg => seg != [])).map cutEq := by
    apply List.mem_map_of_mem
    rw [List.mem_filter]
    exact ⟨hq, by simpa using hqne⟩
  have hsh : ∃ e ∈ (l₂.filter (fun seg => seg != [])).map cutEq, e.1 = (cutEq p).1 :=
    ⟨cutEq q, hmemq, hkey⟩
  have hne := lastValue_ne_none _ _ hsh
  have hval : (scanKV s).get (cutEq p).1
      = lastValue ((l₂.filter (fun seg => seg != [])).map cutEq) (cutEq p).1 := by
    rw [scanKV_get, scanPairs_of_pieces s p l₁ l₂ hp hs, lastValue_append]
    simp only [lastValue]
    cases hl : lastValue ((l₂.filter (fun seg => seg != [])).map cutEq) (cutEq p).1 with
    | some v => rfl
    | none => exact absurd hl hne
  refine ⟨fun k => ?_, hval, ?_⟩
  · rw [scanKV_get, scanKV_get, scanPairs_of_pieces s p l₁ l₂ hp hs,
      scanPairs_of_pieces_without s' l₁ l₂ hs']
    exact lastValue_drop_shadowed _ _ _ hsh k
  · rw [hval]
    exact hne

/-- C26. For every list of specs and every spec `a ++ p ++ d ++ b` of it in
which the piece `p` (not empty, without `,` and `;`, after a prefix `a` that is
empty or ends with a separator, before the separator `d`) has the key spelling
of a later piece `q` of the rest `b`: the scanned map of the spec gives the
same lookups as that of the spec without `p`, the value under the key being
the one the rest gives it, so the results `ParseLumberjacks` can return,
configs and errors alike, are those of the list with `p` removed, whatever the
value of `p`. -/
theorem ParseLumberjacks_last_occurrence (u : Char → Char) (pre post : List GoString)
    (a b p q : GoString) (d : Char) (hd : d = ',' ∨ d = ';')
    (hp : ∀ c ∈ p, c ≠ ',' ∧ c ≠ ';') (hpne : p ≠ [])
    (ha : a = [] ∨ ∃ e a', (e = ',' ∨ e = ';') ∧ a = a' ++ [e])
    (hq : q ∈ splitAny [',', ';'] b) (hqne : q ≠ [])
    (hkey : (cutEq q).1 = (cutEq p).1) :
    (∀ k, (scanKV (a ++ (p ++ d :: b))).get k = (scanKV (a ++ b)).get k) ∧
    (scanKV (a ++ (p ++ d :: b))).get (cutEq p).1 = (scanKV b).get (cutEq p).1 ∧
    (scanKV (a ++ (p ++ d :: b))).get (cutEq p).1 ≠ none ∧
    (∀ r, ParseLumberjacksPossible u (pre ++ (a ++ (p ++ d :: b)) :: post) r ↔
      ParseLumberjacksPossible u (pre ++ (a ++ b) :: post) r) := by
  obtain ⟨l₁, hs', hs⟩ := pair_before_segments a b p d hd hp ha
  obtain ⟨hget, hval, hsome⟩ :=
    scanKV_drop_shadowed (a ++ (p ++ d :: b)) (a ++ b) p q l₁ _ hpne hs hs' hq hqne hkey
  have hperm : (scanKV (a ++ (p ++ d :: b))).Perm (scanKV (a ++ b)) :=
    GoMap.perm_of_get _ _ (scanKV_nodup _) (scanKV_nodup _) hget
  have hposs : ∀ r, parseLumberjackPossible u (a ++ (p ++ d :: b)) r ↔
      parseLumberjackPossible u (a ++ b) r :=
    fun r => possible_of_perm u (a ++ b) (a ++ (p ++ d :: b)) hperm r
  refine ⟨hget, ?_, hsome, fun r => ⟨?_, ?_⟩⟩
  · rw [hval, scanKV_get]
    rfl
  · exact ParseLumberjacksPossible_replace u _ _ pre post (fun r' => (hposs r').1) r
  · exact ParseLumberjacksPossible_replace u _ _ pre post (fun r' => (hposs r').2) r

/-- C26, at the spec `maxsize=x,compress=true,maxsize=7`: the first `maxsize`,
not an integer, is without effect. -/
theorem ParseLumberjacks_last_occurrence_witness :
    ParseLumberjacks id (fun _ => id) ["maxsize=x,compress=true,maxsize=7".data]
      = .ok [⟨[], 7, 0, 50, false, true⟩] ∧
    (scanKV "maxsize=x,compress=true,maxsize=7".data).get "maxsize".data = some "7".data ∧
    (ParseLumberjacksPossible id ["maxsize=x,compress=true,maxsize=7".data]
        (.ok [⟨[], 7, 0, 50, false, true⟩]) ↔
      ParseLumberjacksPossible id ["compress=true,maxsize=7".data]
        (.ok [⟨[], 7, 0, 50, false, true⟩])) :=
  ⟨by decide, by decide,
    (ParseLumberjacks_last_occurrence id [] [] [] "compress=true,maxsize=7".data
      "maxsize=x".data "maxsize=7".data ',' (Or.inl rfl) (by decide) (by decide) (Or.inl rfl)
      (by decide) (by decide) (by decide)).2.2.2 _⟩

end GoLog
